import Mathlib

/-!
# extrame-xls: cell decoding and number-format classification

A shallow embedding of `col.go` (the RK decoder and its text rendering, the
date/time format classifiers) and of `yymmdd/parser.go` (the format compiler),
with the properties proved about them. The parts of Go's `strconv` and `math`
that the code calls are modelled next to it.

Conventions of the embedding:

* Go's `uint32`, `int32`, `uint64` are `Nat`/`Int` with explicit reductions
  modulo `2 ^ 32` and `2 ^ 64`.
* Go's `float64` is the type `Float64` of IEEE-754 binary64 bit patterns; the
  arithmetic used by the code (conversion from an integer, division by the
  constant `100`) is round-to-nearest-even on exact quotients of naturals.
* Go strings are `String`, inspected through their list of runes.
* A nil pointer is `none`; a dereference of it is the outcome `Fault.nilDeref`.
-/

set_option exponentiation.threshold 5000

/-! ## binary64 values -/

/-- IEEE-754 binary64 number, held as its 64-bit pattern (`bits < 2 ^ 64`):
bit 63 is the sign, bits 62..52 the biased exponent, bits 51..0 the fraction. -/
structure Float64 where
  bits : Nat
  deriving DecidableEq, Repr

namespace Float64

/-- Bit pattern of `+Inf`, `0x7FF0000000000000`. -/
def infBits : Nat := 2047 * 2 ^ 52

/-- The float `+0`, Go's zero value of `float64`. -/
def zero : Float64 := ⟨0⟩

/-- Sign bit (bit 63). -/
def sign (x : Float64) : Bool := x.bits / 2 ^ 63 % 2 = 1

/-- Biased exponent field (bits 62..52). -/
def expField (x : Float64) : Nat := x.bits / 2 ^ 52 % 2048

/-- Fraction field (bits 51..0). -/
def fracField (x : Float64) : Nat := x.bits % 2 ^ 52

/-- Not-a-number: exponent all ones, fraction non-zero. -/
def isNaN (x : Float64) : Bool := x.expField = 2047 && x.fracField ≠ 0

/-- Infinity of either sign: exponent all ones, fraction zero. -/
def isInf (x : Float64) : Bool := x.expField = 2047 && x.fracField = 0

/-- Significand of a finite value: the fraction, with the hidden bit for a
normal number. -/
def mant (x : Float64) : Nat :=
  if x.expField = 0 then x.fracField else 2 ^ 52 + x.fracField

/-- Binary exponent of the significand of a finite value, counted from the
smallest quantum `2 ^ (-1074)`: the magnitude is `mant * 2 ^ ulpExp / 2 ^ 1074`. -/
def ulpExp (x : Float64) : Nat := x.expField - 1

/-- Magnitude of a finite value in units of `2 ^ (-1074)`. -/
def scaled (x : Float64) : Nat := x.mant * 2 ^ x.ulpExp

/-- Go's `==` on `float64`: a NaN equals nothing, the two zeros are equal,
any other two values are equal when their patterns are. -/
def feq (x y : Float64) : Bool :=
  !x.isNaN && !y.isNaN &&
    (x.bits = y.bits || (x.bits % 2 ^ 63 = 0 && y.bits % 2 ^ 63 = 0))

end Float64

/-- Number of binary digits of `x`, by binary chop over the shift widths `ks`. -/
def bitLenAux : List Nat → Nat → Nat → Nat
  | [], x, acc => if x = 0 then acc else acc + 1
  | k :: ks, x, acc =>
    if 2 ^ k ≤ x then bitLenAux ks (x / 2 ^ k) (acc + k) else bitLenAux ks x acc

/-- Number of binary digits of `x` (`0` for `0`), for `x < 2 ^ 4096`. -/
def bitLen (x : Nat) : Nat :=
  bitLenAux [2048, 1024, 512, 256, 128, 64, 32, 16, 8, 4, 2, 1] x 0

/-- The shift widths of a binary chop: each is at most one more than the sum
of those after it. -/
def chopOK : List Nat → Prop
  | [] => True
  | k :: ks => k ≤ ks.sum + 1 ∧ chopOK ks

/-- Quotient `n / d` rounded to the nearest integer, a tie going to the even one. -/
def rneDiv (n d : Nat) : Nat :=
  if 2 * (n % d) < d then n / d
  else if d < 2 * (n % d) then n / d + 1
  else n / d + n / d % 2

/-- Bit pattern (sign bit clear) of the binary64 number nearest to `n / d`
(`0 < d`), ties to even, overflow to `+Inf`. The quotient is taken in units of
`2 ^ (-1074)`; `s` is the number of low bits dropped to keep 53 significant
bits, which is also the biased exponent minus one of a normal result, so that
the pattern is `s * 2 ^ 52` plus the rounded significand (a carry out of the
significand moves to the next exponent by the same addition). -/
def roundMag (n d : Nat) : Nat :=
  if d * 2 ^ 1024 ≤ n then Float64.infBits
  else
    let s := bitLen (n * 2 ^ 1074 / d) - 53
    s * 2 ^ 52 + rneDiv (n * 2 ^ 1074) (d * 2 ^ s)

namespace Float64

/-- Go's `math.Float64frombits` on a `uint64`. -/
def Float64frombits (b : Nat) : Float64 := ⟨b % 2 ^ 64⟩

/-- Go's conversion `float64(i)` of a signed integer. -/
def ofInt (i : Int) : Float64 :=
  ⟨(if i < 0 then 2 ^ 63 else 0) + roundMag i.natAbs 1⟩

/-- Go's `x / 100` on `float64`: a NaN stays a NaN (quieted, as the hardware
division does), an infinity stays itself, a finite value is the exact quotient
rounded to nearest-even, with the sign of `x`. -/
def div100 (x : Float64) : Float64 :=
  if x.isNaN then ⟨x.bits % 2 ^ 64 ||| 2 ^ 51⟩
  else if x.isInf then x
  else ⟨(if x.sign then 2 ^ 63 else 0) + roundMag x.scaled (100 * 2 ^ 1074)⟩

end Float64

/-! ## `strconv`: integers -/

/-- The character of a decimal digit `d < 10`. -/
def digitChar (d : Nat) : Char := Char.ofNat (48 + d)

/-- Decimal digits of `n`, most significant first, with `fuel` bounding the count. -/
def natDigitsAux : Nat → Nat → List Char → List Char
  | 0, _, acc => acc
  | fuel + 1, n, acc =>
    if n < 10 then digitChar n :: acc
    else natDigitsAux fuel (n / 10) (digitChar (n % 10) :: acc)

/-- Decimal digits of `n`, most significant first; `0` is the single digit `0`. -/
def natDigits (n : Nat) : List Char := natDigitsAux (n + 1) n []

/-- Decimal digits by recursion on the value; `natDigits` computes the same
list with a step bound. -/
def decDigits (n : Nat) : List Char :=
  if _h : n < 10 then [digitChar n] else decDigits (n / 10) ++ [digitChar (n % 10)]
decreasing_by omega

/-- Whether `c` is one of `0`..`9`. -/
def isDecDigit (c : Char) : Bool := 48 ≤ c.toNat && c.toNat ≤ 57

/-- Number written by a list of decimal digits, most significant first. -/
def digitsVal (cs : List Char) : Nat :=
  cs.foldl (fun a c => 10 * a + (c.toNat - 48)) 0

/-- Go's `strconv.FormatInt(i, 10)`. -/
def FormatInt (i : Int) : String :=
  ⟨if i < 0 then '-' :: natDigits i.natAbs else natDigits i.natAbs⟩

/-- The optional sign in front of a number text: whether it is `-`, and the
text after the sign. -/
def splitSign : List Char → Bool × List Char
  | [] => (false, [])
  | c :: cs => if c = '-' then (true, cs) else if c = '+' then (false, cs) else (false, c :: cs)

/-- Go's `strconv.ParseInt(s, 10, 64)`, the inverse text-to-number operation
for integers: an optional sign, then one or more decimal digits; `none` is a
syntax or range error. -/
def ParseInt (s : String) : Option Int :=
  let neg := (splitSign s.data).1
  let body := (splitSign s.data).2
  if body.isEmpty || !body.all isDecDigit then none
  else
    let v : Int := if neg then -(digitsVal body : Int) else (digitsVal body : Int)
    if v < -(2 ^ 63) || 2 ^ 63 ≤ v then none else some v

/-! ## `strconv`: floats -/

/-- The lower midpoint of a float with significand `m` at exponent `e`, in
units of `2 ^ (-1075)`: half a quantum below, or a quarter of the quantum when
the float is the first of a binade above the lowest (`mantlo`, `explo` of
`roundShortest`). -/
def loBound (m e : Nat) : Nat :=
  if 2 ^ 52 < m ∨ e = 0 then (2 * m - 1) * 2 ^ e else (4 * m - 1) * 2 ^ (e - 1)

/-- The upper midpoint, in units of `2 ^ (-1075)`. -/
def upBound (m e : Nat) : Nat := (2 * m + 1) * 2 ^ e

/-- Weight of one unit of the decimal position `10 ^ j` against a bound in
units of `2 ^ (-1075)`: `c * 10 ^ j` compares with `B / 2 ^ 1075` as
`c * posScale j` with `B * negScale j`. -/
def posScale (j : Int) : Nat := if 0 ≤ j then 10 ^ j.toNat * 2 ^ 1075 else 2 ^ 1075

/-- Weight of a bound against the decimal position `10 ^ j`; see `posScale`. -/
def negScale (j : Int) : Nat := if 0 ≤ j then 1 else 10 ^ (-j).toNat

/-- The decimal `c * 10 ^ j` lies between the bounds `Lo` and `Up` (in units of
`2 ^ (-1075)`), the bounds themselves counting when `incl` holds. -/
def inBounds (Lo Up : Nat) (incl : Bool) (c : Nat) (j : Int) : Prop :=
  (Lo * negScale j < c * posScale j ∨ (incl = true ∧ Lo * negScale j = c * posScale j)) ∧
  (c * posScale j < Up * negScale j ∨ (incl = true ∧ c * posScale j = Up * negScale j))

/-- One step of `roundShortest` at the decimal position `10 ^ j`. All bounds are
in units of `2 ^ (-1075)`: `W` is the value, `Lo` and `Up` the midpoints to the
neighbouring floats, `incl` says whether the midpoints themselves round to the
value. The truncation `dn * 10 ^ j` and its successor are tried; the result is
the digit-number chosen, or `none` when neither lies within the bounds. -/
def shortestAt (W Lo Up : Nat) (incl : Bool) (j : Int) : Option Nat :=
  let sc := posScale j
  let sb := negScale j
  let dn := W * sb / sc
  let okdown := Lo * sb < dn * sc || (incl && Lo * sb = dn * sc)
  let okup := (dn + 1) * sc < Up * sb || (incl && (dn + 1) * sc = Up * sb)
  let r := W * sb % sc
  if okdown && okup then
    some (if 2 * r < sc then dn else if sc < 2 * r then dn + 1 else dn + dn % 2)
  else if okdown then some dn
  else if okup then some (dn + 1)
  else none

/-- The walk of `roundShortest` down the decimal positions, from `10 ^ j`:
the first position at which a candidate lies within the bounds gives the
result `(c, j)`, standing for `c * 10 ^ j`. With no position left the exact
expansion `W * 5 ^ 1075 * 10 ^ (-1075)` is returned. -/
def shortestFrom (W Lo Up : Nat) (incl : Bool) : Nat → Int → Nat × Int
  | 0, _ => (W * 5 ^ 1075, -1075)
  | fuel + 1, j =>
    match shortestAt W Lo Up incl j with
    | some c => (c, j)
    | none => shortestFrom W Lo Up incl fuel (j - 1)

/-- Shortest decimal `(c, j)`, standing for `c * 10 ^ j`, that rounds back to
the finite non-zero float `x`. The walk starts above the leading digit of any
finite float (`10 ^ 309`) and ends at `10 ^ (-1075)`, where the truncation is
exact. -/
def shortest (x : Float64) : Nat × Int :=
  let m := x.mant
  let e := x.ulpExp
  shortestFrom (2 * m * 2 ^ e) (loBound m e) (upBound m e) (m % 2 = 0) 1385 309

/-- Drops the trailing zeros of a digit list. -/
def trimZeros (ds : List Char) : List Char :=
  (ds.reverse.dropWhile (fun c => c = '0')).reverse

/-- Go's `%f` layout of the digits `ds` with the decimal point `dp` places from
their start, at the precision that shows every digit: the integer part padded
with zeros (or a lone `0`), then the fraction when there is one. -/
def fmtF (ds : List Char) (dp : Int) : List Char :=
  let ip := if 0 < dp then ds.take dp.toNat ++ List.replicate (dp.toNat - ds.length) '0'
    else ['0']
  let prec := ((ds.length : Int) - dp).toNat
  let fr := if 0 < prec then '.' :: (List.replicate (-dp).toNat '0' ++ ds.drop dp.toNat)
    else []
  ip ++ fr

/-- Go's `strconv.FormatFloat(f, 'f', -1, 64)`. -/
def FormatFloat (x : Float64) : String :=
  if x.isNaN then "NaN"
  else if x.isInf then (if x.sign then "-Inf" else "+Inf")
  else
    let sgn : List Char := if x.sign then ['-'] else []
    if x.mant = 0 then ⟨sgn ++ ['0']⟩
    else
      let cj := shortest x
      let ds := natDigits cj.1
      ⟨sgn ++ fmtF (trimZeros ds) ((ds.length : Int) + cj.2)⟩

/-- Plain decimal `digits[.digits]`, read as the pair `(n, k)` standing for
`n / 10 ^ k`; `none` when the text is not of that shape. -/
def parseDecimal (cs : List Char) : Option (Nat × Nat) :=
  let ip := cs.takeWhile isDecDigit
  match cs.dropWhile isDecDigit with
  | [] => if ip.isEmpty then none else some (digitsVal ip, 0)
  | '.' :: fr =>
    if fr.all isDecDigit && !(ip.isEmpty && fr.isEmpty) then
      some (digitsVal (ip ++ fr), fr.length)
    else none
  | _ => none

/-- Go's `strconv.ParseFloat(s, 64)`, the inverse text-to-number operation for
floats, on the texts `FormatFloat` writes: `NaN`, or an optional sign followed
by `Inf` or a plain decimal, which is rounded to the nearest float (ties to
even, out of range to an infinity). `none` is a syntax error; exponents,
hexadecimal floats and digit separators are outside the modelled grammar. -/
def ParseFloat (s : String) : Option Float64 :=
  if s.data = ['N', 'a', 'N'] then some ⟨0x7FF8000000000001⟩
  else
    let neg := (splitSign s.data).1
    let body := (splitSign s.data).2
    let sgn : Nat := if neg then 2 ^ 63 else 0
    if body = ['I', 'n', 'f'] then some ⟨sgn + Float64.infBits⟩
    else match parseDecimal body with
      | some (n, k) => some ⟨sgn + roundMag n (10 ^ k)⟩
      | none => none

/-! ## `col.go`: the RK encoding -/

/-- Go's `type RK uint32`. -/
abbrev RK := Nat

/-- Go's conversion `int32(u)` of a `uint32`: the two's-complement reading. -/
def toInt32 (u : Nat) : Int :=
  if u % 2 ^ 32 < 2 ^ 31 then (u % 2 ^ 32 : Nat) else ((u % 2 ^ 32 : Nat) : Int) - 2 ^ 32

/-- Go's conversion `uint64(v)` of a signed integer: reduction modulo `2 ^ 64`. -/
def toUint64 (v : Int) : Nat := (v % 2 ^ 64).toNat

/-- Go's `func (rk RK) number() (intNum int64, floatNum float64, isFloat bool)`. -/
def RK.number (rk : RK) : Int × Float64 × Bool :=
  let multiplied := rk &&& 1
  let isInt := rk &&& 2
  let val := toInt32 rk >>> (2 : Nat)
  if isInt = 0 then
    let floatNum := Float64.Float64frombits (toUint64 val * 2 ^ 34 % 2 ^ 64)
    if multiplied ≠ 0 then (0, floatNum.div100, true)
    else (0, floatNum, true)
  else if multiplied ≠ 0 then (0, (Float64.ofInt val).div100, true)
  else (val, Float64.zero, false)

/-- Go's `func (rk RK) String() string`. -/
def RK.String (rk : RK) : String :=
  match RK.number rk with
  | (i, f, isFloat) => if isFloat then FormatFloat f else FormatInt i

/-- Go errors of this package. -/
inductive Error where
  | ErrIsInt
  deriving DecidableEq, Repr

/-- Go's `func (rk RK) Float() (float64, error)`; a nil error is `none`. -/
def RK.Float (rk : RK) : Float64 × Option Error :=
  match RK.number rk with
  | (_, f, isFloat) => if !isFloat then (Float64.zero, some Error.ErrIsInt) else (f, none)

/-! ## `col.go`: the number-format classifiers -/

/-- Go's `unicode.ToLower`: an ASCII rune is lowered by the fixed rule for
`A`..`Z`; any other rune goes through the Unicode case table `tbl`, which is
data of the Go runtime and stays a parameter. -/
def toLowerRune (tbl : Char → Char) (c : Char) : Char :=
  if c.toNat < 128 then c.toLower else tbl c

/-- Go's `strings.ToLower`. -/
def ToLower (tbl : Char → Char) (s : String) : String :=
  ⟨s.data.map (toLowerRune tbl)⟩

/-- Whether `sub` occurs in `s` as a contiguous block. -/
def containsList : List Char → List Char → Bool
  | [], sub => sub.isEmpty
  | c :: cs, sub => sub.isPrefixOf (c :: cs) || containsList cs sub

/-- Go's `strings.Contains`. -/
def Contains (s substr : String) : Bool := containsList s.data substr.data

/-- The list `dateTimePatterns` of `IsDateTimeFormat`. -/
def dateTimePatterns : List String :=
  ["yyyy", "yy", "mm", "dd", "hh", "ss",
   "m/d", "d/m", "yyyy-mm-dd", "dd-mm-yyyy", "mm-dd-yyyy",
   "h:mm", "hh:mm:ss", "mm:ss", "h:mm:ss",
   "yyyy/mm/dd", "dd/mm/yyyy", "mm/dd/yyyy",
   "general date", "long date", "medium date", "short date",
   "long time", "medium time", "short time"]

/-- The 14 entries of `dateTimePatterns` none of which contains another. -/
def corePatterns : List String :=
  ["yy", "mm", "dd", "hh", "ss", "m/d", "d/m",
   "general date", "long date", "medium date", "short date",
   "long time", "medium time", "short time"]

/-- Go's `func IsDateTimeFormat(numFmt string) bool`. -/
def IsDateTimeFormat (tbl : Char → Char) (numFmt : String) : Bool :=
  if numFmt = "" then false
  else
    let numFmtLower := ToLower tbl numFmt
    dateTimePatterns.any (fun pattern => Contains numFmtLower pattern)

/-- Go's `func IsDateOnlyFormat(numFmt string) bool`. -/
def IsDateOnlyFormat (tbl : Char → Char) (numFmt : String) : Bool :=
  if numFmt = "" then false
  else
    let numFmtLower := ToLower tbl numFmt
    let hasTimePattern := Contains numFmtLower "h" || Contains numFmtLower "hh" ||
      Contains numFmtLower "ss"
    let hasYearPattern := Contains numFmtLower "yyyy" || Contains numFmtLower "yy"
    let hasDayPattern := Contains numFmtLower "dd" || Contains numFmtLower "d"
    let hasMonthPattern := (Contains numFmtLower "mm" || Contains numFmtLower "m") &&
      !hasTimePattern
    let hasDatePattern := (hasYearPattern || hasDayPattern || hasMonthPattern) &&
      (hasYearPattern || (hasMonthPattern && hasDayPattern))
    hasDatePattern && !hasTimePattern

/-- Go's `func IsTimeOnlyFormat(numFmt string) bool`. -/
def IsTimeOnlyFormat (tbl : Char → Char) (numFmt : String) : Bool :=
  if numFmt = "" then false
  else
    let numFmtLower := ToLower tbl numFmt
    let hasTimePattern := Contains numFmtLower "h" || Contains numFmtLower "hh" ||
      Contains numFmtLower "ss"
    let hasYearPattern := Contains numFmtLower "yyyy" || Contains numFmtLower "yy"
    let hasDayPattern := Contains numFmtLower "dd" || Contains numFmtLower "d"
    let hasMonthPattern := (Contains numFmtLower "mm" || Contains numFmtLower "m") &&
      !hasTimePattern
    let hasDatePattern := hasYearPattern || hasDayPattern || hasMonthPattern
    hasTimePattern && !hasDatePattern

/-! ## `yymmdd/parser.go`: the format compiler -/

/-- Modelled from the spec: the kind tag of a lexer token (`t[0]`). The lexer
and its `T_...` constants are not among these sources; the spec lists the
eight kinds. `other` stands for any tag value that is none of the constants. -/
inductive TokenKind where
  | T_EOF
  | T_YEAR_MARK
  | T_MONTH_MARK
  | T_DAY_MARK
  | T_HOUR_MARK
  | T_MINUTE_MARK
  | T_SECOND_MARK
  | T_RAW_MARK
  | other (tag : String)
  deriving DecidableEq, Repr

/-- Go's `LexToken`: `t[0]` is the kind, `t[1]` the text the token was lexed from. -/
structure LexToken where
  kind : TokenKind
  text : String
  deriving DecidableEq, Repr

/-- Modelled from the spec: the renderer components, one type per token kind
other than end of input, each holding its original source text. Their
declarations are not among these sources; `basicFormatter` has the field
`origin` that `initialParserState` assigns. -/
inductive ItemFormatter where
  | YearFormatter (origin : String)
  | MonthFormatter (origin : String)
  | DayFormatter (origin : String)
  | HourFormatter (origin : String)
  | MinuteFormatter (origin : String)
  | SecondFormatter (origin : String)
  | basicFormatter (origin : String)
  deriving DecidableEq, Repr

/-- Modelled from the spec: `setOriginal` copies the token's original text
into the component. The method is not among these sources. -/
def ItemFormatter.setOriginal (s : String) : ItemFormatter → ItemFormatter
  | .YearFormatter _ => .YearFormatter s
  | .MonthFormatter _ => .MonthFormatter s
  | .DayFormatter _ => .DayFormatter s
  | .HourFormatter _ => .HourFormatter s
  | .MinuteFormatter _ => .MinuteFormatter s
  | .SecondFormatter _ => .SecondFormatter s
  | .basicFormatter _ => .basicFormatter s

/-- Go's `Formatter`: the compiled component list `Items`. -/
structure Formatter where
  Items : List ItemFormatter
  deriving DecidableEq, Repr

/-- Run-time faults of the Go code. -/
inductive Fault where
  | nilDeref
  | indexOutOfRange
  | nanPanic
  deriving DecidableEq, Repr

/-- Result of running Go code under a step bound: a value, a fault (panic), or
the bound reached. -/
inductive Outcome (α : Type) where
  | ok (a : α)
  | fault (e : Fault)
  | outOfFuel
  deriving DecidableEq, Repr

/-- Go's `parser`: the token slice and the position of the last token read. -/
structure parser where
  tokens : List LexToken
  pos : Int
  deriving DecidableEq, Repr

/-- Go's `func (p *parser) next() *LexToken`: `none` is the nil pointer. -/
def parser.next (p : parser) : Outcome (Option LexToken × parser) :=
  if p.pos ≥ (p.tokens.length : Int) - 1 then .ok (none, p)
  else
    let p1 : parser := { p with pos := p.pos + 1 }
    if p1.pos < 0 then .fault .indexOutOfRange
    else .ok (p1.tokens.get? p1.pos.toNat, p1)

/-- The `switch t[0]` of `initialParserState`: the fresh component for a token
kind; `none` is the nil `item` left by a kind that matches no case. -/
def newItem : TokenKind → Option ItemFormatter
  | .T_YEAR_MARK => some (.YearFormatter "")
  | .T_MONTH_MARK => some (.MonthFormatter "")
  | .T_DAY_MARK => some (.DayFormatter "")
  | .T_HOUR_MARK => some (.HourFormatter "")
  | .T_MINUTE_MARK => some (.MinuteFormatter "")
  | .T_SECOND_MARK => some (.SecondFormatter "")
  | .T_RAW_MARK => some (.basicFormatter "")
  | _ => none

/-- The `for` loop of `initialParserState`, entered at `t = p.next()`: it ends
with the end-of-input token in hand. Each round reads one token, so the number
of tokens plus one bounds the rounds. -/
def initialParserState.loop : Nat → parser → Formatter → Outcome (parser × Formatter × LexToken)
  | 0, _, _ => .outOfFuel
  | fuel + 1, p, f =>
    match p.next with
    | .fault e => .fault e
    | .outOfFuel => .outOfFuel
    | .ok (none, _) => .fault .nilDeref
    | .ok (some t, p1) =>
      if t.kind = .T_EOF then .ok (p1, f, t)
      else
        match newItem t.kind with
        | none => .fault .nilDeref
        | some item =>
          initialParserState.loop fuel p1 { Items := f.Items ++ [item.setOriginal t.text] }

/-- The states of the parser's state machine; Go holds them as functions. -/
inductive parserState where
  | initialParserState
  deriving DecidableEq, Repr

/-- Go's `func initialParserState(p *parser, f *Formatter) parserState`; the
returned state `none` is Go's `nil`. -/
def initialParserState (p : parser) (f : Formatter) :
    Outcome (Option parserState × parser × Formatter) :=
  match initialParserState.loop (p.tokens.length + 1) p f with
  | .fault e => .fault e
  | .outOfFuel => .outOfFuel
  | .ok (p1, f1, t) =>
    if t.text.length > 0 then
      .ok (none, p1, { Items := f1.Items ++ [.basicFormatter t.text] })
    else .ok (none, p1, f1)

/-- Go's `func (p *parser) run() Formatter`: states are run until the next
state is nil, at most `fuel` of them. -/
def parser.run : Nat → Option parserState → parser → Formatter → Outcome Formatter
  | _, none, _, f => .ok f
  | 0, some _, _, _ => .outOfFuel
  | fuel + 1, some .initialParserState, p, f =>
    match initialParserState p f with
    | .fault e => .fault e
    | .outOfFuel => .outOfFuel
    | .ok (st, p1, f1) => parser.run fuel st p1 f1

/-- Go's `func parse(tokens []LexToken) Formatter`. The initial state returns
nil, so one state transition is all the machine makes. -/
def parse (tokens : List LexToken) : Outcome Formatter :=
  parser.run 1 (some .initialParserState) { tokens := tokens, pos := -1 } { Items := [] }

/-- Transports the value of an outcome. -/
def Outcome.map {α β : Type} (g : α → β) : Outcome α → Outcome β
  | .ok a => .ok (g a)
  | .fault e => .fault e
  | .outOfFuel => .outOfFuel

/-- The loop of `initialParserState` read off the tokens not yet consumed,
without the cursor: the specification the cursor-driven loop is compared with. -/
def scanTokens : List LexToken → Formatter → Outcome (Formatter × LexToken)
  | [], _ => .fault .nilDeref
  | t :: ts, f =>
    if t.kind = .T_EOF then .ok (f, t)
    else
      match newItem t.kind with
      | none => .fault .nilDeref
      | some item => scanTokens ts { Items := f.Items ++ [item.setOriginal t.text] }

/-- One of the seven kinds of token that stand for a component: the six marks
and the raw literal. -/
def isComponentKind (k : TokenKind) : Prop :=
  k = .T_YEAR_MARK ∨ k = .T_MONTH_MARK ∨ k = .T_DAY_MARK ∨ k = .T_HOUR_MARK ∨
    k = .T_MINUTE_MARK ∨ k = .T_SECOND_MARK ∨ k = .T_RAW_MARK

/-- The component `c` is the one the spec assigns to the token `t`: of the kind
matching the token's, holding the token's text unchanged. -/
def Compiles (t : LexToken) (c : ItemFormatter) : Prop :=
  (t.kind = .T_YEAR_MARK ∧ c = .YearFormatter t.text) ∨
  (t.kind = .T_MONTH_MARK ∧ c = .MonthFormatter t.text) ∨
  (t.kind = .T_DAY_MARK ∧ c = .DayFormatter t.text) ∨
  (t.kind = .T_HOUR_MARK ∧ c = .HourFormatter t.text) ∨
  (t.kind = .T_MINUTE_MARK ∧ c = .MinuteFormatter t.text) ∨
  (t.kind = .T_SECOND_MARK ∧ c = .SecondFormatter t.text) ∨
  (t.kind = .T_RAW_MARK ∧ c = .basicFormatter t.text)

/-! ## binary64: order and conversion to `int64` -/

namespace Float64

/-- Position of a value other than a NaN on the number line of its patterns:
the magnitude bits, negated under the sign bit. The two zeros share `0`. -/
def key (x : Float64) : Int :=
  if x.sign then -((x.bits % 2 ^ 63 : Nat) : Int) else ((x.bits % 2 ^ 63 : Nat) : Int)

/-- Go's `<=` on `float64`: false when either side is a NaN. -/
def fle (x y : Float64) : Bool := !x.isNaN && !y.isNaN && decide (x.key ≤ y.key)

/-- The finite value of `x` cut to an integer, towards zero. -/
def truncInt (x : Float64) : Int :=
  if x.sign then -((x.scaled / 2 ^ 1074 : Nat) : Int) else ((x.scaled / 2 ^ 1074 : Nat) : Int)

/-- Go's conversion `int64(x)` of a `float64`: truncation towards zero. For a
NaN, an infinity or a value outside the `int64` range the Go specification
leaves the result to the implementation; it is `oor x`. -/
def toInt64 (oor : Float64 → Int) (x : Float64) : Int :=
  if x.isNaN || x.isInf then oor x
  else if -(2 ^ 63) ≤ x.truncInt ∧ x.truncInt < 2 ^ 63 then x.truncInt
  else oor x

end Float64

/-! ## `col.go`: the cell records -/

/-- What the code calls outside these sources, as parameters: `Time` stands for
Go's `time.Time`; `timeFromExcelTime` is the workbook package's conversion of a
date serial (second argument: the 1904 date system); `timeFormat` is
`time.Time.Format`; `yymmddFormat` is `yymmdd.Format`; `caseTable` is the
Unicode case table behind `strings.ToLower`; `int64OutOfRange` is the
implementation-defined result of `int64(x)` for an `x` that does not fit;
`bigFloatText` is `new(big.Float).SetFloat64(x).SetPrec(256).Text('f', -1)` for
an `x` other than a NaN. -/
structure Env where
  Time : Type
  timeFromExcelTime : Float64 → Bool → Time
  timeFormat : Time → String → String
  yymmddFormat : Time → String → String
  caseTable : Char → Char
  int64OutOfRange : Float64 → Int
  bigFloatText : Float64 → String

/-- An environment of stand-ins, to run the code on concrete inputs: a time is
the pair of its serial and date system, a formatted time is the layout or
pattern itself, runes outside ASCII keep their case, `int64` of a value that
does not fit is the smallest `int64`, the text of a big float is `big`. -/
def Env.standIn : Env where
  Time := Float64 × Bool
  timeFromExcelTime := fun f b => (f, b)
  timeFormat := fun _ layout => layout
  yymmddFormat := fun _ pattern => pattern
  caseTable := fun c => c
  int64OutOfRange := fun _ => -(2 ^ 63)
  bigFloatText := fun _ => "big"

/-- Go's `Format`: an entry of the workbook's format table, with its pattern. -/
structure Format where
  str : String
  deriving DecidableEq, Repr

/-- Modelled from the spec: the workbook tables the cells query. `Xfs` is the
style table, each entry given by its format number (`formatNo()`); `Formats`
maps a format number to its entry, `none` being a missing one (Go's nil);
`dateMode` is `1` under the 1904 date system; `sst` is the shared-string
table. The declaration of `WorkBook` is not among these sources. -/
structure WorkBook where
  Xfs : List Nat
  Formats : Nat → Option Format
  dateMode : Nat
  sst : List String

/-- Go's `Col`. -/
structure Col where
  RowB : Nat
  FirstColB : Nat
  deriving DecidableEq, Repr

/-- Go's `func (c *Col) String(wb *WorkBook) []string`. -/
def Col.String (_wb : WorkBook) (_c : Col) : List String := ["default"]

/-- Go's `XfRk`. -/
structure XfRk where
  Index : Nat
  Rk : RK
  deriving DecidableEq, Repr

/-- Go's `time.RFC3339`. -/
def RFC3339 : String := "2006-01-02T15:04:05Z07:00"

/-- The date serial `XfRk.String` takes from an RK value: the decoded float,
or the decoded integer converted to a float. -/
def rkSerial (rk : RK) : Float64 :=
  match RK.number rk with
  | (i, f, isFloat) => if !isFloat then Float64.ofInt i else f

/-- The guard of `XfRk.String` on a user-defined pattern: the cell is a number
when the pattern is `general` or holds one of the listed marks. -/
def isNumberPattern (tbl : Char → Char) (str : String) : Bool :=
  let formatterLower := ToLower tbl str
  formatterLower = "general" ||
    Contains str "#" ||
    Contains str ".00" ||
    Contains formatterLower "m/y" ||
    Contains formatterLower "d/y" ||
    Contains formatterLower "m.y" ||
    Contains formatterLower "d.y" ||
    Contains formatterLower "h:" ||
    Contains formatterLower "д.г"

/-- Go's `func (xf *XfRk) String(wb *WorkBook) string`. The test
`len(wb.Xfs) > idx` and the read `wb.Xfs[idx]` are the one bounded lookup. -/
def XfRk.String (env : Env) (wb : WorkBook) (xf : XfRk) : String :=
  match wb.Xfs.get? xf.Index with
  | none => RK.String xf.Rk
  | some fNo =>
    if fNo ≥ 164 then
      match wb.Formats fNo with
      | some formatter =>
        if isNumberPattern env.caseTable formatter.str then RK.String xf.Rk
        else
          env.yymmddFormat (env.timeFromExcelTime (rkSerial xf.Rk) (wb.dateMode = 1))
            formatter.str
      | none => RK.String xf.Rk
    else if (14 ≤ fNo ∧ fNo ≤ 17) ∨ fNo = 22 ∨ (27 ≤ fNo ∧ fNo ≤ 36) ∨ (50 ≤ fNo ∧ fNo ≤ 58) then
      env.timeFormat (env.timeFromExcelTime (rkSerial xf.Rk) (wb.dateMode = 1)) RFC3339
    else RK.String xf.Rk

/-- Go's `MulrkCol`. -/
structure MulrkCol where
  toCol : Col
  Xfrks : List XfRk
  LastColB : Nat
  deriving DecidableEq, Repr

/-- Go's `func (c *MulrkCol) String(wb *WorkBook) []string`: the loop fills
position `i` with the text of `c.Xfrks[i]`. -/
def MulrkCol.String (env : Env) (wb : WorkBook) (c : MulrkCol) : List String :=
  c.Xfrks.map (XfRk.String env wb)

/-- Go's `MulBlankCol`. -/
structure MulBlankCol where
  toCol : Col
  Xfs : List Nat
  LastColB : Nat
  deriving DecidableEq, Repr

/-- Go's `func (c *MulBlankCol) String(wb *WorkBook) []string`:
`make([]string, len(c.Xfs))`, a slice of empty strings. -/
def MulBlankCol.String (_wb : WorkBook) (c : MulBlankCol) : List String :=
  List.replicate c.Xfs.length ""

/-- Go's `NumberCol`. -/
structure NumberCol where
  toCol : Col
  Index : Nat
  Float : Float64
  deriving DecidableEq, Repr

/-- The float64 constant `9007199254740992`, that is `2 ^ 53`. -/
def twoPow53 : Float64 := ⟨0x4340000000000000⟩

/-- The float64 constant `-9007199254740992`. -/
def negTwoPow53 : Float64 := ⟨0xC340000000000000⟩

/-- The plain-number tail of `NumberCol.String`, from `floatValue := c.Float`
on. `big.Float.SetFloat64` panics on a NaN. -/
def NumberCol.plain (env : Env) (floatValue : Float64) : Outcome (List String) :=
  let intValue := Float64.ofInt (Float64.toInt64 env.int64OutOfRange floatValue)
  if Float64.feq floatValue intValue ||
      (Float64.fle floatValue twoPow53 && Float64.fle negTwoPow53 floatValue) then
    .ok [FormatFloat floatValue]
  else if floatValue.isNaN then .fault .nanPanic
  else .ok [env.bigFloatText floatValue]

/-- Go's `func (c *NumberCol) String(wb *WorkBook) []string`. The read
`wb.Xfs[c.Index]` is not guarded. -/
def NumberCol.String (env : Env) (wb : WorkBook) (c : NumberCol) : Outcome (List String) :=
  match wb.Xfs.get? c.Index with
  | none => .fault .indexOutOfRange
  | some fNo =>
    match (if fNo ≠ 0 then wb.Formats fNo else none) with
    | some format =>
      let numFmt := format.str
      if IsDateTimeFormat env.caseTable numFmt then
        let t := env.timeFromExcelTime c.Float (wb.dateMode = 1)
        if IsDateOnlyFormat env.caseTable numFmt then .ok [env.timeFormat t "2006-01-02"]
        else if IsTimeOnlyFormat env.caseTable numFmt then .ok [env.timeFormat t "15:04:05"]
        else .ok [env.timeFormat t "2006-01-02 15:04:05"]
      else NumberCol.plain env c.Float
    | none => NumberCol.plain env c.Float

/-- Go's `FormulaStringCol`. -/
structure FormulaStringCol where
  toCol : Col
  RenderedValue : String
  deriving DecidableEq, Repr

/-- Go's `func (c *FormulaStringCol) String(wb *WorkBook) []string`. -/
def FormulaStringCol.String (_wb : WorkBook) (c : FormulaStringCol) : List String :=
  [c.RenderedValue]

/-- Go's `FormulaCol`: the header fields and the formula bytes `Bts`. -/
structure FormulaCol where
  toCol : Col
  IndexXf : Nat
  Result : List Nat
  Flags : Nat
  Bts : List Nat
  deriving DecidableEq, Repr

/-- Go's `func (c *FormulaCol) String(wb *WorkBook) []string`. -/
def FormulaCol.String (_wb : WorkBook) (_c : FormulaCol) : List String := ["FormulaCol"]

/-- Go's `RkCol`. -/
structure RkCol where
  toCol : Col
  Xfrk : XfRk
  deriving DecidableEq, Repr

/-- Go's `func (c *RkCol) String(wb *WorkBook) []string`. -/
def RkCol.String (env : Env) (wb : WorkBook) (c : RkCol) : List String :=
  [XfRk.String env wb c.Xfrk]

/-- Go's `LabelsstCol`. -/
structure LabelsstCol where
  toCol : Col
  Xf : Nat
  Sst : Nat
  deriving DecidableEq, Repr

/-- Go's `func (c *LabelsstCol) String(wb *WorkBook) []string`. The read
`wb.sst[int(c.Sst)]` is not guarded. -/
def LabelsstCol.String (wb : WorkBook) (c : LabelsstCol) : Outcome (List String) :=
  match wb.sst.get? c.Sst with
  | none => .fault .indexOutOfRange
  | some s => .ok [s]

/-- Go's `BlankCol`. -/
structure BlankCol where
  toCol : Col
  Xf : Nat
  deriving DecidableEq, Repr

/-- Go's `func (c *BlankCol) String(wb *WorkBook) []string`. -/
def BlankCol.String (_wb : WorkBook) (_c : BlankCol) : List String := [""]

/-- Go's `labelCol`. -/
structure labelCol where
  toBlankCol : BlankCol
  Str : String
  deriving DecidableEq, Repr

/-- Go's `func (c *labelCol) String(wb *WorkBook) []string`. -/
def labelCol.String (_wb : WorkBook) (c : labelCol) : List String := [c.Str]

/-! ## Sanity checks of the embedding on concrete values -/

/-- The float model on values whose Go results are known. -/
theorem float_model_examples :
    (Float64.div100 ⟨0x4059000000000000⟩).bits = 0x3FF0000000000000 ∧
    (Float64.div100 ⟨0x3FF0000000000000⟩).bits = 0x3F847AE147AE147B ∧
    (Float64.ofInt (-3)).bits = 0xC008000000000000 ∧
    FormatFloat ⟨0x3FB999999999999A⟩ = "0.1" ∧
    FormatFloat ⟨0x4340000000000001⟩ = "9007199254740994" ∧
    FormatFloat ⟨0x8000000000000000⟩ = "-0" ∧
    ParseFloat "0.1" = some ⟨0x3FB999999999999A⟩ ∧
    ParseFloat "-2.5" = some ⟨0xC004000000000000⟩ := by
  refine ⟨?_, ?_, ?_, ?_, ?_, ?_, ?_, ?_⟩ <;> decide

/-- The decoder on the four flag combinations. -/
theorem rk_examples :
    RK.String 0x3FF00000 = "1" ∧ RK.String 0x3FF00001 = "0.01" ∧
    RK.String (12345 * 4 + 2) = "12345" ∧ RK.String (12345 * 4 + 3) = "123.45" ∧
    RK.String 0xFFFFFFFE = "-1" ∧ RK.String 0xFFFFFFFF = "-0.01" ∧
    RK.String 0x7FF00000 = "+Inf" ∧ RK.String 0x80000000 = "-0" := by
  refine ⟨?_, ?_, ?_, ?_, ?_, ?_, ?_, ?_⟩ <;> decide

/-! ## Helper lemmas: flag bits and two's complement -/

theorem and_one_eq (n : Nat) : n &&& 1 = n % 2 := Nat.and_one_is_mod n

theorem and_two_eq (n : Nat) : n &&& 2 = 2 * (n / 2 % 2) := by
  have h := Nat.and_two_pow n 1
  simp only [pow_one] at h
  rw [h, Nat.testBit_to_div_mod]
  simp only [pow_one]
  rcases Nat.mod_two_eq_zero_or_one (n / 2) with h0 | h1
  · simp [h0]
  · simp [h1]

theorem and_three_eq (n : Nat) : n &&& 3 = n % 4 := Nat.and_pow_two_sub_one_eq_mod n 2

/-- The arithmetic shift of the two's-complement reading is the sign-extended
30-bit payload. -/
theorem toInt32_shift (rk : Nat) :
    toInt32 rk >>> (2 : Nat) =
      if rk / 4 % 2 ^ 30 < 2 ^ 29 then ((rk / 4 % 2 ^ 30 : Nat) : Int)
      else ((rk / 4 % 2 ^ 30 : Nat) : Int) - 2 ^ 30 := by
  rw [Int.shiftRight_eq_div_pow]
  unfold toInt32
  split_ifs <;> omega

/-- The three results of `RK.number`, by the two flag bits. -/
theorem number_cases (rk : Nat) :
    (rk % 4 = 2 ∧ RK.number rk = (toInt32 rk >>> (2 : Nat), Float64.zero, false)) ∨
    (rk % 4 ≠ 2 ∧ ∃ f, RK.number rk = (0, f, true)) := by
  unfold RK.number
  simp only [and_one_eq, and_two_eq]
  by_cases h2 : rk / 2 % 2 = 0
  · right
    refine ⟨by omega, ?_⟩
    by_cases h1 : rk % 2 = 0 <;> simp [h1, h2]
  · by_cases h1 : rk % 2 = 0
    · left
      refine ⟨by omega, ?_⟩
      have : 2 * (rk / 2 % 2) ≠ 0 := by omega
      simp [h1, this]
    · right
      refine ⟨by omega, ?_⟩
      have : 2 * (rk / 2 % 2) ≠ 0 := by omega
      simp [h1, this]

/-! ## C1: the discriminant of the RK decoder -/

/-- C1: `RK.number` returns `isFloat = false` exactly when `rk & 3 = 2` (integer
flag set, multiplied flag clear); then `floatNum = 0`, and in every other case
`isFloat = true` and `intNum = 0`. In particular both flags set give a float. -/
theorem C1_number_discriminant (rk : RK) :
    ((RK.number rk).2.2 = false ↔ rk &&& 3 = 2) ∧
    ((RK.number rk).2.2 = false → (RK.number rk).2.1 = Float64.zero) ∧
    ((RK.number rk).2.2 = true → (RK.number rk).1 = 0) ∧
    (rk &&& 3 = 3 → (RK.number rk).2.2 = true) := by
  rw [and_three_eq]
  rcases number_cases rk with ⟨h, e⟩ | ⟨h, f, e⟩
  · rw [e]; simp [h]
  · rw [e]; simp [h]

/-! ## Helper lemmas: decimal digits -/

theorem natDigitsAux_eq (fuel : Nat) : ∀ (n : Nat) (acc : List Char), n < fuel →
    natDigitsAux fuel n acc = decDigits n ++ acc := by
  induction fuel with
  | zero => intro n acc h; omega
  | succ fuel ih =>
    intro n acc _
    rw [natDigitsAux, decDigits]
    by_cases h10 : n < 10
    · simp [h10]
    · simp only [h10, if_false, dif_neg, not_false_eq_true]
      rw [ih (n / 10) _ (by omega)]
      simp

theorem natDigits_eq (n : Nat) : natDigits n = decDigits n := by
  unfold natDigits
  rw [natDigitsAux_eq (n + 1) n [] (by omega)]
  simp

theorem digitChar_toNat (d : Nat) (h : d < 10) : (digitChar d).toNat = 48 + d := by
  interval_cases d <;> rfl

theorem isDecDigit_digitChar (d : Nat) (h : d < 10) : isDecDigit (digitChar d) = true := by
  interval_cases d <;> rfl

theorem digitsVal_append (a : List Char) (b : Char) :
    digitsVal (a ++ [b]) = 10 * digitsVal a + (b.toNat - 48) := by
  simp [digitsVal, List.foldl_append]

theorem decDigits_all (n : Nat) : (decDigits n).all isDecDigit = true := by
  induction n using Nat.strong_induction_on with
  | _ n ih =>
    rw [decDigits]
    by_cases h10 : n < 10
    · simp [h10, isDecDigit_digitChar n h10]
    · simp only [h10, dif_neg, not_false_eq_true, List.all_append, List.all_cons, List.all_nil,
        Bool.and_true, Bool.and_eq_true]
      exact ⟨ih (n / 10) (by omega), isDecDigit_digitChar _ (by omega)⟩

theorem decDigits_val (n : Nat) : digitsVal (decDigits n) = n := by
  induction n using Nat.strong_induction_on with
  | _ n ih =>
    rw [decDigits]
    by_cases h10 : n < 10
    · simp [h10, digitsVal, digitChar_toNat n h10]
    · simp only [h10, dif_neg, not_false_eq_true]
      rw [digitsVal_append, ih (n / 10) (by omega), digitChar_toNat _ (by omega)]
      omega

theorem decDigits_ne_nil (n : Nat) : decDigits n ≠ [] := by
  rw [decDigits]
  by_cases h10 : n < 10 <;> simp [h10]

/-- The first digit is not `0`, except for the number `0` itself. -/
theorem decDigits_head (n : Nat) (hn : 0 < n) : (decDigits n).head? ≠ some '0' := by
  induction n using Nat.strong_induction_on with
  | _ n ih =>
    rw [decDigits]
    by_cases h10 : n < 10
    · simp only [h10, dif_pos, List.head?_cons]
      interval_cases n <;> simp [digitChar]
    · simp only [h10, dif_neg, not_false_eq_true]
      have hne := decDigits_ne_nil (n / 10)
      have := ih (n / 10) (by omega) (by omega)
      cases hd : decDigits (n / 10) with
      | nil => exact absurd hd hne
      | cons a l => rw [hd] at this; simpa using this

/-! ## C2, C3 -/

/-- C2: for `rk & 3 = 2`, `intNum` is the sign-extended 30-bit payload
(`int32(rk) >> 2`), it lies in `[-2^29, 2^29 - 1]`, and `RK.String` is its plain
base-10 text: a `-` exactly for a negative value, followed by decimal digits
only, without a leading zero (but for `0` itself), that write its magnitude. -/
theorem C2_integer_payload_and_text (rk : RK) (h : rk &&& 3 = 2) :
    (RK.number rk).1 = toInt32 rk >>> (2 : Nat) ∧
    (RK.number rk).1 =
      (if rk / 4 % 2 ^ 30 < 2 ^ 29 then ((rk / 4 % 2 ^ 30 : Nat) : Int)
       else ((rk / 4 % 2 ^ 30 : Nat) : Int) - 2 ^ 30) ∧
    -(2 ^ 29) ≤ (RK.number rk).1 ∧ (RK.number rk).1 ≤ 2 ^ 29 - 1 ∧
    RK.String rk = FormatInt (RK.number rk).1 ∧
    ∃ ds : List Char,
      (RK.String rk).data = (if (RK.number rk).1 < 0 then ['-'] else []) ++ ds ∧
      ds ≠ [] ∧ ds.all isDecDigit = true ∧
      digitsVal ds = (RK.number rk).1.natAbs ∧
      ((RK.number rk).1 ≠ 0 → ds.head? ≠ some '0') := by
  rw [and_three_eq] at h
  rcases number_cases rk with ⟨_, e⟩ | ⟨h', _⟩
  · have hs := toInt32_shift rk
    refine ⟨by rw [e], by rw [e]; exact hs, ?_, ?_, ?_, ?_⟩
    · rw [e]; simp only; rw [hs]; split_ifs <;> omega
    · rw [e]; simp only; rw [hs]; split_ifs <;> omega
    · simp [RK.String, e]
    · refine ⟨decDigits (RK.number rk).1.natAbs, ?_, decDigits_ne_nil _, decDigits_all _,
        decDigits_val _, fun hne => decDigits_head _ (by omega)⟩
      simp only [RK.String, e, FormatInt, natDigits_eq, Bool.false_eq_true, if_false]
      split_ifs <;> simp
  · exact absurd h h'

/-- Witness for C2 at `rk = 0xFFFFFFFE`, the integer `-1`. -/
theorem C2_integer_payload_and_text_witness :
    (0xFFFFFFFE : Nat) &&& 3 = 2 ∧ (RK.number 0xFFFFFFFE).1 = -1 ∧
      RK.String 0xFFFFFFFE = "-1" :=
  ⟨by decide,
   by rw [(C2_integer_payload_and_text 0xFFFFFFFE (by decide)).2.1]; decide,
   by decide⟩

/-- C3: `RK.Float` returns `ErrIsInt` (with value `0`) if and only if `rk`
decodes to an integer, that is `rk & 3 = 2`; for every other `rk` the error is
nil and the value is exactly the `floatNum` of `RK.number`. -/
theorem C3_float_error_iff_integer (rk : RK) :
    ((RK.Float rk).2 = some Error.ErrIsInt ↔ rk &&& 3 = 2) ∧
    ((RK.Float rk).2 = some Error.ErrIsInt ↔ (RK.number rk).2.2 = false) ∧
    (rk &&& 3 = 2 → RK.Float rk = (Float64.zero, some Error.ErrIsInt)) ∧
    (rk &&& 3 ≠ 2 → RK.Float rk = ((RK.number rk).2.1, none)) ∧
    ((RK.Float rk).2 = none ∨ (RK.Float rk).2 = some Error.ErrIsInt) := by
  rw [and_three_eq]
  rcases number_cases rk with ⟨h, e⟩ | ⟨h, f, e⟩
  · simp [RK.Float, e, h]
  · simp [RK.Float, e, h]

/-! ## Helper lemmas: rounding to binary64 -/

theorem bitLenAux_spec (ks : List Nat) : ∀ (x acc : Nat), chopOK ks → x < 2 ^ (ks.sum + 1) →
    (x = 0 → bitLenAux ks x acc = acc) ∧
    (0 < x → ∃ k, bitLenAux ks x acc = acc + k ∧ 1 ≤ k ∧ 2 ^ (k - 1) ≤ x ∧ x < 2 ^ k) := by
  induction ks with
  | nil =>
    intro x acc _ hx
    simp only [List.sum_nil, zero_add, pow_one] at hx
    refine ⟨fun h => by simp [bitLenAux, h], fun h => ⟨1, ?_, le_refl _, ?_, ?_⟩⟩
    · have : x ≠ 0 := by omega
      simp [bitLenAux, this]
    · simp; omega
    · simpa using hx
  | cons k ks ih =>
    intro x acc hok hx
    obtain ⟨hk, hok'⟩ := hok
    simp only [List.sum_cons] at hx
    have hkpos : 0 < 2 ^ k := Nat.two_pow_pos k
    by_cases hle : 2 ^ k ≤ x
    · have hdiv : x / 2 ^ k < 2 ^ (ks.sum + 1) := by
        rw [Nat.div_lt_iff_lt_mul hkpos, ← pow_add]
        have : ks.sum + 1 + k = k + ks.sum + 1 := by omega
        rw [this]; exact hx
      have hpos : 0 < x / 2 ^ k := Nat.div_pos hle hkpos
      obtain ⟨k', hk', h1, hlo, hhi⟩ := (ih (x / 2 ^ k) (acc + k) hok' hdiv).2 hpos
      refine ⟨fun h => by omega, fun _ => ⟨k + k', ?_, by omega, ?_, ?_⟩⟩
      · simp only [bitLenAux, hle, if_true, hk']; omega
      · have : k + k' - 1 = (k' - 1) + k := by omega
        rw [this, pow_add]
        calc 2 ^ (k' - 1) * 2 ^ k ≤ x / 2 ^ k * 2 ^ k := Nat.mul_le_mul_right _ hlo
          _ ≤ x := Nat.div_mul_le_self x (2 ^ k)
      · rw [Nat.div_lt_iff_lt_mul hkpos] at hhi
        rw [pow_add, Nat.mul_comm]; exact hhi
    · have hx' : x < 2 ^ (ks.sum + 1) :=
        lt_of_lt_of_le (not_le.mp hle) (Nat.pow_le_pow_right (by norm_num) hk)
      have := ih x acc hok' hx'
      simp only [bitLenAux, hle, if_false]
      exact this

theorem bitLen_zero : bitLen 0 = 0 := by decide

/-- `bitLen x = k` for `2 ^ (k - 1) ≤ x < 2 ^ k`, within the range of the chop. -/
theorem bitLen_eq (x k : Nat) (hk : 1 ≤ k) (hlo : 2 ^ (k - 1) ≤ x) (hhi : x < 2 ^ k)
    (hx : x < 2 ^ 4096) : bitLen x = k := by
  have hpos : 0 < x := lt_of_lt_of_le (Nat.two_pow_pos _) hlo
  have hok : chopOK [2048, 1024, 512, 256, 128, 64, 32, 16, 8, 4, 2, 1] := by
    simp [chopOK]
  obtain ⟨k', hk', h1, hlo', hhi'⟩ :=
    (bitLenAux_spec [2048, 1024, 512, 256, 128, 64, 32, 16, 8, 4, 2, 1] x 0 hok
      (by simpa using hx)).2 hpos
  have hkk : k' = k := by
    by_contra hne
    rcases Nat.lt_or_gt_of_ne hne with h | h
    · have : 2 ^ k' ≤ 2 ^ (k - 1) := Nat.pow_le_pow_right (by norm_num) (by omega)
      omega
    · have : 2 ^ k ≤ 2 ^ (k' - 1) := Nat.pow_le_pow_right (by norm_num) (by omega)
      omega
  unfold bitLen
  rw [hk', hkk]; omega

/-- No low bits are dropped from a quotient below `2 ^ 53`. -/
theorem bitLen_small (x : Nat) (hx : x < 2 ^ 53) : bitLen x - 53 = 0 := by
  rcases Nat.eq_zero_or_pos x with h0 | hpos
  · subst h0; simp [bitLen_zero]
  · have hok : chopOK [2048, 1024, 512, 256, 128, 64, 32, 16, 8, 4, 2, 1] := by
      simp [chopOK]
    have hx' : x < 2 ^ 4096 := lt_trans hx (by norm_num)
    obtain ⟨k', hk', h1, hlo', hhi'⟩ :=
      (bitLenAux_spec [2048, 1024, 512, 256, 128, 64, 32, 16, 8, 4, 2, 1] x 0 hok
        (by simpa using hx')).2 hpos
    have : k' ≤ 53 := by
      by_contra hgt
      have : 2 ^ 53 ≤ 2 ^ (k' - 1) := Nat.pow_le_pow_right (by norm_num) (by omega)
      omega
    unfold bitLen
    rw [hk']; omega

/-- Rounding `n / d` gives `m` when `n / d` is within a half of `m`; a tie goes
to `m` when `m` is even. -/
theorem rneDiv_eq (n d m : Nat) (hd : 0 < d)
    (hlo : (2 * m - 1) * d < 2 * n ∨ (m % 2 = 0 ∧ (2 * m - 1) * d = 2 * n))
    (hhi : 2 * n < (2 * m + 1) * d ∨ (m % 2 = 0 ∧ 2 * n = (2 * m + 1) * d)) :
    rneDiv n d = m := by
  have hdm := Nat.div_add_mod n d
  have hmod := Nat.mod_lt n hd
  generalize hq : n / d = q at *
  generalize hr : n % d = r at *
  have hqd : d * q = q * d := Nat.mul_comm _ _
  unfold rneDiv
  rw [hq, hr]
  rcases Nat.eq_zero_or_pos m with hm0 | hmpos
  · subst hm0
    simp only [mul_zero, zero_add, one_mul, Nat.zero_sub, zero_mul] at hlo hhi
    have hq0 : q = 0 := by
      by_contra hne
      have : d ≤ q * d := Nat.le_mul_of_pos_left d (Nat.pos_of_ne_zero hne)
      rcases hhi with h | ⟨_, h⟩ <;> omega
    subst hq0
    simp only [Nat.zero_mul, mul_zero, zero_add] at hdm hqd ⊢
    rcases hhi with h | ⟨_, h⟩
    · have : 2 * r < d := by omega
      simp [this]
    · have h1 : ¬ 2 * r < d := by omega
      have h2 : ¬ d < 2 * r := by omega
      simp [h1, h2]
  · have e1 : (2 * m - 1) * d = 2 * (m * d) - d := by
      rw [Nat.sub_mul, Nat.mul_assoc, one_mul]
    have e2 : (2 * m + 1) * d = 2 * (m * d) + d := by ring
    have hmd : d ≤ m * d := Nat.le_mul_of_pos_left d hmpos
    rw [e1] at hlo
    rw [e2] at hhi
    -- the quotient is `m - 1` or `m`
    have hq_lo : m - 1 ≤ q := by
      by_contra hlt
      have : q + 2 ≤ m := by omega
      have : (q + 2) * d ≤ m * d := Nat.mul_le_mul_right _ this
      have e3 : (q + 2) * d = q * d + 2 * d := by ring
      rcases hlo with h | ⟨_, h⟩ <;> omega
    have hq_hi : q ≤ m := by
      by_contra hgt
      have : m + 1 ≤ q := by omega
      have : (m + 1) * d ≤ q * d := Nat.mul_le_mul_right _ this
      have e3 : (m + 1) * d = m * d + d := by ring
      rcases hhi with h | ⟨_, h⟩ <;> omega
    rcases Nat.eq_or_lt_of_le hq_hi with hqm | hqm
    · subst hqm
      rcases hhi with h | ⟨hev, h⟩
      · have : 2 * r < d := by omega
        simp [this]
      · have h1 : ¬ 2 * r < d := by omega
        have h2 : ¬ d < 2 * r := by omega
        simp [h1, h2, hev]
    · have hqm1 : q = m - 1 := by omega
      have e4 : m * d = q * d + d := by
        have : m = q + 1 := by omega
        rw [this]; ring
      rcases hlo with h | ⟨hev, h⟩
      · have h1 : ¬ 2 * r < d := by omega
        have h2 : d < 2 * r := by omega
        simp only [h1, h2, if_false, if_true]; omega
      · have h1 : ¬ 2 * r < d := by omega
        have h2 : ¬ d < 2 * r := by omega
        have : q % 2 = 1 := by omega
        simp only [h1, h2, if_false, this]; omega

/-- A quotient within the binade `[2 ^ (52 + s), 2 ^ (53 + s))` loses `s` bits. -/
theorem bitLen_binade (N d s : Nat) (hd : 0 < d) (hs : s ≤ 2045)
    (hlo : 2 ^ 53 * (2 ^ s * d) ≤ 2 * N) (hhi : 2 * N < 2 ^ 54 * (2 ^ s * d)) :
    bitLen (N / d) - 53 = s := by
  have e1 : 2 ^ 53 * (2 ^ s * d) = 2 * (2 ^ (52 + s) * d) := by rw [pow_add]; ring
  have e2 : 2 ^ 54 * (2 ^ s * d) = 2 * (2 ^ (53 + s) * d) := by rw [pow_add]; ring
  have h1 : 2 ^ (52 + s) * d ≤ N := by omega
  have h2 : N < 2 ^ (53 + s) * d := by omega
  have h3 : 2 ^ (53 + s) ≤ 2 ^ 4096 := Nat.pow_le_pow_right (by norm_num) (by omega)
  have hb : bitLen (N / d) = 53 + s := by
    apply bitLen_eq _ _ (by omega)
    · rw [Nat.le_div_iff_mul_le hd]
      have : 53 + s - 1 = 52 + s := by omega
      rw [this]; exact h1
    · rw [Nat.div_lt_iff_lt_mul hd]; exact h2
    · rw [Nat.div_lt_iff_lt_mul hd]
      exact lt_of_lt_of_le h2 (Nat.mul_le_mul_right _ h3)
  omega

/-- Between the midpoints of a normal significand, at or above the float or
with the float not the first of its binade, the doubled quotient lies in the
float's own binade. -/
theorem binade_of_mid (m T X : Nat) (hm : 2 ^ 52 ≤ m) (hm53 : m < 2 ^ 53)
    (hlo : (2 * m - 1) * T ≤ X) (hhi : X ≤ (2 * m + 1) * T) (hT : 0 < T)
    (hge : 2 ^ 52 < m ∨ 2 * m * T ≤ X) : 2 ^ 53 * T ≤ X ∧ X < 2 ^ 54 * T := by
  have h1 : (2 * m + 1) * T ≤ (2 ^ 54 - 1) * T := Nat.mul_le_mul_right _ (by omega)
  have h2 : (2 ^ 54 - 1) * T = 2 ^ 54 * T - T := by rw [Nat.sub_mul, one_mul]
  refine ⟨?_, by omega⟩
  rcases hge with h | h
  · have : 2 ^ 53 * T ≤ (2 * m - 1) * T := Nat.mul_le_mul_right _ (by omega)
    omega
  · have : 2 ^ 53 * T ≤ 2 * m * T := Nat.mul_le_mul_right _ (by omega)
    omega

/-- Core of the rounding: a quotient `N / d` (in units of `2 ^ (-1074)`)
between the midpoints around the float with significand `m` and exponent `e`
rounds to the pattern `e * 2 ^ 52 + m`. -/
theorem roundCore (N d m e : Nat) (hd : 0 < d) (hm53 : m < 2 ^ 53)
    (he : e ≤ 2045) (hnorm : 1 ≤ e → 2 ^ 52 ≤ m)
    (hlo : loBound m e * d < 2 * N ∨ (m % 2 = 0 ∧ loBound m e * d = 2 * N))
    (hhi : 2 * N < upBound m e * d ∨ (m % 2 = 0 ∧ 2 * N = upBound m e * d)) :
    (bitLen (N / d) - 53) * 2 ^ 52 + rneDiv N (d * 2 ^ (bitLen (N / d) - 53)) =
      e * 2 ^ 52 + m := by
  have eU : upBound m e * d = (2 * m + 1) * (d * 2 ^ e) := by unfold upBound; ring
  rw [eU] at hhi
  have hup : 2 * N ≤ (2 * m + 1) * (d * 2 ^ e) := by
    rcases hhi with h | ⟨_, h⟩
    · exact le_of_lt h
    · exact le_of_eq h
  rcases Nat.eq_zero_or_pos e with he0 | hepos
  · -- first binade and subnormals: no bit is dropped
    subst he0
    have eL : loBound m 0 * d = (2 * m - 1) * d := by simp [loBound]
    rw [eL] at hlo
    simp only [pow_zero, mul_one] at hhi hup
    have hq : N / d < 2 ^ 53 := by
      rw [Nat.div_lt_iff_lt_mul hd]
      have h1 : (2 * m + 1) * d ≤ (2 ^ 54 - 1) * d := Nat.mul_le_mul_right _ (by omega)
      have h2 : (2 ^ 54 - 1) * d = 2 * (2 ^ 53 * d) - d := by
        rw [Nat.sub_mul, one_mul]; ring_nf
      clear hlo hhi hnorm eL eU
      omega
    rw [bitLen_small _ hq]
    simp only [zero_mul, pow_zero, mul_one, zero_add]
    exact rneDiv_eq N d m hd hlo hhi
  · have hm52 : 2 ^ 52 ≤ m := hnorm hepos
    have hP : 0 < 2 ^ e := Nat.two_pow_pos e
    have hT : 0 < d * 2 ^ e := Nat.mul_pos hd hP
    by_cases hcase : 2 ^ 52 < m ∨ 2 * m * (d * 2 ^ e) ≤ 2 * N
    · -- the quotient lies in the binade of the float
      have hlow : (2 * m - 1) * (d * 2 ^ e) < 2 * N ∨
            (m % 2 = 0 ∧ (2 * m - 1) * (d * 2 ^ e) = 2 * N) := by
        rcases hcase with hgt | hge
        · have hL : loBound m e * d = (2 * m - 1) * (d * 2 ^ e) := by
            unfold loBound
            rw [if_pos (Or.inl hgt)]; ring
          rw [hL] at hlo
          exact hlo
        · left
          have e2 : (2 * m - 1) * (d * 2 ^ e) = 2 * m * (d * 2 ^ e) - d * 2 ^ e := by
            rw [Nat.sub_mul, one_mul]
          have hmT : d * 2 ^ e ≤ 2 * m * (d * 2 ^ e) :=
            Nat.le_mul_of_pos_left _ (by omega)
          clear hlo hhi hnorm hup eU
          omega
      have hlow' : (2 * m - 1) * (d * 2 ^ e) ≤ 2 * N := by
        rcases hlow with h | ⟨_, h⟩
        · exact le_of_lt h
        · exact le_of_eq h
      obtain ⟨hb1, hb2⟩ := binade_of_mid m (d * 2 ^ e) (2 * N) hm52 hm53 hlow' hup hT hcase
      have eT : d * 2 ^ e = 2 ^ e * d := Nat.mul_comm _ _
      have hs : bitLen (N / d) - 53 = e :=
        bitLen_binade N d e hd he (eT ▸ hb1) (eT ▸ hb2)
      rw [hs]
      congr 1
      exact rneDiv_eq N (d * 2 ^ e) m hT hlow hhi
    · -- just below the first float of a binade: one bit less is dropped, and
      -- the significand rounds up to `2 ^ 53`
      push_neg at hcase
      obtain ⟨hmle, hlt⟩ := hcase
      have hm_eq : m = 2 ^ 52 := le_antisymm hmle hm52
      obtain ⟨e', rfl⟩ : ∃ e', e = e' + 1 := ⟨e - 1, by omega⟩
      have hT' : 0 < d * 2 ^ e' := Nat.mul_pos hd (Nat.two_pow_pos e')
      have hL : loBound m (e' + 1) * d = (2 * 2 ^ 53 - 1) * (d * 2 ^ e') := by
        have h1 : ¬ (2 ^ 52 < m ∨ e' + 1 = 0) := by omega
        unfold loBound
        rw [if_neg h1, Nat.add_sub_cancel, hm_eq]
        have : (4 * 2 ^ 52 - 1 : Nat) = 2 * 2 ^ 53 - 1 := by norm_num
        rw [this]; ring
      rw [hL] at hlo
      have hlt' : 2 * N < 2 ^ 54 * (d * 2 ^ e') := by
        have : 2 * m * (d * 2 ^ (e' + 1)) = 2 ^ 54 * (d * 2 ^ e') := by
          rw [hm_eq, pow_succ]; ring
        rw [this] at hlt; exact hlt
      have e3 : (2 * 2 ^ 53 - 1) * (d * 2 ^ e') = 2 ^ 54 * (d * 2 ^ e') - d * 2 ^ e' := by
        have : (2 * 2 ^ 53 : Nat) = 2 ^ 54 := by norm_num
        rw [this, Nat.sub_mul, one_mul]
      have hlo' : (2 * 2 ^ 53 - 1) * (d * 2 ^ e') ≤ 2 * N := by
        rcases hlo with h | ⟨_, h⟩
        · exact le_of_lt h
        · exact le_of_eq h
      have hb1 : 2 ^ 53 * (2 ^ e' * d) ≤ 2 * N := by
        have eT : 2 ^ e' * d = d * 2 ^ e' := Nat.mul_comm _ _
        rw [eT]
        clear hlo hhi hnorm hup eU hL hlt
        omega
      have hb2 : 2 * N < 2 ^ 54 * (2 ^ e' * d) := by
        have eT : 2 ^ e' * d = d * 2 ^ e' := Nat.mul_comm _ _
        rw [eT]; exact hlt'
      have hs : bitLen (N / d) - 53 = e' := bitLen_binade N d e' hd (by omega) hb1 hb2
      rw [hs]
      have hr : rneDiv N (d * 2 ^ e') = 2 ^ 53 := by
        apply rneDiv_eq N (d * 2 ^ e') (2 ^ 53) hT'
        · rcases hlo with h | ⟨_, h⟩
          · exact Or.inl h
          · exact Or.inr ⟨by norm_num, h⟩
        · left
          have e4 : (2 * 2 ^ 53 + 1) * (d * 2 ^ e') = 2 ^ 54 * (d * 2 ^ e') + d * 2 ^ e' := by
            ring
          rw [e4]
          exact lt_of_lt_of_le hlt' (Nat.le_add_right _ _)
      rw [hr, hm_eq]
      ring

theorem pow_1075 (n : Nat) : n * 2 ^ 1075 = 2 * (n * 2 ^ 1074) := by
  rw [show (1075 : Nat) = 1074 + 1 from rfl, pow_succ]; ring

/-- A quotient `n / d` between the midpoints around the float with significand
`m` and exponent `e` rounds to that float. -/
theorem roundMag_eq (n d m e : Nat) (hd : 0 < d) (hm53 : m < 2 ^ 53)
    (he : e ≤ 2045) (hnorm : 1 ≤ e → 2 ^ 52 ≤ m)
    (hlo : loBound m e * d < n * 2 ^ 1075 ∨ (m % 2 = 0 ∧ loBound m e * d = n * 2 ^ 1075))
    (hhi : n * 2 ^ 1075 < upBound m e * d ∨ (m % 2 = 0 ∧ n * 2 ^ 1075 = upBound m e * d)) :
    roundMag n d = e * 2 ^ 52 + m := by
  have hrange : ¬ d * 2 ^ 1024 ≤ n := by
    intro hle
    have h1 : d * 2 ^ 1024 * 2 ^ 1075 ≤ n * 2 ^ 1075 := Nat.mul_le_mul_right _ hle
    have h2 : n * 2 ^ 1075 ≤ upBound m e * d := by
      rcases hhi with h | ⟨_, h⟩
      · exact le_of_lt h
      · exact le_of_eq h
    have h3 : upBound m e < 2 ^ 54 * 2 ^ 2045 := by
      unfold upBound
      calc (2 * m + 1) * 2 ^ e < 2 ^ 54 * 2 ^ e :=
            Nat.mul_lt_mul_of_pos_right (by omega) (Nat.two_pow_pos e)
        _ ≤ 2 ^ 54 * 2 ^ 2045 :=
            Nat.mul_le_mul_left _ (Nat.pow_le_pow_right (by norm_num) he)
    have h4 : upBound m e * d < 2 ^ 54 * 2 ^ 2045 * d := Nat.mul_lt_mul_of_pos_right h3 hd
    have h5 : d * 2 ^ 1024 * 2 ^ 1075 = 2 ^ 54 * 2 ^ 2045 * d := by
      rw [Nat.mul_assoc, ← pow_add, ← pow_add]; ring
    rw [h5] at h1
    exact absurd (lt_of_le_of_lt (le_trans h1 h2) h4) (lt_irrefl _)
  unfold roundMag
  rw [if_neg hrange]
  rw [pow_1075] at hlo hhi
  exact roundCore (n * 2 ^ 1074) d m e hd hm53 he hnorm hlo hhi

/-! ## Helper lemmas: the shortest decimal -/

theorem posScale_pos (j : Int) : 0 < posScale j := by
  unfold posScale
  split_ifs
  · exact Nat.mul_pos (Nat.pos_pow_of_pos _ (by norm_num)) (Nat.two_pow_pos _)
  · exact Nat.two_pow_pos _

theorem negScale_pos (j : Int) : 0 < negScale j := by
  unfold negScale
  split_ifs
  · exact Nat.one_pos
  · exact Nat.pos_pow_of_pos _ (by norm_num)

/-- A candidate accepted at a position lies within the bounds. -/
theorem shortestAt_mem (W Lo Up : Nat) (incl : Bool) (j : Int) (c : Nat)
    (hlo : Lo < W) (hhi : W < Up) (h : shortestAt W Lo Up incl j = some c) :
    inBounds Lo Up incl c j := by
  simp only [shortestAt] at h
  unfold inBounds
  have hsc := posScale_pos j
  have hsb := negScale_pos j
  generalize posScale j = sc at *
  generalize negScale j = sb at *
  have hdm := Nat.div_add_mod (W * sb) sc
  have hmod := Nat.mod_lt (W * sb) hsc
  have h1 : Lo * sb < W * sb := Nat.mul_lt_mul_of_pos_right hlo hsb
  have h2 : W * sb < Up * sb := Nat.mul_lt_mul_of_pos_right hhi hsb
  generalize W * sb / sc = dn at *
  generalize W * sb % sc = r at *
  have e1 : (dn + 1) * sc = sc * dn + sc := by ring
  have e2 : dn * sc = sc * dn := Nat.mul_comm _ _
  -- the truncation is below the upper bound, its successor above the lower one
  have hdn_up : dn * sc < Up * sb := by omega
  have hup_lo : Lo * sb < (dn + 1) * sc := by omega
  simp only [Bool.or_eq_true, Bool.and_eq_true, decide_eq_true_eq] at h
  by_cases hd : Lo * sb < dn * sc ∨ (incl = true ∧ Lo * sb = dn * sc)
  · by_cases hu : (dn + 1) * sc < Up * sb ∨ (incl = true ∧ (dn + 1) * sc = Up * sb)
    · rw [if_pos ⟨hd, hu⟩] at h
      simp only [Option.some.injEq] at h
      split_ifs at h
      · subst h; exact ⟨hd, Or.inl hdn_up⟩
      · subst h; exact ⟨Or.inl hup_lo, hu⟩
      · rcases Nat.mod_two_eq_zero_or_one dn with h0 | h0
        · rw [h0, Nat.add_zero] at h
          subst h; exact ⟨hd, Or.inl hdn_up⟩
        · rw [h0] at h
          subst h; exact ⟨Or.inl hup_lo, hu⟩
    · rw [if_neg (fun hh => hu hh.2), if_pos hd] at h
      simp only [Option.some.injEq] at h
      subst h; exact ⟨hd, Or.inl hdn_up⟩
  · rw [if_neg (fun hh => hd hh.1), if_neg hd] at h
    by_cases hu : (dn + 1) * sc < Up * sb ∨ (incl = true ∧ (dn + 1) * sc = Up * sb)
    · rw [if_pos hu] at h
      simp only [Option.some.injEq] at h
      subst h; exact ⟨Or.inl hup_lo, hu⟩
    · rw [if_neg hu] at h
      exact absurd h (by simp)

/-- The exact expansion lies within the bounds. -/
theorem exact_mem (W Lo Up : Nat) (incl : Bool) (hlo : Lo < W) (hhi : W < Up) :
    inBounds Lo Up incl (W * 5 ^ 1075) (-1075) := by
  have hs : posScale (-1075) = 2 ^ 1075 := by simp [posScale]
  have hb : negScale (-1075) = 10 ^ 1075 := by
    unfold negScale
    rw [if_neg (by norm_num)]
    rfl
  have e10 : (10 : Nat) ^ 1075 = 5 ^ 1075 * 2 ^ 1075 := by
    rw [show (10 : Nat) = 5 * 2 from rfl, mul_pow]
  have hp : 0 < (10 : Nat) ^ 1075 := Nat.pos_pow_of_pos _ (by norm_num)
  unfold inBounds
  rw [hs, hb]
  have e : W * 5 ^ 1075 * 2 ^ 1075 = W * 10 ^ 1075 := by rw [e10]; ring
  rw [e]
  exact ⟨Or.inl (Nat.mul_lt_mul_of_pos_right hlo hp),
    Or.inl (Nat.mul_lt_mul_of_pos_right hhi hp)⟩

/-- The decimal returned by the walk lies within the bounds. -/
theorem shortestFrom_mem (W Lo Up : Nat) (incl : Bool) (hlo : Lo < W) (hhi : W < Up)
    (fuel : Nat) : ∀ j : Int,
    inBounds Lo Up incl (shortestFrom W Lo Up incl fuel j).1
      (shortestFrom W Lo Up incl fuel j).2 := by
  induction fuel with
  | zero => intro j; exact exact_mem W Lo Up incl hlo hhi
  | succ fuel ih =>
    intro j
    unfold shortestFrom
    cases h : shortestAt W Lo Up incl j with
    | none => exact ih (j - 1)
    | some c => exact shortestAt_mem W Lo Up incl j c hlo hhi h

/-! ## Helper lemmas: writing and reading decimals -/

theorem foldl_digits (cs : List Char) : ∀ a : Nat,
    cs.foldl (fun a c => 10 * a + (c.toNat - 48)) a = a * 10 ^ cs.length + digitsVal cs := by
  induction cs with
  | nil => intro a; simp [digitsVal]
  | cons c cs ih =>
    intro a
    simp only [List.foldl_cons, List.length_cons, digitsVal]
    rw [ih (10 * a + (c.toNat - 48)), ih (10 * 0 + (c.toNat - 48))]
    rw [pow_succ]; ring

theorem digitsVal_app (a b : List Char) :
    digitsVal (a ++ b) = digitsVal a * 10 ^ b.length + digitsVal b := by
  unfold digitsVal
  rw [List.foldl_append, foldl_digits b]
  rfl

theorem digitsVal_zeros (n : Nat) : digitsVal (List.replicate n '0') = 0 := by
  induction n with
  | zero => rfl
  | succ n ih =>
    rw [List.replicate_succ]
    have := digitsVal_app ['0'] (List.replicate n '0')
    simp only [List.singleton_append] at this
    rw [this, ih]
    simp [digitsVal]

theorem all_zeros (n : Nat) : (List.replicate n '0').all isDecDigit = true := by
  simp only [List.all_eq_true]
  intro c hc
  rw [List.eq_of_mem_replicate hc]
  rfl

/-- A run of characters equal to `0` is a block of zeros. -/
theorem takeWhile_zero_eq (l : List Char) :
    l.takeWhile (fun c => decide (c = '0')) =
      List.replicate (l.takeWhile (fun c => decide (c = '0'))).length '0' := by
  rw [List.eq_replicate_iff]
  refine ⟨rfl, fun c hc => ?_⟩
  have := List.mem_takeWhile_imp hc
  simpa using this

/-- A digit list is its trimmed list followed by the zeros trimmed. -/
theorem trimZeros_split (ds : List Char) :
    ∃ z, ds = trimZeros ds ++ List.replicate z '0' ∧ ds.length = (trimZeros ds).length + z := by
  refine ⟨(ds.reverse.takeWhile (fun c => decide (c = '0'))).length, ?_, ?_⟩
  · have h := List.takeWhile_append_dropWhile (fun c => decide (c = '0')) ds.reverse
    have h2 := congrArg List.reverse h
    rw [List.reverse_append, List.reverse_reverse] at h2
    rw [takeWhile_zero_eq, List.reverse_replicate] at h2
    unfold trimZeros
    exact h2.symm
  · have h := List.takeWhile_append_dropWhile (fun c => decide (c = '0')) ds.reverse
    have h2 := congrArg List.length h
    simp only [List.length_append, List.length_reverse] at h2
    unfold trimZeros
    simp only [List.length_reverse]
    omega

theorem trimZeros_all (ds : List Char) (h : ds.all isDecDigit = true) :
    (trimZeros ds).all isDecDigit = true := by
  simp only [List.all_eq_true] at *
  intro c hc
  unfold trimZeros at hc
  rw [List.mem_reverse] at hc
  exact h c (List.mem_reverse.mp ((List.dropWhile_sublist _).subset hc))

theorem takeWhile_digits (ip rest : List Char) (c : Char) (hip : ip.all isDecDigit = true)
    (hc : isDecDigit c = false) :
    (ip ++ c :: rest).takeWhile isDecDigit = ip ∧
      (ip ++ c :: rest).dropWhile isDecDigit = c :: rest := by
  induction ip with
  | nil => simp [List.takeWhile, List.dropWhile, hc]
  | cons a ip ih =>
    simp only [List.all_cons, Bool.and_eq_true] at hip
    simp [List.takeWhile, List.dropWhile, hip.1, ih hip.2]

theorem takeWhile_all (ip : List Char) (hip : ip.all isDecDigit = true) :
    ip.takeWhile isDecDigit = ip ∧ ip.dropWhile isDecDigit = [] := by
  induction ip with
  | nil => simp
  | cons a ip ih =>
    simp only [List.all_cons, Bool.and_eq_true] at hip
    simp [List.takeWhile, List.dropWhile, hip.1, ih hip.2]

theorem parseDecimal_int (ip : List Char) (hip : ip.all isDecDigit = true) (hne : ip ≠ []) :
    parseDecimal ip = some (digitsVal ip, 0) := by
  unfold parseDecimal
  obtain ⟨h1, h2⟩ := takeWhile_all ip hip
  rw [h1, h2]
  simp [hne]

theorem parseDecimal_frac (ip fr : List Char) (hip : ip.all isDecDigit = true)
    (hfr : fr.all isDecDigit = true) (hne : ip ≠ []) :
    parseDecimal (ip ++ '.' :: fr) = some (digitsVal (ip ++ fr), fr.length) := by
  unfold parseDecimal
  obtain ⟨h1, h2⟩ := takeWhile_digits ip fr '.' hip (by decide)
  rw [h1, h2]
  simp [hfr, hne]

theorem all_take_drop (ds : List Char) (n : Nat) (h : ds.all isDecDigit = true) :
    (ds.take n).all isDecDigit = true ∧ (ds.drop n).all isDecDigit = true := by
  simp only [List.all_eq_true] at *
  exact ⟨fun c hc => h c (List.mem_of_mem_take hc), fun c hc => h c (List.mem_of_mem_drop hc)⟩

/-- What `parseDecimal` reads from the `%f` layout: the digits, scaled by the
position of the decimal point. -/
theorem parseDecimal_fmtF (ds : List Char) (dp : Int) (h : ds.all isDecDigit = true) :
    parseDecimal (fmtF ds dp) =
      some (digitsVal ds * 10 ^ (dp - ds.length).toNat, ((ds.length : Int) - dp).toNat) := by
  unfold fmtF
  by_cases hdp : 0 < dp
  · simp only [hdp, if_true]
    by_cases hprec : 0 < ((ds.length : Int) - dp).toNat
    · -- the point falls inside the digits
      simp only [hprec, if_true]
      have hlt : dp.toNat < ds.length := by omega
      have h0 : dp.toNat - ds.length = 0 := by omega
      have h1 : (-dp).toNat = 0 := by omega
      rw [h0, h1]
      simp only [List.replicate_zero, List.append_nil, List.nil_append]
      obtain ⟨ht, hd⟩ := all_take_drop ds dp.toNat h
      have hne : ds.take dp.toNat ≠ [] := by
        intro h0
        have := congrArg List.length h0
        simp only [List.length_take, List.length_nil] at this
        omega
      rw [parseDecimal_frac _ _ ht hd hne, List.take_append_drop]
      have h2 : (dp - ds.length).toNat = 0 := by omega
      have h3 : (ds.drop dp.toNat).length = ((ds.length : Int) - dp).toNat := by
        simp only [List.length_drop]; omega
      rw [h2, h3]; simp
    · -- the point falls at or after the last digit
      simp only [hprec, if_false, List.append_nil]
      have hge : ds.length ≤ dp.toNat := by omega
      rw [List.take_of_length_le hge]
      have hall : (ds ++ List.replicate (dp.toNat - ds.length) '0').all isDecDigit = true := by
        rw [List.all_append, h, all_zeros]; rfl
      have hne : ds ++ List.replicate (dp.toNat - ds.length) '0' ≠ [] := by
        intro h0
        have := congrArg List.length h0
        simp only [List.length_append, List.length_replicate, List.length_nil] at this
        omega
      rw [parseDecimal_int _ hall hne, digitsVal_app, digitsVal_zeros, List.length_replicate]
      have h2 : (dp - ds.length).toNat = dp.toNat - ds.length := by omega
      have h3 : ((ds.length : Int) - dp).toNat = 0 := by omega
      rw [h2, h3]; simp
  · simp only [hdp, if_false]
    have h0 : dp.toNat = 0 := by omega
    rw [h0, List.drop_zero]
    by_cases hprec : 0 < ((ds.length : Int) - dp).toNat
    · -- the point falls before the first digit
      simp only [hprec, if_true]
      have hall : (List.replicate (-dp).toNat '0' ++ ds).all isDecDigit = true := by
        rw [List.all_append, h, all_zeros]; rfl
      have := parseDecimal_frac ['0'] (List.replicate (-dp).toNat '0' ++ ds) (by decide) hall
        (by simp)
      rw [this]
      have hv : digitsVal (['0'] ++ (List.replicate (-dp).toNat '0' ++ ds)) = digitsVal ds := by
        rw [← List.append_assoc, digitsVal_app]
        have : ['0'] ++ List.replicate (-dp).toNat '0' = List.replicate ((-dp).toNat + 1) '0' := by
          rw [List.replicate_succ]; rfl
        rw [this, digitsVal_zeros]; simp
      have h2 : (dp - ds.length).toNat = 0 := by omega
      have h3 : (List.replicate (-dp).toNat '0' ++ ds).length =
          ((ds.length : Int) - dp).toNat := by
        simp only [List.length_append, List.length_replicate]; omega
      rw [hv, h2, h3]; simp
    · -- no digit and no shift: the text is `0`
      simp only [hprec, if_false, List.append_nil]
      have hlen : ds.length = 0 := by omega
      have hnil : ds = [] := List.length_eq_zero.mp hlen
      subst hnil
      have h3 : (((([] : List Char).length : Nat) : Int) - dp).toNat = 0 := by omega
      have h4 : (dp - ((([] : List Char).length : Nat) : Int)).toNat = 0 := by
        simp only [List.length_nil, Nat.cast_zero, sub_zero]; omega
      rw [h3, h4]
      decide

/-- The `%f` layout starts with a decimal digit. -/
theorem fmtF_head (ds : List Char) (dp : Int) (h : ds.all isDecDigit = true) :
    ∃ c rest, fmtF ds dp = c :: rest ∧ isDecDigit c = true := by
  unfold fmtF
  by_cases hdp : 0 < dp
  · simp only [hdp, if_true]
    obtain ⟨k, hk⟩ : ∃ k, dp.toNat = k + 1 := ⟨dp.toNat - 1, by omega⟩
    rw [hk]
    cases ds with
    | nil => exact ⟨'0', _, rfl, by decide⟩
    | cons a ds =>
      simp only [List.all_cons, Bool.and_eq_true] at h
      exact ⟨a, _, rfl, h.1⟩
  · simp only [hdp, if_false]
    exact ⟨'0', _, rfl, by decide⟩

theorem splitSign_digit (c : Char) (rest : List Char) (h : isDecDigit c = true) :
    splitSign (c :: rest) = (false, c :: rest) := by
  have h1 : c ≠ '-' := by rintro rfl; exact absurd h (by decide)
  have h2 : c ≠ '+' := by rintro rfl; exact absurd h (by decide)
  simp [splitSign, h1, h2]

theorem splitSign_minus (body : List Char) : splitSign ('-' :: body) = (true, body) := by
  simp [splitSign]

/-- `ParseInt` reads back what `FormatInt` writes, for a 64-bit integer. -/
theorem ParseInt_FormatInt (i : Int) (hlo : -(2 ^ 63) ≤ i) (hhi : i < 2 ^ 63) :
    ParseInt (FormatInt i) = some i := by
  have hall := decDigits_all i.natAbs
  have hne := decDigits_ne_nil i.natAbs
  have hval := decDigits_val i.natAbs
  unfold ParseInt FormatInt
  simp only [natDigits_eq]
  by_cases hneg : i < 0
  · simp only [hneg, if_true, splitSign_minus]
    have he : (decDigits i.natAbs).isEmpty = false := by
      cases h : decDigits i.natAbs with
      | nil => exact absurd h hne
      | cons a l => rfl
    simp only [he, hall, Bool.not_true, Bool.or_self, Bool.false_eq_true, if_false, hval]
    have hv : -((i.natAbs : Nat) : Int) = i := by omega
    rw [hv]
    have hr : (decide (i < -(2 ^ 63)) || decide (2 ^ 63 ≤ i)) = false := by
      simp only [Bool.or_eq_false_iff, decide_eq_false_iff_not]
      constructor <;> omega
    rw [hr]; rfl
  · simp only [hneg, if_false]
    cases h : decDigits i.natAbs with
    | nil => exact absurd h hne
    | cons a l =>
      rw [h] at hall hval
      have ha : isDecDigit a = true := by
        simp only [List.all_cons, Bool.and_eq_true] at hall
        exact hall.1
      simp only [splitSign_digit a l ha, List.isEmpty_cons, hall, Bool.not_true, Bool.or_self,
        Bool.false_eq_true, if_false, hval]
      have hv : ((i.natAbs : Nat) : Int) = i := by omega
      rw [hv]
      have hr : (decide (i < -(2 ^ 63)) || decide (2 ^ 63 ≤ i)) = false := by
        simp only [Bool.or_eq_false_iff, decide_eq_false_iff_not]
        constructor <;> omega
      rw [hr]; rfl

/-! ## Helper lemmas: the float round trip -/

theorem scales_eq (j : Int) :
    posScale j = 10 ^ j.toNat * 2 ^ 1075 ∧ negScale j = 10 ^ (-j).toNat := by
  unfold posScale negScale
  by_cases h : 0 ≤ j
  · have : (-j).toNat = 0 := by omega
    simp [h, this]
  · have : j.toNat = 0 := by omega
    simp [h, this]

/-- Comparing `c * 10 ^ j` with a bound is comparing `n / d` with it, when the
two are the same number. -/
theorem scale_bounds (A c n d : Nat) (j : Int) (hd : 0 < d)
    (hrel : c * 10 ^ j.toNat * d = n * 10 ^ (-j).toNat) :
    (A * negScale j < c * posScale j ↔ A * d < n * 2 ^ 1075) ∧
    (A * negScale j = c * posScale j ↔ A * d = n * 2 ^ 1075) ∧
    (c * posScale j < A * negScale j ↔ n * 2 ^ 1075 < A * d) := by
  obtain ⟨hp, hq⟩ := scales_eq j
  rw [hp, hq]
  have hQ : 0 < 10 ^ (-j).toNat := Nat.pos_pow_of_pos _ (by norm_num)
  generalize 10 ^ (-j).toNat = Q at *
  generalize 10 ^ j.toNat = P at *
  generalize 2 ^ 1075 = K at *
  have e1 : c * (P * K) * d = n * K * Q := by
    calc c * (P * K) * d = c * P * d * K := by ring
      _ = n * Q * K := by rw [hrel]
      _ = n * K * Q := by ring
  have e2 : A * Q * d = A * d * Q := by ring
  refine ⟨?_, ?_, ?_⟩
  · rw [← Nat.mul_lt_mul_right hd, e1, e2, Nat.mul_lt_mul_right hQ]
  · constructor
    · intro h
      have := congrArg (· * d) h
      simp only [e1, e2] at this
      exact Nat.eq_of_mul_eq_mul_right hQ this
    · intro h
      have : A * Q * d = c * (P * K) * d := by rw [e1, e2, h]
      exact Nat.eq_of_mul_eq_mul_right hd this
  · rw [← Nat.mul_lt_mul_right hd, e1, e2, Nat.mul_lt_mul_right hQ]

theorem midpoints_around (m e : Nat) (hm : 0 < m) :
    loBound m e < 2 * m * 2 ^ e ∧ 2 * m * 2 ^ e < upBound m e := by
  have hP : 0 < 2 ^ e := Nat.two_pow_pos e
  constructor
  · unfold loBound
    split_ifs with h
    · exact Nat.mul_lt_mul_of_pos_right (by omega) hP
    · push_neg at h
      obtain ⟨e', rfl⟩ : ∃ e', e = e' + 1 := ⟨e - 1, by omega⟩
      rw [Nat.add_sub_cancel, pow_succ]
      have : 2 * m * (2 ^ e' * 2) = 4 * m * 2 ^ e' := by ring
      rw [this]
      exact Nat.mul_lt_mul_of_pos_right (by omega) (Nat.two_pow_pos e')
  · unfold upBound
    exact Nat.mul_lt_mul_of_pos_right (by omega) hP

/-- The fields of a finite float: the pattern is the sign bit plus
`ulpExp * 2 ^ 52 + mant`. -/
theorem finite_fields (x : Float64) (hb : x.bits < 2 ^ 64) (hfin : x.expField ≠ 2047) :
    x.bits = (if x.sign then 2 ^ 63 else 0) + (x.ulpExp * 2 ^ 52 + x.mant) ∧
    x.mant < 2 ^ 53 ∧ x.ulpExp ≤ 2045 ∧ (1 ≤ x.ulpExp → 2 ^ 52 ≤ x.mant) := by
  unfold Float64.sign Float64.ulpExp Float64.mant Float64.fracField
  unfold Float64.expField at hfin ⊢
  generalize x.bits = b at *
  have hs : (decide (b / 2 ^ 63 % 2 = 1) = true) ↔ 2 ^ 63 ≤ b := by
    simp only [decide_eq_true_eq]; omega
  by_cases h63 : 2 ^ 63 ≤ b
  · rw [if_pos (hs.mpr h63)]
    by_cases hE : b / 2 ^ 52 % 2048 = 0
    · rw [if_pos hE]; omega
    · rw [if_neg hE]; omega
  · rw [if_neg (fun h => h63 (hs.mp h))]
    by_cases hE : b / 2 ^ 52 % 2048 = 0
    · rw [if_pos hE]; omega
    · rw [if_neg hE]; omega

/-- `ParseFloat` on an optional `-` followed by a text that starts with a digit. -/
theorem ParseFloat_digits (neg : Bool) (c : Char) (rest : List Char)
    (hc : isDecDigit c = true) :
    ParseFloat ⟨(if neg then ['-'] else []) ++ c :: rest⟩ =
      match parseDecimal (c :: rest) with
      | some (n, k) => some ⟨(if neg then 2 ^ 63 else 0) + roundMag n (10 ^ k)⟩
      | none => none := by
  have h1 : c ≠ 'N' := by rintro rfl; exact absurd hc (by decide)
  have h2 : c ≠ 'I' := by rintro rfl; exact absurd hc (by decide)
  unfold ParseFloat
  cases neg with
  | true =>
    have hN : ¬ ('-' :: c :: rest = ['N', 'a', 'N']) := by
      intro h
      have := (List.cons.inj h).1
      exact absurd this (by decide)
    have hI : ¬ (c :: rest = ['I', 'n', 'f']) := fun h => h2 (List.cons.inj h).1
    simp only [if_true, List.singleton_append, hN, if_false, splitSign_minus, hI]
  | false =>
    have hN : ¬ (c :: rest = ['N', 'a', 'N']) := fun h => h1 (List.cons.inj h).1
    have hI : ¬ (c :: rest = ['I', 'n', 'f']) := fun h => h2 (List.cons.inj h).1
    simp only [Bool.false_eq_true, if_false, List.nil_append, hN, splitSign_digit c rest hc, hI]

/-- `ParseFloat` reads back the finite non-zero float that `FormatFloat` wrote. -/
theorem roundtrip_finite (x : Float64) (hb : x.bits < 2 ^ 64) (hfin : x.expField ≠ 2047)
    (hm : x.mant ≠ 0) : ParseFloat (FormatFloat x) = some x := by
  obtain ⟨hbits, hm53, he, hnorm⟩ := finite_fields x hb hfin
  have hnan : x.isNaN = false := by simp [Float64.isNaN, hfin]
  have hinf : x.isInf = false := by simp [Float64.isInf, hfin]
  have hmpos : 0 < x.mant := Nat.pos_of_ne_zero hm
  obtain ⟨hmid1, hmid2⟩ := midpoints_around x.mant x.ulpExp hmpos
  have hin := shortestFrom_mem (2 * x.mant * 2 ^ x.ulpExp) (loBound x.mant x.ulpExp)
    (upBound x.mant x.ulpExp) (decide (x.mant % 2 = 0)) hmid1 hmid2 1385 309
  have hsh : shortest x = shortestFrom (2 * x.mant * 2 ^ x.ulpExp) (loBound x.mant x.ulpExp)
    (upBound x.mant x.ulpExp) (decide (x.mant % 2 = 0)) 1385 309 := rfl
  rw [← hsh] at hin
  unfold FormatFloat
  simp only [hnan, hinf, Bool.false_eq_true, if_false, hm]
  generalize shortest x = cj at hin ⊢
  obtain ⟨c, j⟩ := cj
  simp only at hin ⊢
  rw [natDigits_eq]
  obtain ⟨z, hsplit, hlen⟩ := trimZeros_split (decDigits c)
  have htall := trimZeros_all (decDigits c) (decDigits_all c)
  have hcval : c = digitsVal (trimZeros (decDigits c)) * 10 ^ z := by
    have h1 := decDigits_val c
    rw [hsplit, digitsVal_app, digitsVal_zeros, List.length_replicate] at h1
    omega
  generalize trimZeros (decDigits c) = t at *
  generalize hdp : ((decDigits c).length : Int) + j = dp at *
  obtain ⟨c0, rest, hhead, hc0⟩ := fmtF_head t dp htall
  have hpd := parseDecimal_fmtF t dp htall
  rw [hhead] at hpd ⊢
  rw [ParseFloat_digits x.sign c0 rest hc0, hpd]
  simp only
  have hd : 0 < 10 ^ ((t.length : Int) - dp).toNat := Nat.pos_pow_of_pos _ (by norm_num)
  -- the number read is the decimal chosen
  have hrel : c * 10 ^ j.toNat * 10 ^ ((t.length : Int) - dp).toNat =
      digitsVal t * 10 ^ (dp - t.length).toNat * 10 ^ (-j).toNat := by
    rw [hcval]
    have hexp : z + j.toNat + ((t.length : Int) - dp).toNat =
        (dp - t.length).toNat + (-j).toNat := by omega
    calc digitsVal t * 10 ^ z * 10 ^ j.toNat * 10 ^ ((t.length : Int) - dp).toNat
        = digitsVal t * 10 ^ (z + j.toNat + ((t.length : Int) - dp).toNat) := by
          rw [pow_add, pow_add]; ring
      _ = digitsVal t * 10 ^ ((dp - t.length).toNat + (-j).toNat) := by rw [hexp]
      _ = digitsVal t * 10 ^ (dp - t.length).toNat * 10 ^ (-j).toNat := by
          rw [pow_add]; ring
  obtain ⟨hl1, hl2, _⟩ := scale_bounds (loBound x.mant x.ulpExp) c
    (digitsVal t * 10 ^ (dp - t.length).toNat) _ j hd hrel
  obtain ⟨_, hu2, hu3⟩ := scale_bounds (upBound x.mant x.ulpExp) c
    (digitsVal t * 10 ^ (dp - t.length).toNat) _ j hd hrel
  obtain ⟨hlo, hhi⟩ := hin
  have hround := roundMag_eq (digitsVal t * 10 ^ (dp - t.length).toNat)
    (10 ^ ((t.length : Int) - dp).toNat) x.mant x.ulpExp hd hm53 he hnorm
    (by
      rcases hlo with h | ⟨hi, h⟩
      · exact Or.inl (hl1.mp h)
      · exact Or.inr ⟨by simpa using hi, hl2.mp h⟩)
    (by
      rcases hhi with h | ⟨hi, h⟩
      · exact Or.inl (hu3.mp h)
      · exact Or.inr ⟨by simpa using hi, (hu2.mp h.symm).symm⟩)
  rw [hround]
  congr 1
  cases x with
  | mk b =>
    simp only at hbits ⊢
    rw [Float64.mk.injEq]
    exact hbits.symm

theorem roundMag_zero : roundMag 0 (10 ^ 0) = 0 := by decide

/-- `ParseFloat` reads back every float but a NaN that `FormatFloat` wrote,
bit for bit. -/
theorem ParseFloat_FormatFloat (x : Float64) (hb : x.bits < 2 ^ 64) (hn : x.isNaN = false) :
    ParseFloat (FormatFloat x) = some x := by
  by_cases hfin : x.expField = 2047
  · -- an infinity
    have hfrac : x.fracField = 0 := by
      simp only [Float64.isNaN, hfin, decide_True, Bool.true_and, ne_eq,
        decide_not, Bool.not_eq_false', decide_eq_true_eq] at hn
      exact hn
    have hinf : x.isInf = true := by simp [Float64.isInf, hfin, hfrac]
    unfold FormatFloat
    simp only [hn, hinf, Bool.false_eq_true, if_false, if_true]
    cases x with
    | mk b =>
      simp only [Float64.expField, Float64.fracField, Float64.sign] at *
      by_cases hs : b / 2 ^ 63 % 2 = 1
      · have : b = 2 ^ 63 + Float64.infBits := by unfold Float64.infBits; omega
        subst this
        decide
      · have : b = 0 + Float64.infBits := by unfold Float64.infBits; omega
        subst this
        decide
  · by_cases hm : x.mant = 0
    · -- a zero
      obtain ⟨hbits, _, _, _⟩ := finite_fields x hb hfin
      have hinf : x.isInf = false := by simp [Float64.isInf, hfin]
      have he : x.ulpExp = 0 := by
        unfold Float64.ulpExp
        unfold Float64.mant at hm
        by_cases h0 : x.expField = 0
        · omega
        · rw [if_neg h0] at hm; omega
      unfold FormatFloat
      simp only [hn, hinf, Bool.false_eq_true, if_false, hm, if_true]
      rw [ParseFloat_digits x.sign '0' [] (by decide)]
      have hp : parseDecimal ['0'] = some (0, 0) := by decide
      rw [hp]
      simp only [roundMag_zero]
      congr 1
      cases x with
      | mk b =>
        simp only at hbits ⊢
        rw [Float64.mk.injEq]
        rw [he, hm] at hbits
        omega
    · exact roundtrip_finite x hb hfin hm

/-! ## Helper lemmas: the decoded float is a 64-bit pattern -/

theorem bitLen_bounds (x : Nat) (hpos : 0 < x) (hx : x < 2 ^ 4096) :
    1 ≤ bitLen x ∧ 2 ^ (bitLen x - 1) ≤ x ∧ x < 2 ^ bitLen x := by
  have hok : chopOK [2048, 1024, 512, 256, 128, 64, 32, 16, 8, 4, 2, 1] := by
    simp [chopOK]
  obtain ⟨k', hk', h1, hlo', hhi'⟩ :=
    (bitLenAux_spec [2048, 1024, 512, 256, 128, 64, 32, 16, 8, 4, 2, 1] x 0 hok
      (by simpa using hx)).2 hpos
  have : bitLen x = k' := by unfold bitLen; rw [hk']; omega
  rw [this]
  exact ⟨h1, hlo', hhi'⟩

theorem rneDiv_le (n d : Nat) : rneDiv n d ≤ n / d + 1 := by
  unfold rneDiv
  split_ifs <;> omega

/-- The rounding never leaves the patterns from `+0` to `+Inf`. -/
theorem roundMag_le (n d : Nat) (hd : 0 < d) : roundMag n d ≤ Float64.infBits := by
  unfold roundMag
  split_ifs with hbig
  · exact le_refl _
  · simp only
    have hn : n < d * 2 ^ 1024 := not_le.mp hbig
    have hq : n * 2 ^ 1074 / d < 2 ^ 2098 := by
      rw [Nat.div_lt_iff_lt_mul hd]
      have h1 : n * 2 ^ 1074 < d * 2 ^ 1024 * 2 ^ 1074 :=
        Nat.mul_lt_mul_of_pos_right hn (Nat.two_pow_pos _)
      have h2 : d * 2 ^ 1024 * 2 ^ 1074 = 2 ^ 2098 * d := by
        rw [Nat.mul_assoc, ← pow_add]; ring
      rw [h2] at h1; exact h1
    generalize n * 2 ^ 1074 = N at *
    have hr := rneDiv_le N (d * 2 ^ (bitLen (N / d) - 53))
    rw [← Nat.div_div_eq_div_mul] at hr
    rcases Nat.eq_zero_or_pos (N / d) with h0 | hpos
    · rw [h0] at hr ⊢
      simp only [bitLen_zero, Nat.zero_sub, pow_zero, Nat.div_one, zero_mul, zero_add,
        mul_one] at hr ⊢
      unfold Float64.infBits
      have : (1 : Nat) ≤ 2047 * 2 ^ 52 := by norm_num
      omega
    · have h4096 : N / d < 2 ^ 4096 :=
        lt_of_lt_of_le hq (Nat.pow_le_pow_right (by norm_num) (by norm_num))
      obtain ⟨hL1, hLlo, hLhi⟩ := bitLen_bounds (N / d) hpos h4096
      generalize N / d = q at *
      generalize bitLen q = L at *
      have hL : L ≤ 2098 := by
        by_contra hgt
        have : 2 ^ 2098 ≤ 2 ^ (L - 1) := Nat.pow_le_pow_right (by norm_num) (by omega)
        omega
      have hdiv : q / 2 ^ (L - 53) < 2 ^ 53 := by
        rw [Nat.div_lt_iff_lt_mul (Nat.two_pow_pos _), ← pow_add]
        exact lt_of_lt_of_le hLhi (Nat.pow_le_pow_right (by norm_num) (by omega))
      have hs : (L - 53) * 2 ^ 52 ≤ 2045 * 2 ^ 52 := Nat.mul_le_mul_right _ (by omega)
      unfold Float64.infBits
      clear hLlo hLhi hq h4096 hn hbig
      omega

theorem ofInt_bits_lt (i : Int) : (Float64.ofInt i).bits < 2 ^ 64 := by
  unfold Float64.ofInt
  have := roundMag_le i.natAbs 1 Nat.one_pos
  unfold Float64.infBits at this
  simp only
  split_ifs <;> omega

theorem div100_bits_lt (x : Float64) (hb : x.bits < 2 ^ 64) : x.div100.bits < 2 ^ 64 := by
  unfold Float64.div100
  split_ifs
  · exact Nat.or_lt_two_pow (Nat.mod_lt _ (Nat.two_pow_pos _)) (by norm_num)
  · exact hb
  · have := roundMag_le x.scaled (100 * 2 ^ 1074) (Nat.mul_pos (by norm_num) (Nat.two_pow_pos _))
    unfold Float64.infBits at this
    simp only
    omega
  · have := roundMag_le x.scaled (100 * 2 ^ 1074) (Nat.mul_pos (by norm_num) (Nat.two_pow_pos _))
    unfold Float64.infBits at this
    simp only
    omega

/-- The float returned by `RK.number` is a 64-bit pattern. -/
theorem number_bits_lt (rk : RK) : (RK.number rk).2.1.bits < 2 ^ 64 := by
  have hfb : ∀ b, (Float64.Float64frombits b).bits < 2 ^ 64 :=
    fun b => Nat.mod_lt _ (Nat.two_pow_pos _)
  unfold RK.number
  simp only
  split_ifs
  · exact div100_bits_lt _ (hfb _)
  · exact hfb _
  · exact div100_bits_lt _ (ofInt_bits_lt _)
  · simp [Float64.zero]

/-! ## Helper lemmas: which RK values decode to a NaN -/

theorem or_bit (b i : Nat) :
    (b ||| 2 ^ 51) / 2 ^ i % 2 = 1 ↔ (b / 2 ^ i % 2 = 1 ∨ i = 51) := by
  have h := Nat.testBit_or b (2 ^ 51) i
  rw [Nat.testBit_two_pow] at h
  simp only [Nat.testBit_to_div_mod] at h
  have h' := congrArg (· = true) h
  simp only [decide_eq_true_eq, Bool.or_eq_true] at h'
  rw [h']
  constructor
  · rintro (h1 | h1)
    · exact Or.inl h1
    · exact Or.inr h1.symm
  · rintro (h1 | h1)
    · exact Or.inl h1
    · exact Or.inr h1.symm

/-- Quieting a NaN keeps it a NaN. -/
theorem quiet_isNaN (x : Float64) (hn : x.isNaN = true) :
    Float64.isNaN ⟨x.bits % 2 ^ 64 ||| 2 ^ 51⟩ = true := by
  simp only [Float64.isNaN, Float64.expField, Float64.fracField, Bool.and_eq_true,
    decide_eq_true_eq, ne_eq, decide_not, Bool.not_eq_true', decide_eq_false_iff_not] at hn ⊢
  obtain ⟨he, _⟩ := hn
  generalize x.bits = b at *
  have e52 := (or_bit (b % 2 ^ 64) 52).mpr (Or.inl (by omega))
  have e53 := (or_bit (b % 2 ^ 64) 53).mpr (Or.inl (by omega))
  have e54 := (or_bit (b % 2 ^ 64) 54).mpr (Or.inl (by omega))
  have e55 := (or_bit (b % 2 ^ 64) 55).mpr (Or.inl (by omega))
  have e56 := (or_bit (b % 2 ^ 64) 56).mpr (Or.inl (by omega))
  have e57 := (or_bit (b % 2 ^ 64) 57).mpr (Or.inl (by omega))
  have e58 := (or_bit (b % 2 ^ 64) 58).mpr (Or.inl (by omega))
  have e59 := (or_bit (b % 2 ^ 64) 59).mpr (Or.inl (by omega))
  have e60 := (or_bit (b % 2 ^ 64) 60).mpr (Or.inl (by omega))
  have e61 := (or_bit (b % 2 ^ 64) 61).mpr (Or.inl (by omega))
  have e62 := (or_bit (b % 2 ^ 64) 62).mpr (Or.inl (by omega))
  have e51 := (or_bit (b % 2 ^ 64) 51).mpr (Or.inr rfl)
  generalize b % 2 ^ 64 ||| 2 ^ 51 = r at *
  constructor <;> omega

/-- A pattern from `+0` to `+Inf`, with either sign, is not a NaN. -/
theorem not_isNaN_of_le (s r : Nat) (hs : s = 0 ∨ s = 2 ^ 63) (hr : r ≤ Float64.infBits) :
    Float64.isNaN ⟨s + r⟩ = false := by
  unfold Float64.infBits at hr
  simp only [Float64.isNaN, Float64.expField, Float64.fracField, Bool.and_eq_false_iff,
    decide_eq_false_iff_not, ne_eq, decide_not, Bool.not_eq_false', decide_eq_true_eq]
  by_cases h : (s + r) / 2 ^ 52 % 2048 = 2047
  · right
    rcases hs with hs | hs <;> omega
  · left; exact h

/-- Division by 100 turns a NaN into a NaN and nothing else into one. -/
theorem div100_isNaN (x : Float64) : x.div100.isNaN = x.isNaN := by
  unfold Float64.div100
  by_cases hn : x.isNaN = true
  · rw [if_pos hn, hn]
    exact quiet_isNaN x hn
  · rw [if_neg hn]
    have hn' : x.isNaN = false := by simpa using hn
    rw [hn']
    split_ifs
    · exact hn'
    · exact not_isNaN_of_le _ _ (Or.inr rfl)
        (roundMag_le _ _ (Nat.mul_pos (by norm_num) (Nat.two_pow_pos _)))
    · exact not_isNaN_of_le _ _ (Or.inl rfl)
        (roundMag_le _ _ (Nat.mul_pos (by norm_num) (Nat.two_pow_pos _)))

theorem ofInt_isNaN (i : Int) : (Float64.ofInt i).isNaN = false := by
  unfold Float64.ofInt
  split_ifs
  · exact not_isNaN_of_le _ _ (Or.inr rfl) (roundMag_le _ _ Nat.one_pos)
  · exact not_isNaN_of_le _ _ (Or.inl rfl) (roundMag_le _ _ Nat.one_pos)

/-- The pattern `uint64(int32(rk) >> 2) << 34` holds bits 31..2 of `rk` in its
bits 63..34 and zeros below: the sign extension is shifted out. -/
theorem float_pattern (rk : Nat) :
    toUint64 (toInt32 rk >>> (2 : Nat)) * 2 ^ 34 % 2 ^ 64 = rk / 4 % 2 ^ 30 * 2 ^ 34 := by
  rw [toInt32_shift]
  unfold toUint64
  split_ifs <;> omega

/-- The RK values that decode to a NaN: integer flag clear, exponent bits
30..20 all ones, fraction bits 19..2 not all zero. -/
theorem number_isNaN_iff (rk : Nat) :
    (RK.number rk).2.1.isNaN = true ↔
      rk / 2 % 2 = 0 ∧ rk / 2 ^ 20 % 2048 = 2047 ∧ rk / 4 % 2 ^ 18 ≠ 0 := by
  have hfb : (Float64.Float64frombits
      (toUint64 (toInt32 rk >>> (2 : Nat)) * 2 ^ 34 % 2 ^ 64)).isNaN = true ↔
      rk / 2 ^ 20 % 2048 = 2047 ∧ rk / 4 % 2 ^ 18 ≠ 0 := by
    rw [float_pattern]
    have hp : rk / 4 % 2 ^ 30 < 2 ^ 30 := Nat.mod_lt _ (Nat.two_pow_pos _)
    have e1 : rk / 2 ^ 20 % 2048 = rk / 4 % 2 ^ 30 / 2 ^ 18 % 2048 := by omega
    have e2 : rk / 4 % 2 ^ 18 = rk / 4 % 2 ^ 30 % 2 ^ 18 := by omega
    rw [e1, e2]
    generalize rk / 4 % 2 ^ 30 = p at hp ⊢
    have e3 : p * 2 ^ 34 % 2 ^ 64 = p * 2 ^ 34 := Nat.mod_eq_of_lt (by omega)
    have e4 : p * 2 ^ 34 / 2 ^ 52 = p / 2 ^ 18 := by omega
    have e5 : p * 2 ^ 34 % 2 ^ 52 = p % 2 ^ 18 * 2 ^ 34 := by omega
    simp only [Float64.Float64frombits, Float64.isNaN, Float64.expField, Float64.fracField,
      Bool.and_eq_true, decide_eq_true_eq, ne_eq, decide_not, Bool.not_eq_true',
      decide_eq_false_iff_not, e3, e4, e5]
    constructor
    · rintro ⟨h1, h2⟩; exact ⟨h1, by omega⟩
    · rintro ⟨h1, h2⟩; exact ⟨h1, by omega⟩
  unfold RK.number
  simp only [and_one_eq, and_two_eq]
  by_cases h2 : rk / 2 % 2 = 0
  · have e : 2 * (rk / 2 % 2) = 0 := by omega
    simp only [e, if_true]
    by_cases h1 : rk % 2 = 0
    · simp only [h1, ne_eq, not_true_eq_false, if_false, hfb, h2, true_and]
    · simp only [h1, ne_eq, not_false_eq_true, if_true, div100_isNaN, hfb, h2, true_and]
  · have e : ¬ 2 * (rk / 2 % 2) = 0 := by omega
    simp only [e, if_false]
    by_cases h1 : rk % 2 = 0
    · simp only [h1, ne_eq, not_true_eq_false, if_false, h2, false_and, iff_false]
      decide
    · simp only [h1, ne_eq, not_false_eq_true, if_true, div100_isNaN, ofInt_isNaN, h2,
        false_and, Bool.false_eq_true]

/-! ## C4: the text round trip -/

/-- C4, as stated, fails: the RK value `0x7FF00004` decodes to a float that is
a NaN; its text is `NaN`, which parses to a NaN, and no value parsed from the
text is equal (Go's `==`) to the decoded one, nor has its bit pattern. -/
theorem C4_nan_breaks_roundtrip :
    (RK.number 0x7FF00004).2.2 = true ∧
    (RK.number 0x7FF00004).2.1 = ⟨0x7FF0000400000000⟩ ∧
    RK.String 0x7FF00004 = "NaN" ∧
    ParseFloat (RK.String 0x7FF00004) = some ⟨0x7FF8000000000001⟩ ∧
    Float64.feq ⟨0x7FF8000000000001⟩ (RK.number 0x7FF00004).2.1 = false ∧
    ¬ ∃ g, ParseFloat (RK.String 0x7FF00004) = some g ∧
      Float64.feq g (RK.number 0x7FF00004).2.1 = true := by
  refine ⟨by decide, by decide, by decide, by decide, by decide, ?_⟩
  rintro ⟨g, _, hg⟩
  have hnan : (RK.number 0x7FF00004).2.1.isNaN = true := by decide
  simp [Float64.feq, hnan] at hg

/-- C4, amended: the text of `RK.String` parses back to the decoded value
whenever that value is an integer or a float other than a NaN, and then to the
very same bit pattern; a decoded NaN is written `NaN`, which parses to a NaN
that is equal to no float. The values decoded to a NaN are those with the
integer flag clear, bits 30..20 all ones and bits 19..2 not all zero. -/
theorem C4_roundtrip_except_nan (rk : RK) :
    ((RK.number rk).2.2 = false → ParseInt (RK.String rk) = some (RK.number rk).1) ∧
    ((RK.number rk).2.2 = true → (RK.number rk).2.1.isNaN = false →
      ParseFloat (RK.String rk) = some (RK.number rk).2.1 ∧
      Float64.feq (RK.number rk).2.1 (RK.number rk).2.1 = true) ∧
    ((RK.number rk).2.2 = true → (RK.number rk).2.1.isNaN = true →
      RK.String rk = "NaN" ∧
      ParseFloat (RK.String rk) = some ⟨0x7FF8000000000001⟩ ∧
      ∀ g, Float64.feq g (RK.number rk).2.1 = false) ∧
    ((RK.number rk).2.1.isNaN = true ↔
      rk / 2 % 2 = 0 ∧ rk / 2 ^ 20 % 2048 = 2047 ∧ rk / 4 % 2 ^ 18 ≠ 0) := by
  refine ⟨?_, ?_, ?_, number_isNaN_iff rk⟩
  all_goals have hbits := number_bits_lt rk
  · -- an integer: `FormatInt`, then `ParseInt`
    intro hint
    rcases number_cases rk with ⟨_, e⟩ | ⟨_, f, e⟩
    · have hs := toInt32_shift rk
      have hi : RK.String rk = FormatInt (toInt32 rk >>> (2 : Nat)) := by
        simp [RK.String, e]
      rw [hi, e]
      apply ParseInt_FormatInt
      · rw [hs]; split_ifs <;> omega
      · rw [hs]; split_ifs <;> omega
    · rw [e] at hint; exact absurd hint (by simp)
  · -- a float other than a NaN: `FormatFloat`, then `ParseFloat`
    intro hfl hn
    rcases number_cases rk with ⟨_, e⟩ | ⟨_, f, e⟩
    · rw [e] at hfl; exact absurd hfl (by simp)
    · rw [e] at hbits hn ⊢
      simp only at hbits hn
      have hstr : RK.String rk = FormatFloat f := by simp [RK.String, e]
      refine ⟨?_, ?_⟩
      · rw [hstr]; exact ParseFloat_FormatFloat f hbits hn
      · simp [Float64.feq, hn]
  · -- a NaN
    intro hfl hn
    rcases number_cases rk with ⟨_, e⟩ | ⟨_, f, e⟩
    · rw [e] at hfl; exact absurd hfl (by simp)
    · rw [e] at hn ⊢
      simp only at hn
      have hstr : RK.String rk = FormatFloat f := by simp [RK.String, e]
      have hfmt : FormatFloat f = "NaN" := by simp [FormatFloat, hn]
      refine ⟨by rw [hstr, hfmt], by rw [hstr, hfmt]; decide, fun g => ?_⟩
      simp [Float64.feq, hn]

/-! ## Helper lemmas: substrings -/

theorem containsList_iff (s sub : List Char) : containsList s sub = true ↔ sub <:+: s := by
  induction s with
  | nil => simp [containsList, List.infix_nil]
  | cons c cs ih =>
    rw [containsList, Bool.or_eq_true, ih, List.infix_cons_iff, List.isPrefixOf_iff_prefix]

theorem Contains_iff (s sub : String) : Contains s sub = true ↔ sub.data <:+: s.data :=
  containsList_iff s.data sub.data

/-- A text that contains `b` contains every block of `b`. -/
theorem Contains_of_Contains (s a b : String) (hab : Contains b a = true)
    (h : Contains s b = true) : Contains s a = true := by
  rw [Contains_iff] at *
  exact List.IsInfix.trans hab h

theorem Contains_empty (sub : String) (h : sub ≠ "") : Contains "" sub = false := by
  cases hc : Contains "" sub with
  | false => rfl
  | true =>
    rw [Contains_iff] at hc
    have : sub.data = [] := by simpa using hc
    exact absurd (String.ext this) h

theorem ToLower_empty (tbl : Char → Char) : ToLower tbl "" = "" := rfl

/-- The doubled checks of the classifiers add nothing to the single ones. -/
theorem doubled_indicators (L : String) :
    (Contains L "h" || Contains L "hh" || Contains L "ss") = (Contains L "h" || Contains L "ss") ∧
    (Contains L "yyyy" || Contains L "yy") = Contains L "yy" ∧
    (Contains L "dd" || Contains L "d") = Contains L "d" ∧
    (Contains L "mm" || Contains L "m") = Contains L "m" := by
  have hh := Contains_of_Contains L "h" "hh" (by decide)
  have hy := Contains_of_Contains L "yy" "yyyy" (by decide)
  have hd := Contains_of_Contains L "d" "dd" (by decide)
  have hm := Contains_of_Contains L "m" "mm" (by decide)
  refine ⟨?_, ?_, ?_, ?_⟩
  · cases h1 : Contains L "hh" <;> cases h2 : Contains L "h" <;> simp_all
  · cases h1 : Contains L "yyyy" <;> cases h2 : Contains L "yy" <;> simp_all
  · cases h1 : Contains L "dd" <;> cases h2 : Contains L "d" <;> simp_all
  · cases h1 : Contains L "mm" <;> cases h2 : Contains L "m" <;> simp_all

/-! ## C5 – C8: the format classifiers -/

/-- C5: `IsDateOnlyFormat` and `IsTimeOnlyFormat` are never both true for the
same pattern. -/
theorem C5_date_only_time_only_exclusive (tbl : Char → Char) (p : String) :
    ¬ (IsDateOnlyFormat tbl p = true ∧ IsTimeOnlyFormat tbl p = true) := by
  unfold IsDateOnlyFormat IsTimeOnlyFormat
  by_cases hp : p = ""
  · simp [hp]
  · simp only [hp, if_false]
    generalize (Contains (ToLower tbl p) "h" || Contains (ToLower tbl p) "hh" ||
      Contains (ToLower tbl p) "ss") = t
    cases t <;> simp

/-- C6: with `L` the lowercased pattern, `IsDateOnlyFormat` holds exactly when
`L` has no hour/second indicator (`h`, `ss`) and has a year indicator (`yy`) or
both a month (`m`) and a day (`d`) indicator. It is false whenever an
hour/second indicator is present, false for the empty pattern, for `hh:mm:ss`
and for `0.00`, and true for `yyyy-mm-dd`. -/
theorem C6_date_only_characterisation (tbl : Char → Char) (p : String) :
    (IsDateOnlyFormat tbl p = true ↔
      (Contains (ToLower tbl p) "h" = false ∧ Contains (ToLower tbl p) "ss" = false) ∧
      (Contains (ToLower tbl p) "yy" = true ∨
        (Contains (ToLower tbl p) "m" = true ∧ Contains (ToLower tbl p) "d" = true))) ∧
    ((Contains (ToLower tbl p) "h" = true ∨ Contains (ToLower tbl p) "ss" = true) →
      IsDateOnlyFormat tbl p = false) ∧
    IsDateOnlyFormat tbl "" = false ∧
    IsDateOnlyFormat tbl "yyyy-mm-dd" = true ∧
    IsDateOnlyFormat tbl "hh:mm:ss" = false ∧
    IsDateOnlyFormat tbl "0.00" = false := by
  have key : IsDateOnlyFormat tbl p = true ↔
      (Contains (ToLower tbl p) "h" = false ∧ Contains (ToLower tbl p) "ss" = false) ∧
      (Contains (ToLower tbl p) "yy" = true ∨
        (Contains (ToLower tbl p) "m" = true ∧ Contains (ToLower tbl p) "d" = true)) := by
    unfold IsDateOnlyFormat
    by_cases hp : p = ""
    · subst hp
      simp [ToLower_empty, Contains_empty]
    · obtain ⟨e1, e2, e3, e4⟩ := doubled_indicators (ToLower tbl p)
      simp only [hp, if_false, e1, e2, e3, e4]
      cases Contains (ToLower tbl p) "h" <;> cases Contains (ToLower tbl p) "ss" <;>
        cases Contains (ToLower tbl p) "yy" <;> cases Contains (ToLower tbl p) "m" <;>
        cases Contains (ToLower tbl p) "d" <;> simp
  refine ⟨key, ?_, rfl, rfl, rfl, rfl⟩
  intro h
  cases hd : IsDateOnlyFormat tbl p with
  | false => rfl
  | true =>
    obtain ⟨⟨h1, h2⟩, _⟩ := key.mp hd
    rcases h with h | h <;> simp_all

/-- C7: with `L` the lowercased pattern, `IsTimeOnlyFormat` holds exactly when
`L` has an hour/second indicator (`h` or `ss`) and neither a year (`yy`) nor a
day (`d`) indicator; the letter `m` plays no part. `hh:mm:ss` is time-only,
`yyyy-mm-dd` is not. -/
theorem C7_time_only_characterisation (tbl : Char → Char) (p : String) :
    (IsTimeOnlyFormat tbl p = true ↔
      (Contains (ToLower tbl p) "h" = true ∨ Contains (ToLower tbl p) "ss" = true) ∧
      Contains (ToLower tbl p) "yy" = false ∧ Contains (ToLower tbl p) "d" = false) ∧
    IsTimeOnlyFormat tbl "hh:mm:ss" = true ∧
    IsTimeOnlyFormat tbl "yyyy-mm-dd" = false := by
  refine ⟨?_, rfl, rfl⟩
  unfold IsTimeOnlyFormat
  by_cases hp : p = ""
  · subst hp
    simp [ToLower_empty, Contains_empty]
  · obtain ⟨e1, e2, e3, e4⟩ := doubled_indicators (ToLower tbl p)
    simp only [hp, if_false, e1, e2, e3, e4]
    cases Contains (ToLower tbl p) "h" <;> cases Contains (ToLower tbl p) "ss" <;>
      cases Contains (ToLower tbl p) "yy" <;> cases Contains (ToLower tbl p) "m" <;>
      cases Contains (ToLower tbl p) "d" <;> simp

theorem any_Contains_iff (L : String) (ps : List String) :
    ps.any (fun pattern => Contains L pattern) = true ↔
      ∃ pattern ∈ ps, Contains L pattern = true := by
  simp [List.any_eq_true]

/-- C8: `IsDateTimeFormat` holds exactly when the lowercased pattern contains
one of the 25 entries of `dateTimePatterns`, equivalently one of the 14 entries
`yy`, `mm`, `dd`, `hh`, `ss`, `m/d`, `d/m` and the seven named formats; it is
false for the empty pattern, for `0.00` and for `General`, and true for
`yyyy-mm-dd`. -/
theorem C8_temporal_characterisation (tbl : Char → Char) (p : String) :
    dateTimePatterns.length = 25 ∧ corePatterns.length = 14 ∧
    (IsDateTimeFormat tbl p = true ↔
      ∃ pattern ∈ dateTimePatterns, Contains (ToLower tbl p) pattern = true) ∧
    (IsDateTimeFormat tbl p = true ↔
      ∃ pattern ∈ corePatterns, Contains (ToLower tbl p) pattern = true) ∧
    IsDateTimeFormat tbl "" = false ∧
    IsDateTimeFormat tbl "0.00" = false ∧
    IsDateTimeFormat tbl "General" = false ∧
    IsDateTimeFormat tbl "yyyy-mm-dd" = true := by
  have key : IsDateTimeFormat tbl p = true ↔
      ∃ pattern ∈ dateTimePatterns, Contains (ToLower tbl p) pattern = true := by
    unfold IsDateTimeFormat
    by_cases hp : p = ""
    · subst hp
      simp only [if_true, ToLower_empty, Bool.false_eq_true, false_iff, not_exists, not_and]
      intro pattern hmem
      have hne : pattern ≠ "" := by
        intro h0
        subst h0
        revert hmem
        decide
      simp [Contains_empty pattern hne]
    · simp only [hp, if_false]
      exact any_Contains_iff _ _
  refine ⟨rfl, rfl, key, ?_, rfl, rfl, rfl, rfl⟩
  rw [key]
  constructor
  · rintro ⟨pattern, hmem, hc⟩
    have hsub : ∀ q ∈ dateTimePatterns, ∃ c ∈ corePatterns, Contains q c = true := by
      decide
    obtain ⟨c, hcm, hcc⟩ := hsub pattern hmem
    exact ⟨c, hcm, Contains_of_Contains _ c pattern hcc hc⟩
  · rintro ⟨pattern, hmem, hc⟩
    have hsub : ∀ c ∈ corePatterns, c ∈ dateTimePatterns := by decide
    exact ⟨pattern, hsub pattern hmem, hc⟩

/-! ## Helper lemmas: the format compiler -/

theorem next_at (done rest : List LexToken) (t : LexToken) :
    parser.next { tokens := done ++ t :: rest, pos := (done.length : Int) - 1 } =
      .ok (some t, { tokens := done ++ t :: rest, pos := (done.length : Int) }) := by
  unfold parser.next
  have h1 : ¬ ((done.length : Int) - 1 ≥ ((done ++ t :: rest).length : Int) - 1) := by
    simp only [List.length_append, List.length_cons]
    push_cast
    omega
  simp only [h1, if_false]
  have h2 : ¬ ((done.length : Int) - 1 + 1 < 0) := by omega
  simp only [h2, if_false]
  have h3 : (done.length : Int) - 1 + 1 = (done.length : Int) := by omega
  simp only [h3, Int.toNat_ofNat, List.get?_eq_getElem?]
  rw [List.getElem?_append_right (le_refl _)]
  simp

theorem next_at_end (done : List LexToken) :
    parser.next { tokens := done, pos := (done.length : Int) - 1 } =
      .ok (none, { tokens := done, pos := (done.length : Int) - 1 }) := by
  unfold parser.next
  simp

/-- The cursor-driven loop computes `scanTokens` of the tokens past the cursor. -/
theorem loop_eq_scan (rest : List LexToken) : ∀ (done : List LexToken) (f : Formatter)
    (fuel : Nat), rest.length < fuel →
    (initialParserState.loop fuel
        { tokens := done ++ rest, pos := (done.length : Int) - 1 } f).map
      (fun r => (r.2.1, r.2.2)) = scanTokens rest f := by
  induction rest with
  | nil =>
    intro done f fuel hf
    obtain ⟨fuel, rfl⟩ : ∃ k, fuel = k + 1 := ⟨fuel - 1, by simp at hf; omega⟩
    simp only [List.append_nil, initialParserState.loop, next_at_end]
    rfl
  | cons t rest ih =>
    intro done f fuel hf
    obtain ⟨fuel, rfl⟩ : ∃ k, fuel = k + 1 := ⟨fuel - 1, by simp at hf; omega⟩
    simp only [initialParserState.loop, next_at, scanTokens]
    by_cases hk : t.kind = .T_EOF
    · simp only [hk, if_true]
      rfl
    · simp only [hk, if_false]
      cases hn : newItem t.kind with
      | none => rfl
      | some item =>
        simp only
        have := ih (done ++ [t]) { Items := f.Items ++ [item.setOriginal t.text] } fuel
          (by simp at hf; omega)
        simp only [List.append_assoc, List.singleton_append, List.length_append,
          List.length_singleton] at this
        push_cast at this
        simp only [add_sub_cancel_right] at this
        exact this

/-- `parse` in terms of `scanTokens`: the scan of all tokens, then the flush of
the end-of-input token's text. -/
theorem parse_eq_scan (tokens : List LexToken) :
    parse tokens =
      (scanTokens tokens { Items := [] }).map (fun r =>
        if r.2.text.length > 0 then { Items := r.1.Items ++ [.basicFormatter r.2.text] }
        else r.1) := by
  have h := loop_eq_scan tokens [] { Items := [] } (tokens.length + 1) (by omega)
  simp only [List.nil_append, List.length_nil, Nat.cast_zero, zero_sub] at h
  rw [← h]
  unfold parse parser.run initialParserState
  simp only
  cases hl : initialParserState.loop (tokens.length + 1) { tokens := tokens, pos := -1 }
      { Items := [] } with
  | fault e => rfl
  | outOfFuel => rfl
  | ok r =>
    obtain ⟨p1, f1, t⟩ := r
    simp only [Outcome.map]
    split_ifs <;> simp [parser.run]

theorem newItem_of_kind (t : LexToken) (h : isComponentKind t.kind) :
    ∃ c, newItem t.kind = some c ∧ Compiles t (c.setOriginal t.text) ∧ t.kind ≠ .T_EOF := by
  unfold isComponentKind at h
  unfold Compiles
  rcases h with h | h | h | h | h | h | h <;>
    simp [h, newItem, ItemFormatter.setOriginal]

theorem newItem_some (k : TokenKind) (c : ItemFormatter) (h : newItem k = some c) :
    isComponentKind k := by
  unfold isComponentKind
  cases k <;> simp_all [newItem]

/-- The scan succeeds on marks followed by an end-of-input token, with one
component per mark. -/
theorem scan_ok (pre : List LexToken) : ∀ (eof : LexToken) (post : List LexToken)
    (f : Formatter), eof.kind = .T_EOF → (∀ t ∈ pre, isComponentKind t.kind) →
    ∃ items, List.Forall₂ Compiles pre items ∧
      scanTokens (pre ++ eof :: post) f = .ok ({ Items := f.Items ++ items }, eof) := by
  induction pre with
  | nil =>
    intro eof post f he _
    exact ⟨[], List.Forall₂.nil, by simp [scanTokens, he]⟩
  | cons t pre ih =>
    intro eof post f he hall
    obtain ⟨c, hc, hcomp, hne⟩ := newItem_of_kind t (hall t (List.mem_cons_self _ _))
    obtain ⟨items, hitems, hscan⟩ := ih eof post { Items := f.Items ++ [c.setOriginal t.text] }
      he (fun t' ht' => hall t' (List.mem_cons_of_mem _ ht'))
    refine ⟨c.setOriginal t.text :: items, List.Forall₂.cons hcomp hitems, ?_⟩
    have hstep : scanTokens (t :: (pre ++ eof :: post)) f =
        scanTokens (pre ++ eof :: post) { Items := f.Items ++ [c.setOriginal t.text] } := by
      simp [scanTokens, hne, hc]
    rw [List.cons_append, hstep, hscan]
    simp

/-- The scan has two outcomes only: success, after marks and an end-of-input
token, or a nil dereference. -/
theorem scan_cases (ts : List LexToken) : ∀ (f : Formatter),
    (∃ pre eof post, ts = pre ++ eof :: post ∧ eof.kind = .T_EOF ∧
      (∀ t ∈ pre, isComponentKind t.kind)) ∨
    (scanTokens ts f = .fault .nilDeref ∧
      ¬ ∃ pre eof post, ts = pre ++ eof :: post ∧ eof.kind = .T_EOF ∧
        (∀ t ∈ pre, isComponentKind t.kind)) := by
  induction ts with
  | nil =>
    intro f
    right
    refine ⟨rfl, ?_⟩
    rintro ⟨pre, eof, post, h, _⟩
    simp at h
  | cons t ts ih =>
    intro f
    by_cases hk : t.kind = .T_EOF
    · left
      exact ⟨[], t, ts, rfl, hk, by simp⟩
    · cases hn : newItem t.kind with
      | none =>
        right
        refine ⟨by simp [scanTokens, hk, hn], ?_⟩
        rintro ⟨pre, eof, post, h, he, hall⟩
        cases pre with
        | nil =>
          simp only [List.nil_append, List.cons.injEq] at h
          exact hk (h.1 ▸ he)
        | cons a pre =>
          simp only [List.cons_append, List.cons.injEq] at h
          obtain ⟨c, hc, _⟩ := newItem_of_kind a (hall a (List.mem_cons_self _ _))
          rw [← h.1, hn] at hc
          exact absurd hc (by simp)
      | some item =>
        rcases ih { Items := f.Items ++ [item.setOriginal t.text] } with
          ⟨pre, eof, post, h, he, hall⟩ | ⟨hf, hno⟩
        · left
          refine ⟨t :: pre, eof, post, by simp [h], he, ?_⟩
          intro t' ht'
          rcases List.mem_cons.mp ht' with rfl | hm
          · exact newItem_some _ _ hn
          · exact hall t' hm
        · right
          refine ⟨by simp [scanTokens, hk, hn, hf], ?_⟩
          rintro ⟨pre, eof, post, h, he, hall⟩
          cases pre with
          | nil =>
            simp only [List.nil_append, List.cons.injEq] at h
            exact hk (h.1 ▸ he)
          | cons a pre =>
            simp only [List.cons_append, List.cons.injEq] at h
            exact hno ⟨pre, eof, post, h.2, he,
              fun t' ht' => hall t' (List.mem_cons_of_mem _ ht')⟩

theorem length_pos_iff_ne_empty (s : String) : s.length > 0 ↔ s ≠ "" := by
  constructor
  · intro h h0
    subst h0
    simp at h
  · intro h
    rcases Nat.eq_zero_or_pos s.length with h0 | h0
    · exact absurd (String.ext (List.length_eq_zero.mp h0)) h
    · exact h0

/-! ## C9, C10 -/

/-- C9: on a token sequence `pre ++ eof :: post` whose `eof` is an end-of-input
token and whose tokens `pre` before it are marks or raw literals, `parse`
returns, in order, one component per token of `pre`, of the matching kind and
with the token's text, then one raw-literal component with the text of `eof`
exactly when that text is non-empty; `post` contributes nothing. A lone
end-of-input token with text `###` gives the single literal `###`, one with
empty text gives the empty list. -/
theorem C9_parse_components (pre post : List LexToken) (eof : LexToken)
    (heof : eof.kind = .T_EOF) (hpre : ∀ t ∈ pre, isComponentKind t.kind) :
    (∃ items, List.Forall₂ Compiles pre items ∧
      parse (pre ++ eof :: post) =
        .ok { Items := items ++ (if eof.text ≠ "" then [.basicFormatter eof.text] else []) }) ∧
    parse [⟨.T_EOF, "###"⟩] = .ok { Items := [.basicFormatter "###"] } ∧
    parse [⟨.T_EOF, ""⟩] = .ok { Items := [] } := by
  obtain ⟨items, hitems, hscan⟩ := scan_ok pre eof post { Items := [] } heof hpre
  refine ⟨⟨items, hitems, ?_⟩, by decide, by decide⟩
  rw [parse_eq_scan, hscan]
  simp only [Outcome.map, List.nil_append]
  by_cases he : eof.text = ""
  · have : ¬ eof.text.length > 0 := by rw [length_pos_iff_ne_empty]; simpa using he
    simp [this, he]
  · have : eof.text.length > 0 := by rw [length_pos_iff_ne_empty]; exact he
    simp [this, he]

/-- Witness for C9: `yyyy`, `-`, end of input with trailing text, and a token
past the end that is ignored. -/
theorem C9_parse_components_witness :
    ∃ items, List.Forall₂ Compiles
        [⟨.T_YEAR_MARK, "yyyy"⟩, ⟨.T_RAW_MARK, "-"⟩] items ∧
      parse ([⟨.T_YEAR_MARK, "yyyy"⟩, ⟨.T_RAW_MARK, "-"⟩] ++
          ⟨.T_EOF, "###"⟩ :: [⟨.other "?", "x"⟩]) =
        .ok { Items := items ++
          (if (LexToken.mk .T_EOF "###").text ≠ "" then [.basicFormatter "###"] else []) } :=
  (C9_parse_components [⟨.T_YEAR_MARK, "yyyy"⟩, ⟨.T_RAW_MARK, "-"⟩] [⟨.other "?", "x"⟩]
    ⟨.T_EOF, "###"⟩ rfl (by
      intro t ht
      simp only [List.mem_cons, List.mem_singleton, List.not_mem_nil, or_false] at ht
      rcases ht with rfl | rfl
      · exact Or.inl rfl
      · exact Or.inr (Or.inr (Or.inr (Or.inr (Or.inr (Or.inr rfl))))))).1

/-- C10, as stated, fails: `parse` dereferences a nil token on the empty
sequence and on a sequence without an end-of-input token, and uses a nil
component on a token of a kind that is none of the constants. -/
theorem C10_parse_faults :
    parse [] = .fault .nilDeref ∧
    parse [⟨.T_YEAR_MARK, "yyyy"⟩] = .fault .nilDeref ∧
    parse [⟨.other "?", "x"⟩, ⟨.T_EOF, ""⟩] = .fault .nilDeref := by
  refine ⟨?_, ?_, ?_⟩ <;> decide

/-- C10, amended: `parse` always completes within its step bound, with one of
two outcomes. It returns a component list exactly when the sequence contains an
end-of-input token and every token before the first one is a mark or a raw
literal; on every other sequence it stops at a nil dereference. -/
theorem C10_parse_total (tokens : List LexToken) :
    ((∃ f, parse tokens = .ok f) ↔
      ∃ pre eof post, tokens = pre ++ eof :: post ∧ eof.kind = .T_EOF ∧
        (∀ t ∈ pre, isComponentKind t.kind)) ∧
    ((∃ f, parse tokens = .ok f) ∨ parse tokens = .fault .nilDeref) := by
  rcases scan_cases tokens { Items := [] } with ⟨pre, eof, post, h, he, hall⟩ | ⟨hf, hno⟩
  · obtain ⟨items, _, hscan⟩ := scan_ok pre eof post { Items := [] } he hall
    have hok : ∃ f, parse tokens = .ok f := by
      rw [parse_eq_scan, h, hscan]
      exact ⟨_, rfl⟩
    exact ⟨⟨fun _ => ⟨pre, eof, post, h, he, hall⟩, fun _ => hok⟩, Or.inl hok⟩
  · have hfault : parse tokens = .fault .nilDeref := by
      rw [parse_eq_scan, hf]
      rfl
    refine ⟨⟨?_, fun h => absurd h hno⟩, Or.inr hfault⟩
    rintro ⟨f, hf'⟩
    rw [hfault] at hf'
    exact absurd hf' (by simp)

/-! ## Helper lemmas: the cell records -/

theorem get?_none_of_le {α : Type} (l : List α) (i : Nat) (h : l.length ≤ i) :
    l.get? i = none := by
  rw [List.get?_eq_none]; exact h

/-- The serial taken from an RK value: the float, or the integer converted. -/
theorem rkSerial_eq (rk : RK) :
    rkSerial rk =
      if (RK.number rk).2.2 = true then (RK.number rk).2.1
      else Float64.ofInt (RK.number rk).1 := by
  unfold rkSerial
  rcases h : RK.number rk with ⟨i, f, b⟩
  cases b <;> simp

/-- `NumberCol.String` reads the style table without a bounds check. -/
theorem NumberCol_index_fault (env : Env) (wb : WorkBook) (c : NumberCol)
    (h : wb.Xfs.length ≤ c.Index) : NumberCol.String env wb c = .fault .indexOutOfRange := by
  unfold NumberCol.String
  rw [get?_none_of_le _ _ h]

/-- `NumberCol.String` on a pattern that is missing, not consulted or not
temporal: the plain-number tail. -/
theorem NumberCol_plain_of (env : Env) (wb : WorkBook) (c : NumberCol) (fNo : Nat)
    (hx : wb.Xfs.get? c.Index = some fNo)
    (h : fNo = 0 ∨ wb.Formats fNo = none ∨
      ∃ format, wb.Formats fNo = some format ∧
        IsDateTimeFormat env.caseTable format.str = false) :
    NumberCol.String env wb c = NumberCol.plain env c.Float := by
  unfold NumberCol.String
  rw [hx]
  rcases h with h | h | ⟨format, hf, hd⟩
  · simp [h]
  · by_cases h0 : fNo = 0
    · simp [h0]
    · simp [h0, h]
  · by_cases h0 : fNo = 0
    · simp [h0]
    · simp [h0, hf, hd]

/-! ## C11 – C15: rendering of the cell records -/

/-- C11: `XfRk.String` returns `RK.String()` of the cell's value when the style
index has no entry in the style table, when the format number is user-defined
(`>= 164`) with no entry in the format table, and when it is built-in
(`< 164`) outside the ranges 14-17, 22, 27-36, 50-58; inside those ranges it
returns the RFC 3339 text of the timestamp of the date serial, the serial being
the decoded float, or the decoded integer converted to a float. -/
theorem C11_xfrk_fallbacks_and_builtin_dates (env : Env) (wb : WorkBook) (xf : XfRk) :
    (wb.Xfs.length ≤ xf.Index → XfRk.String env wb xf = RK.String xf.Rk) ∧
    (∀ fNo, wb.Xfs.get? xf.Index = some fNo →
      (fNo ≥ 164 → wb.Formats fNo = none → XfRk.String env wb xf = RK.String xf.Rk) ∧
      (fNo < 164 →
        ¬ ((14 ≤ fNo ∧ fNo ≤ 17) ∨ fNo = 22 ∨ (27 ≤ fNo ∧ fNo ≤ 36) ∨ (50 ≤ fNo ∧ fNo ≤ 58)) →
        XfRk.String env wb xf = RK.String xf.Rk) ∧
      ((14 ≤ fNo ∧ fNo ≤ 17) ∨ fNo = 22 ∨ (27 ≤ fNo ∧ fNo ≤ 36) ∨ (50 ≤ fNo ∧ fNo ≤ 58) →
        XfRk.String env wb xf =
          env.timeFormat (env.timeFromExcelTime (rkSerial xf.Rk) (wb.dateMode = 1))
            "2006-01-02T15:04:05Z07:00")) ∧
    rkSerial xf.Rk =
      (if (RK.number xf.Rk).2.2 = true then (RK.number xf.Rk).2.1
       else Float64.ofInt (RK.number xf.Rk).1) := by
  refine ⟨fun h => ?_, fun fNo hx => ⟨fun h1 h2 => ?_, fun h1 h2 => ?_, fun h1 => ?_⟩,
    rkSerial_eq xf.Rk⟩
  · unfold XfRk.String
    rw [get?_none_of_le _ _ h]
  · unfold XfRk.String
    rw [hx]
    simp [h1, h2]
  · unfold XfRk.String
    rw [hx]
    have : ¬ fNo ≥ 164 := by omega
    simp only [this, if_false, h2]
  · unfold XfRk.String
    rw [hx]
    have : ¬ fNo ≥ 164 := by omega
    simp only [this, if_false, h1, if_true]
    rfl

/-- C12, as stated, fails in both directions. The pattern `0` is not temporal,
yet a cell with it goes through `yymmdd.Format` and not `RK.String()`; the
pattern `h:mm` is temporal, yet a cell with it is rendered by `RK.String()`.
The cell holds the float `1`, the format number is `164`. -/
theorem C12_guard_is_not_the_classifier :
    IsDateTimeFormat Env.standIn.caseTable "0" = false ∧
    XfRk.String Env.standIn ⟨[164], fun n => if n = 164 then some ⟨"0"⟩ else none, 0, []⟩
      ⟨0, 0x3FF00000⟩ =
      Env.standIn.yymmddFormat
        (Env.standIn.timeFromExcelTime (rkSerial 0x3FF00000) false) "0" ∧
    XfRk.String Env.standIn ⟨[164], fun n => if n = 164 then some ⟨"0"⟩ else none, 0, []⟩
      ⟨0, 0x3FF00000⟩ ≠ RK.String 0x3FF00000 ∧
    IsDateTimeFormat Env.standIn.caseTable "h:mm" = true ∧
    XfRk.String Env.standIn ⟨[164], fun n => if n = 164 then some ⟨"h:mm"⟩ else none, 0, []⟩
      ⟨0, 0x3FF00000⟩ = RK.String 0x3FF00000 ∧
    XfRk.String Env.standIn ⟨[164], fun n => if n = 164 then some ⟨"h:mm"⟩ else none, 0, []⟩
      ⟨0, 0x3FF00000⟩ ≠
      Env.standIn.yymmddFormat
        (Env.standIn.timeFromExcelTime (rkSerial 0x3FF00000) false) "h:mm" := by
  refine ⟨?_, ?_, ?_, ?_, ?_, ?_⟩ <;> decide

/-- C12, amended: for a user-defined format with a pattern in the format table,
`XfRk.String` returns `RK.String()` exactly when the guard on the pattern holds
(the lowercased pattern is `general`, or the pattern contains `#` or `.00`, or
the lowercased pattern contains one of `m/y`, `d/y`, `m.y`, `d.y`, `h:`,
`д.г`); for every other pattern it formats the decoded value, taken as a date
serial, with the pattern by `yymmdd.Format`. -/
theorem C12_xfrk_user_defined (env : Env) (wb : WorkBook) (xf : XfRk) (fNo : Nat)
    (formatter : Format) (hx : wb.Xfs.get? xf.Index = some fNo) (hu : fNo ≥ 164)
    (hf : wb.Formats fNo = some formatter) :
    (isNumberPattern env.caseTable formatter.str = true →
      XfRk.String env wb xf = RK.String xf.Rk) ∧
    (isNumberPattern env.caseTable formatter.str = false →
      XfRk.String env wb xf =
        env.yymmddFormat (env.timeFromExcelTime (rkSerial xf.Rk) (wb.dateMode = 1))
          formatter.str) ∧
    (isNumberPattern env.caseTable formatter.str = true ↔
      ToLower env.caseTable formatter.str = "general" ∨
      Contains formatter.str "#" = true ∨ Contains formatter.str ".00" = true ∨
      Contains (ToLower env.caseTable formatter.str) "m/y" = true ∨
      Contains (ToLower env.caseTable formatter.str) "d/y" = true ∨
      Contains (ToLower env.caseTable formatter.str) "m.y" = true ∨
      Contains (ToLower env.caseTable formatter.str) "d.y" = true ∨
      Contains (ToLower env.caseTable formatter.str) "h:" = true ∨
      Contains (ToLower env.caseTable formatter.str) "д.г" = true) := by
  refine ⟨fun h => ?_, fun h => ?_, ?_⟩
  · unfold XfRk.String
    rw [hx]
    simp [hu, hf, h]
  · unfold XfRk.String
    rw [hx]
    simp [hu, hf, h]
  · simp [isNumberPattern, or_assoc]

/-- Witness for C12: format `164` with the pattern `yyyy-mm-dd`. -/
theorem C12_xfrk_user_defined_witness :
    isNumberPattern Env.standIn.caseTable "yyyy-mm-dd" = false ∧
    XfRk.String Env.standIn
      ⟨[164], fun n => if n = 164 then some ⟨"yyyy-mm-dd"⟩ else none, 0, []⟩ ⟨0, 0x3FF00000⟩ =
      Env.standIn.yymmddFormat
        (Env.standIn.timeFromExcelTime (rkSerial 0x3FF00000) (decide ((0 : Nat) = 1)))
        "yyyy-mm-dd" :=
  ⟨by decide,
   (C12_xfrk_user_defined Env.standIn
      ⟨[164], fun n => if n = 164 then some ⟨"yyyy-mm-dd"⟩ else none, 0, []⟩ ⟨0, 0x3FF00000⟩
      164 ⟨"yyyy-mm-dd"⟩ rfl (by decide) rfl).2.1 (by decide)⟩

/-- C13, at the failing input: with an empty style table `NumberCol.String`
stops at an index out of range, where `XfRk.String` on the same workbook and
index falls back to the plain text. -/
theorem C13_number_index_out_of_range :
    NumberCol.String Env.standIn ⟨[], fun _ => none, 0, []⟩
      ⟨⟨0, 0⟩, 0, ⟨0x3FF8000000000000⟩⟩ = .fault .indexOutOfRange ∧
    XfRk.String Env.standIn ⟨[], fun _ => none, 0, []⟩ ⟨0, 0x3FF00000⟩ = "1" := by
  refine ⟨?_, ?_⟩ <;> decide

/-- C14: for a Number cell with a valid style index whose non-zero format
number has a temporal pattern `p`, `NumberCol.String` returns the one text of
the cell's timestamp, in the layout `2006-01-02` when `p` is date-only,
`15:04:05` when it is time-only, and `2006-01-02 15:04:05` otherwise; when the
format number is `0`, or has no pattern, or `p` is not temporal, the cell goes
to the plain-number rendering, which formats no time. -/
theorem C14_number_date_layouts (env : Env) (wb : WorkBook) (c : NumberCol) (fNo : Nat)
    (hx : wb.Xfs.get? c.Index = some fNo) :
    (∀ p, fNo ≠ 0 → wb.Formats fNo = some p → IsDateTimeFormat env.caseTable p.str = true →
      NumberCol.String env wb c =
        .ok [env.timeFormat (env.timeFromExcelTime c.Float (wb.dateMode = 1))
          (if IsDateOnlyFormat env.caseTable p.str = true then "2006-01-02"
           else if IsTimeOnlyFormat env.caseTable p.str = true then "15:04:05"
           else "2006-01-02 15:04:05")]) ∧
    (fNo = 0 ∨ wb.Formats fNo = none ∨
        (∃ p, wb.Formats fNo = some p ∧ IsDateTimeFormat env.caseTable p.str = false) →
      NumberCol.String env wb c = NumberCol.plain env c.Float) := by
  refine ⟨fun p h0 hf hd => ?_, fun h => NumberCol_plain_of env wb c fNo hx h⟩
  unfold NumberCol.String
  rw [hx]
  simp only [h0, ne_eq, not_false_eq_true, if_true, hf, hd]
  by_cases h1 : IsDateOnlyFormat env.caseTable p.str = true
  · simp [h1]
  · by_cases h2 : IsTimeOnlyFormat env.caseTable p.str = true
    · simp [h1, h2]
    · simp [h1, h2]

/-- Witness for C14: format `165` with the pattern `yyyy-mm-dd hh:mm:ss`, which
is temporal and neither date-only nor time-only. -/
theorem C14_number_date_layouts_witness :
    NumberCol.String Env.standIn
      ⟨[165], fun n => if n = 165 then some ⟨"yyyy-mm-dd hh:mm:ss"⟩ else none, 0, []⟩
      ⟨⟨0, 0⟩, 0, ⟨0x40E5000000000000⟩⟩ = .ok ["2006-01-02 15:04:05"] :=
  ((C14_number_date_layouts Env.standIn
      ⟨[165], fun n => if n = 165 then some ⟨"yyyy-mm-dd hh:mm:ss"⟩ else none, 0, []⟩
      ⟨⟨0, 0⟩, 0, ⟨0x40E5000000000000⟩⟩ 165 rfl).1 ⟨"yyyy-mm-dd hh:mm:ss"⟩ (by decide) rfl
      (by decide)).trans (by decide)

/-- C15: the render operation gives one text per covered value, in order.
`MulrkCol.String` has the length of `c.Xfrks` and the text of `c.Xfrks[i]` at
position `i`; `MulBlankCol.String` is `len(c.Xfs)` empty strings; `BlankCol`
gives one empty string; `Col`, `RkCol`, `FormulaStringCol`, `FormulaCol` and
`labelCol` give exactly one string, the stored one for `FormulaStringCol` and
`labelCol`, the fixed placeholder for `FormulaCol` whatever its bytes. -/
theorem C15_one_text_per_value (env : Env) (wb : WorkBook) :
    (∀ c : MulrkCol, (MulrkCol.String env wb c).length = c.Xfrks.length ∧
      ∀ i (h : i < c.Xfrks.length),
        (MulrkCol.String env wb c).get? i = some (XfRk.String env wb (c.Xfrks.get ⟨i, h⟩))) ∧
    (∀ c : MulBlankCol, (MulBlankCol.String wb c).length = c.Xfs.length ∧
      ∀ s ∈ MulBlankCol.String wb c, s = "") ∧
    (∀ c : BlankCol, BlankCol.String wb c = [""]) ∧
    (∀ c : Col, Col.String wb c = ["default"]) ∧
    (∀ c : RkCol, RkCol.String env wb c = [XfRk.String env wb c.Xfrk]) ∧
    (∀ c : FormulaStringCol, FormulaStringCol.String wb c = [c.RenderedValue]) ∧
    (∀ c : FormulaCol, FormulaCol.String wb c = ["FormulaCol"]) ∧
    (∀ c : labelCol, labelCol.String wb c = [c.Str]) := by
  refine ⟨fun c => ⟨?_, fun i h => ?_⟩, fun c => ⟨?_, fun s hs => ?_⟩, fun _ => rfl,
    fun _ => rfl, fun _ => rfl, fun _ => rfl, fun _ => rfl, fun _ => rfl⟩
  · simp [MulrkCol.String]
  · simp [MulrkCol.String, List.getElem?_eq_getElem h]
  · simp [MulBlankCol.String]
  · exact List.eq_of_mem_replicate hs

/-! ## C18 – C20 -/

/-- The arithmetic shift sees the payload only: the flag bits drop out. -/
theorem shift_of_payload (p k : Nat) (hk : k < 4) :
    toInt32 (p * 4 + k) >>> (2 : Nat) = toInt32 (p * 4) >>> (2 : Nat) := by
  rw [toInt32_shift, toInt32_shift]
  have h1 : (p * 4 + k) / 4 = p := by omega
  have h2 : p * 4 / 4 = p := by omega
  rw [h1, h2]

/-- `RK.number` by payload and flags. -/
theorem number_of_payload (p : Nat) :
    RK.number (p * 4) =
      (0, Float64.Float64frombits (toUint64 (toInt32 (p * 4) >>> (2 : Nat)) * 2 ^ 34 % 2 ^ 64),
        true) ∧
    RK.number (p * 4 + 1) =
      (0, (Float64.Float64frombits
        (toUint64 (toInt32 (p * 4) >>> (2 : Nat)) * 2 ^ 34 % 2 ^ 64)).div100, true) ∧
    RK.number (p * 4 + 2) = (toInt32 (p * 4) >>> (2 : Nat), Float64.zero, false) ∧
    RK.number (p * 4 + 3) =
      (0, (Float64.ofInt (toInt32 (p * 4) >>> (2 : Nat))).div100, true) := by
  refine ⟨?_, ?_, ?_, ?_⟩
  · unfold RK.number
    have a1 : (p * 4) % 2 = 0 := by omega
    have a2 : 2 * ((p * 4) / 2 % 2) = 0 := by omega
    simp only [and_one_eq, and_two_eq, a1, a2, if_true, ne_eq, not_true_eq_false, if_false]
  · unfold RK.number
    have a1 : (p * 4 + 1) % 2 = 1 := by omega
    have a2 : 2 * ((p * 4 + 1) / 2 % 2) = 0 := by omega
    simp only [and_one_eq, and_two_eq, a1, a2, if_true, ne_eq, one_ne_zero,
      not_false_eq_true, shift_of_payload p 1 (by norm_num)]
  · unfold RK.number
    have a1 : (p * 4 + 2) % 2 = 0 := by omega
    have a2 : 2 * ((p * 4 + 2) / 2 % 2) = 2 := by omega
    simp only [and_one_eq, and_two_eq, a1, a2, ne_eq, not_true_eq_false, if_false,
      OfNat.ofNat_ne_zero, shift_of_payload p 2 (by norm_num)]
  · unfold RK.number
    have a1 : (p * 4 + 3) % 2 = 1 := by omega
    have a2 : 2 * ((p * 4 + 3) / 2 % 2) = 2 := by omega
    simp only [and_one_eq, and_two_eq, a1, a2, ne_eq, one_ne_zero, not_false_eq_true,
      if_true, if_false, OfNat.ofNat_ne_zero, shift_of_payload p 3 (by norm_num)]

/-- C18: the multiplied flag divides the unscaled interpretation by 100. For
every payload `p`, the float decoded under the flags (float, multiplied) is the
float decoded under (float, not multiplied) divided by 100, and the float
decoded under (integer, multiplied) is the integer decoded under (integer, not
multiplied), converted to a float and divided by 100. -/
theorem C18_multiplied_divides_by_100 (p : Nat) :
    (RK.number (p * 4 + 1)).2.2 = true ∧ (RK.number (p * 4)).2.2 = true ∧
    (RK.number (p * 4 + 1)).2.1 = (RK.number (p * 4)).2.1.div100 ∧
    (RK.number (p * 4 + 3)).2.2 = true ∧ (RK.number (p * 4 + 2)).2.2 = false ∧
    (RK.number (p * 4 + 3)).2.1 = (Float64.ofInt (RK.number (p * 4 + 2)).1).div100 := by
  obtain ⟨h0, h1, h2, h3⟩ := number_of_payload p
  rw [h0, h1, h2, h3]
  exact ⟨rfl, rfl, rfl, rfl, rfl, rfl⟩

/-- C19: for an RK value with the integer flag clear, the pattern
`uint64(int32(rk) >> 2) << 34` taken modulo `2 ^ 64`, which `RK.number` reads
as a float, has bits 63..34 equal to bits 31..2 of `rk` and bits 33..0 zero: it
is `rk` with its two flag bits cleared, shifted left by 32. The sign extension
does not reach it. -/
theorem C19_float_pattern (rk : Nat) (hrk : rk < 2 ^ 32) (hflag : rk &&& 2 = 0) :
    toUint64 (toInt32 rk >>> (2 : Nat)) * 2 ^ 34 % 2 ^ 64 = (rk - rk % 4) * 2 ^ 32 ∧
    toUint64 (toInt32 rk >>> (2 : Nat)) * 2 ^ 34 % 2 ^ 64 / 2 ^ 34 = rk / 4 ∧
    toUint64 (toInt32 rk >>> (2 : Nat)) * 2 ^ 34 % 2 ^ 64 % 2 ^ 34 = 0 ∧
    (∀ i, i < 30 →
      (toUint64 (toInt32 rk >>> (2 : Nat)) * 2 ^ 34 % 2 ^ 64).testBit (34 + i) =
        rk.testBit (2 + i)) ∧
    (rk &&& 1 = 0 →
      RK.number rk = (0, ⟨toUint64 (toInt32 rk >>> (2 : Nat)) * 2 ^ 34 % 2 ^ 64⟩, true)) ∧
    (rk &&& 1 ≠ 0 →
      RK.number rk =
        (0, Float64.div100 ⟨toUint64 (toInt32 rk >>> (2 : Nat)) * 2 ^ 34 % 2 ^ 64⟩, true)) := by
  have hB := float_pattern rk
  have hp : rk / 4 % 2 ^ 30 = rk / 4 := Nat.mod_eq_of_lt (by omega)
  rw [hp] at hB
  rw [hB]
  have hlt : rk / 4 * 2 ^ 34 < 2 ^ 64 := by omega
  refine ⟨by omega, by omega, by omega, fun i _ => ?_, fun h1 => ?_, fun h1 => ?_⟩
  · rw [Nat.testBit_to_div_mod, Nat.testBit_to_div_mod]
    have e1 : rk / 4 * 2 ^ 34 / 2 ^ (34 + i) = rk / 4 / 2 ^ i := by
      rw [pow_add, ← Nat.div_div_eq_div_mul, Nat.mul_div_cancel _ (Nat.two_pow_pos 34)]
    have e2 : rk / 2 ^ (2 + i) = rk / 4 / 2 ^ i := by
      rw [pow_add, ← Nat.div_div_eq_div_mul]
      rfl
    rw [e1, e2]
  · have hmod : (rk / 4 * 2 ^ 34) % 2 ^ 64 = rk / 4 * 2 ^ 34 := Nat.mod_eq_of_lt hlt
    unfold RK.number
    simp only [hflag, if_true, h1, ne_eq, not_true_eq_false, if_false, hB,
      Float64.Float64frombits, hmod]
  · have hmod : (rk / 4 * 2 ^ 34) % 2 ^ 64 = rk / 4 * 2 ^ 34 := Nat.mod_eq_of_lt hlt
    unfold RK.number
    simp only [hflag, if_true, h1, ne_eq, not_false_eq_true, hB,
      Float64.Float64frombits, hmod]

/-- Witness for C19 at `rk = 0xC0000000`, the float `-2`, whose payload has its
top bit set. -/
theorem C19_float_pattern_witness :
    toUint64 (toInt32 0xC0000000 >>> (2 : Nat)) * 2 ^ 34 % 2 ^ 64 = 0xC000000000000000 :=
  (C19_float_pattern 0xC0000000 (by norm_num) (by decide)).1.trans (by norm_num)

/-- C20: the date-only and time-only classifiers are not restricted to temporal
patterns: `d-m` is date-only and `h` is time-only, and neither is temporal.
`NumberCol.String` consults them only after `IsDateTimeFormat` succeeds, so a
cell whose pattern is not temporal, these two included, goes to the
plain-number rendering. -/
theorem C20_classifiers_outside_temporal (env : Env) (wb : WorkBook) (c : NumberCol)
    (fNo : Nat) (p : Format) (hx : wb.Xfs.get? c.Index = some fNo)
    (hf : wb.Formats fNo = some p) (hp : p.str = "d-m" ∨ p.str = "h") :
    IsDateOnlyFormat env.caseTable "d-m" = true ∧
    IsDateTimeFormat env.caseTable "d-m" = false ∧
    IsTimeOnlyFormat env.caseTable "h" = true ∧
    IsDateTimeFormat env.caseTable "h" = false ∧
    NumberCol.String env wb c = NumberCol.plain env c.Float := by
  refine ⟨rfl, rfl, rfl, rfl, ?_⟩
  apply NumberCol_plain_of env wb c fNo hx
  right; right
  refine ⟨p, hf, ?_⟩
  rcases hp with h | h <;> rw [h] <;> rfl

/-- Witness for C20: a cell holding `1.5` under the pattern `d-m` is rendered
as the number `1.5`. -/
theorem C20_classifiers_outside_temporal_witness :
    NumberCol.String Env.standIn
      ⟨[165], fun n => if n = 165 then some ⟨"d-m"⟩ else none, 0, []⟩
      ⟨⟨0, 0⟩, 0, ⟨0x3FF8000000000000⟩⟩ = .ok ["1.5"] :=
  (C20_classifiers_outside_temporal Env.standIn
      ⟨[165], fun n => if n = 165 then some ⟨"d-m"⟩ else none, 0, []⟩
      ⟨⟨0, 0⟩, 0, ⟨0x3FF8000000000000⟩⟩ 165 ⟨"d-m"⟩ rfl rfl (Or.inl rfl)).2.2.2.2.trans
    (by decide)

/-! ## C16: large values in the plain-number rendering -/

/-- An integer `m * 2 ^ k` with a 53-bit significand `m` converts to the float
with that significand, exactly. -/
theorem roundMag_of_integer (m k : Nat) (hm : 2 ^ 52 ≤ m) (hm53 : m < 2 ^ 53)
    (hk : 1074 + k ≤ 2045) : roundMag (m * 2 ^ k) 1 = (1074 + k) * 2 ^ 52 + m := by
  obtain ⟨h1, h2⟩ := midpoints_around m (1074 + k) (by omega)
  have e : m * 2 ^ k * 2 ^ 1075 = 2 * m * 2 ^ (1074 + k) := by
    rw [pow_add, show (1075 : Nat) = 1074 + 1 from rfl, pow_succ]; ring
  apply roundMag_eq (m * 2 ^ k) 1 m (1074 + k) Nat.one_pos hm53 hk (fun _ => hm)
  · left; rw [Nat.mul_one, e]; exact h1
  · left; rw [Nat.mul_one, e]; exact h2

/-- A finite float of magnitude above `2 ^ 53` and below `2 ^ 63` is an integer
that `int64` holds, and converting it to `int64` and back gives it again. -/
theorem ofInt_toInt64_large (oor : Float64 → Int) (f : Float64) (hb : f.bits < 2 ^ 64)
    (hlo : 0x4340000000000000 < f.bits % 2 ^ 63)
    (hhi : f.bits % 2 ^ 63 < 0x43E0000000000000) :
    Float64.ofInt (Float64.toInt64 oor f) = f := by
  have hE1 : 1076 ≤ f.expField := by unfold Float64.expField; omega
  have hE2 : f.expField ≤ 1085 := by unfold Float64.expField; omega
  have hfin : f.expField ≠ 2047 := by omega
  obtain ⟨hbits, hm53, _, hnorm⟩ := finite_fields f hb hfin
  have hnan : f.isNaN = false := by simp [Float64.isNaN, hfin]
  have hinf : f.isInf = false := by simp [Float64.isInf, hfin]
  have he : f.ulpExp = 1074 + (f.expField - 1075) := by unfold Float64.ulpExp; omega
  have hm52 : 2 ^ 52 ≤ f.mant := hnorm (by omega)
  have hsc : f.scaled / 2 ^ 1074 = f.mant * 2 ^ (f.expField - 1075) := by
    unfold Float64.scaled
    rw [he, pow_add, ← Nat.mul_assoc, Nat.mul_comm (f.mant) (2 ^ 1074), Nat.mul_assoc,
      Nat.mul_div_cancel_left _ (Nat.two_pow_pos 1074)]
  have hpow : 2 ^ (f.expField - 1075) ≤ 2 ^ 10 :=
    Nat.pow_le_pow_right (by norm_num) (by omega)
  have hpos : 0 < 2 ^ (f.expField - 1075) := Nat.two_pow_pos _
  have hmag : f.mant * 2 ^ (f.expField - 1075) < 2 ^ 63 := by
    calc f.mant * 2 ^ (f.expField - 1075) < 2 ^ 53 * 2 ^ (f.expField - 1075) :=
          Nat.mul_lt_mul_of_pos_right hm53 hpos
      _ ≤ 2 ^ 53 * 2 ^ 10 := Nat.mul_le_mul_left _ hpow
      _ = 2 ^ 63 := by norm_num
  have hmpos : 0 < f.mant * 2 ^ (f.expField - 1075) := Nat.mul_pos (by omega) hpos
  have hround := roundMag_of_integer f.mant (f.expField - 1075) hm52 hm53 (by omega)
  rw [← he] at hround
  unfold Float64.toInt64
  simp only [hnan, hinf, Bool.or_self, Bool.false_eq_true, if_false]
  unfold Float64.truncInt
  rw [hsc]
  generalize f.mant * 2 ^ (f.expField - 1075) = n at *
  cases f with
  | mk b =>
    simp only at hbits hb ⊢
    by_cases hs : Float64.sign ⟨b⟩ = true
    · simp only [hs, if_true] at hbits ⊢
      have hr : (-(2 : Int) ^ 63 ≤ -(n : Int) ∧ -(n : Int) < 2 ^ 63) := by
        constructor <;> omega
      rw [if_pos hr]
      unfold Float64.ofInt
      have hneg : (-(n : Int)) < 0 := by omega
      have habs : (-(n : Int)).natAbs = n := by omega
      rw [if_pos hneg, habs, hround, Float64.mk.injEq]
      exact hbits.symm
    · simp only [hs, Bool.false_eq_true, if_false] at hbits ⊢
      have hr : (-(2 : Int) ^ 63 ≤ (n : Int) ∧ (n : Int) < 2 ^ 63) := by
        constructor <;> omega
      rw [if_pos hr]
      unfold Float64.ofInt
      have hneg : ¬ ((n : Int)) < 0 := by omega
      have habs : ((n : Int)).natAbs = n := by omega
      rw [if_neg hneg, habs, hround, Float64.mk.injEq]
      exact hbits.symm

/-- Every finite float of magnitude below `2 ^ 63` takes the `FormatFloat`
branch of the plain-number rendering. -/
theorem plain_below_two_pow_63 (env : Env) (f : Float64) (hb : f.bits < 2 ^ 64)
    (hhi : f.bits % 2 ^ 63 < 0x43E0000000000000) :
    NumberCol.plain env f = .ok [FormatFloat f] := by
  have hfin : f.expField ≠ 2047 := by unfold Float64.expField; omega
  have hnan : f.isNaN = false := by simp [Float64.isNaN, hfin]
  unfold NumberCol.plain
  by_cases hsmall : f.bits % 2 ^ 63 ≤ 0x4340000000000000
  · -- within `± 2 ^ 53`: the range test holds
    have h1 : Float64.fle f twoPow53 = true := by
      simp only [Float64.fle, hnan, Bool.not_false, Bool.true_and, Bool.and_eq_true,
        decide_eq_true_eq]
      refine ⟨by decide, ?_⟩
      have hk : twoPow53.key = 0x4340000000000000 := by decide
      rw [hk]
      unfold Float64.key
      split_ifs <;> omega
    have h2 : Float64.fle negTwoPow53 f = true := by
      simp only [Float64.fle, hnan, Bool.not_false, Bool.and_true, Bool.and_eq_true,
        decide_eq_true_eq]
      refine ⟨by decide, ?_⟩
      have hk : negTwoPow53.key = -0x4340000000000000 := by decide
      rw [hk]
      unfold Float64.key
      split_ifs <;> omega
    simp [h1, h2]
  · -- above: the value is an integer, equal to its `int64` conversion
    have hconv := ofInt_toInt64_large env.int64OutOfRange f hb (by omega) hhi
    have hfeq : Float64.feq f (Float64.ofInt (Float64.toInt64 env.int64OutOfRange f)) = true := by
      rw [hconv]
      simp [Float64.feq, hnan]
    simp [hfeq]

/-- No float64 is `2 ^ 53 + 1`: a finite float is `mant * 2 ^ ulpExp` in units
of `2 ^ (-1074)`, with `mant < 2 ^ 53`. -/
theorem no_float_two_pow_53_add_one (x : Float64) (hb : x.bits < 2 ^ 64)
    (hfin : x.expField ≠ 2047) : x.scaled ≠ (2 ^ 53 + 1) * 2 ^ 1074 := by
  obtain ⟨_, hm53, _, _⟩ := finite_fields x hb hfin
  unfold Float64.scaled
  intro h
  rcases Nat.lt_or_ge 1074 x.ulpExp with hgt | hle
  · -- the exponent leaves a factor two on the left, none on the right
    obtain ⟨k, hk⟩ : ∃ k, x.ulpExp = 1074 + (k + 1) := ⟨x.ulpExp - 1075, by omega⟩
    rw [hk, pow_add, ← Nat.mul_assoc, Nat.mul_comm x.mant (2 ^ 1074), Nat.mul_assoc,
      Nat.mul_comm (2 ^ 53 + 1) (2 ^ 1074)] at h
    have h2 := Nat.eq_of_mul_eq_mul_left (Nat.two_pow_pos 1074) h
    rw [pow_succ] at h2
    have : (x.mant * (2 ^ k * 2)) % 2 = 0 := by
      rw [← Nat.mul_assoc]; exact Nat.mul_mod_left _ _
    rw [h2] at this
    norm_num at this
  · -- the significand would need 54 bits
    obtain ⟨k, hk⟩ : ∃ k, 1074 = x.ulpExp + k := ⟨1074 - x.ulpExp, by omega⟩
    have h' : x.mant * 2 ^ x.ulpExp = (2 ^ 53 + 1) * 2 ^ k * 2 ^ x.ulpExp := by
      rw [h]
      conv_lhs => rw [hk, pow_add]
      ring
    have h2 := Nat.eq_of_mul_eq_mul_right (Nat.two_pow_pos x.ulpExp) h'
    have : 2 ^ 53 + 1 ≤ (2 ^ 53 + 1) * 2 ^ k := Nat.le_mul_of_pos_right _ (Nat.two_pow_pos k)
    omega

/-- C16, as stated, fails: the cell value `2 ^ 62`, above `2 ^ 53`, with no
format, is rendered by `FormatFloat` as `4611686018427388000`, not by the
high-precision branch and not as its exact integer text `4611686018427387904`. -/
theorem C16_large_integer_is_rounded_text :
    Float64.scaled ⟨0x43D0000000000000⟩ = 2 ^ 62 * 2 ^ 1074 ∧
    NumberCol.String Env.standIn ⟨[0], fun _ => none, 0, []⟩
      ⟨⟨0, 0⟩, 0, ⟨0x43D0000000000000⟩⟩ = .ok ["4611686018427388000"] ∧
    NumberCol.String Env.standIn ⟨[0], fun _ => none, 0, []⟩
      ⟨⟨0, 0⟩, 0, ⟨0x43D0000000000000⟩⟩ ≠
      .ok [Env.standIn.bigFloatText ⟨0x43D0000000000000⟩] ∧
    FormatInt (2 ^ 62) = "4611686018427387904" := by
  refine ⟨?_, ?_, ?_, ?_⟩ <;> decide

/-- C16, amended: every finite cell value of magnitude below `2 ^ 63`, those
above `2 ^ 53` included, takes the `FormatFloat` branch of the plain-number
rendering and is written as its shortest round-trip text; the high-precision
branch is left to the values that `int64` cannot hold. `2 ^ 53 + 1` is not a
float64; its neighbours `2 ^ 53` and `2 ^ 53 + 2` are written
`9007199254740992` and `9007199254740994`. -/
theorem C16_plain_number_below_two_pow_63 (env : Env) (f : Float64) (hb : f.bits < 2 ^ 64)
    (hhi : f.bits % 2 ^ 63 < 0x43E0000000000000) :
    NumberCol.plain env f = .ok [FormatFloat f] ∧
    (∀ x : Float64, x.bits < 2 ^ 64 → x.expField ≠ 2047 →
      x.scaled ≠ (2 ^ 53 + 1) * 2 ^ 1074) ∧
    Float64.scaled ⟨0x4340000000000000⟩ = 2 ^ 53 * 2 ^ 1074 ∧
    Float64.scaled ⟨0x4340000000000001⟩ = (2 ^ 53 + 2) * 2 ^ 1074 ∧
    FormatFloat ⟨0x4340000000000000⟩ = "9007199254740992" ∧
    FormatFloat ⟨0x4340000000000001⟩ = "9007199254740994" :=
  ⟨plain_below_two_pow_63 env f hb hhi, no_float_two_pow_53_add_one,
    by decide, by decide, by decide, by decide⟩

/-- Witness for C16: the cell value `2 ^ 53 + 2`. -/
theorem C16_plain_number_below_two_pow_63_witness :
    NumberCol.plain Env.standIn ⟨0x4340000000000001⟩ = .ok ["9007199254740994"] :=
  (C16_plain_number_below_two_pow_63 Env.standIn ⟨0x4340000000000001⟩ (by decide)
    (by decide)).1.trans (by decide)

/-! ## C17: the decoder, flag by flag, on distinct payloads -/

/-- The rounded quotient is within a half of the quotient, and not below its
integer part. -/
theorem rneDiv_near (n d : Nat) (hd : 0 < d) :
    2 * (rneDiv n d * d) ≤ 2 * n + d ∧ 2 * n ≤ 2 * (rneDiv n d * d) + d ∧
    n / d ≤ rneDiv n d := by
  have hdm := Nat.div_add_mod n d
  have hmod := Nat.mod_lt n hd
  unfold rneDiv
  generalize n / d = q at *
  generalize n % d = r at *
  have e1 : (q + 1) * d = d * q + d := by ring
  have e0 : q * d = d * q := Nat.mul_comm _ _
  split_ifs with h1 h2
  · rw [e0]; omega
  · rw [e1]; omega
  · rcases Nat.mod_two_eq_zero_or_one q with h | h
    · rw [h, Nat.add_zero, e0]; omega
    · rw [h, e1]; omega

/-- The pattern that `roundMag` returns below the overflow threshold, taken
apart: an exponent `s` and a significand `M` within a half unit of the quotient
scaled by `2 ^ s`, the quotient lying below `2 ^ (53 + s)` and, for `s ≥ 1`, at
or above `2 ^ (52 + s)`. -/
theorem roundMag_parts (n d : Nat) (hd : 0 < d) (hn : n < d * 2 ^ 1024) :
    ∃ s M, roundMag n d = s * 2 ^ 52 + M ∧
      2 * (M * (d * 2 ^ s)) ≤ 2 * (n * 2 ^ 1074) + d * 2 ^ s ∧
      2 * (n * 2 ^ 1074) ≤ 2 * (M * (d * 2 ^ s)) + d * 2 ^ s ∧
      M ≤ 2 ^ 53 ∧
      (1 ≤ s → 2 ^ 52 ≤ M ∧ 2 ^ 52 * (d * 2 ^ s) ≤ n * 2 ^ 1074) ∧
      n * 2 ^ 1074 < 2 ^ 53 * (d * 2 ^ s) := by
  have hrange : ¬ d * 2 ^ 1024 ≤ n := not_le.mpr hn
  have hN : n * 2 ^ 1074 < 2 ^ 2098 * d := by
    have h1 : n * 2 ^ 1074 < d * 2 ^ 1024 * 2 ^ 1074 :=
      Nat.mul_lt_mul_of_pos_right hn (Nat.two_pow_pos _)
    have h2 : d * 2 ^ 1024 * 2 ^ 1074 = 2 ^ 2098 * d := by
      rw [Nat.mul_assoc, ← pow_add]; ring
    rw [h2] at h1; exact h1
  unfold roundMag
  rw [if_neg hrange]
  simp only
  generalize n * 2 ^ 1074 = N at *
  clear hn hrange
  have hD : 0 < d * 2 ^ (bitLen (N / d) - 53) := Nat.mul_pos hd (Nat.two_pow_pos _)
  obtain ⟨hn1, hn2, hn3⟩ := rneDiv_near N (d * 2 ^ (bitLen (N / d) - 53)) hD
  have hn4 := rneDiv_le N (d * 2 ^ (bitLen (N / d) - 53))
  -- the quotient within its binade
  have hbin : (1 ≤ bitLen (N / d) - 53 → 2 ^ 52 * (d * 2 ^ (bitLen (N / d) - 53)) ≤ N) ∧
      N < 2 ^ 53 * (d * 2 ^ (bitLen (N / d) - 53)) := by
    rcases Nat.eq_zero_or_pos (N / d) with h0 | hpos
    · rw [h0, bitLen_zero]
      have hlt : N < d := by
        have h1 : N / d < 1 := by omega
        rw [Nat.div_lt_iff_lt_mul hd, Nat.one_mul] at h1
        exact h1
      refine ⟨fun h => absurd h (by norm_num), ?_⟩
      simp only [Nat.zero_sub, pow_zero, Nat.mul_one]
      have : d ≤ 2 ^ 53 * d := Nat.le_mul_of_pos_left _ (by norm_num)
      omega
    · have h4096 : N / d < 2 ^ 4096 := by
        rw [Nat.div_lt_iff_lt_mul hd]
        exact lt_of_lt_of_le hN
          (Nat.mul_le_mul_right _ (Nat.pow_le_pow_right (by norm_num) (by norm_num)))
      obtain ⟨hL1, hLlo, hLhi⟩ := bitLen_bounds (N / d) hpos h4096
      generalize bitLen (N / d) = L at *
      rcases Nat.lt_or_ge 53 L with hbig | hsmall
      · obtain ⟨s, rfl⟩ : ∃ s, L = 53 + (s + 1) := ⟨L - 54, by omega⟩
        have e1 : 53 + (s + 1) - 53 = s + 1 := by omega
        have e2 : 53 + (s + 1) - 1 = 52 + (s + 1) := by omega
        rw [e1]
        rw [e2] at hLlo
        rw [Nat.le_div_iff_mul_le hd] at hLlo
        rw [Nat.div_lt_iff_lt_mul hd] at hLhi
        have e3 : 2 ^ 52 * (d * 2 ^ (s + 1)) = 2 ^ (52 + (s + 1)) * d := by
          rw [pow_add]; ring
        have e4 : 2 ^ 53 * (d * 2 ^ (s + 1)) = 2 ^ (53 + (s + 1)) * d := by
          rw [pow_add]; ring
        rw [e3, e4]
        exact ⟨fun _ => hLlo, hLhi⟩
      · have e1 : L - 53 = 0 := by omega
        rw [e1]
        refine ⟨fun h => absurd h (by norm_num), ?_⟩
        simp only [pow_zero, Nat.mul_one]
        rw [Nat.div_lt_iff_lt_mul hd] at hLhi
        exact lt_of_lt_of_le hLhi
          (Nat.mul_le_mul_right _ (Nat.pow_le_pow_right (by norm_num) hsmall))
  generalize bitLen (N / d) - 53 = s at *
  refine ⟨s, rneDiv N (d * 2 ^ s), rfl, hn1, hn2, ?_, fun hs => ⟨?_, hbin.1 hs⟩, hbin.2⟩
  · have : N / (d * 2 ^ s) < 2 ^ 53 := by
      rw [Nat.div_lt_iff_lt_mul hD]; exact hbin.2
    omega
  · have : 2 ^ 52 ≤ N / (d * 2 ^ s) := by
      rw [Nat.le_div_iff_mul_le hD]; exact hbin.1 hs
    omega

/-- Two quotients more than one and a half units of `2 ^ (-1074)` apart, and
more than `2 ^ (-50)` of the smaller apart, round to different patterns. -/
theorem roundMag_separates (n1 n2 d : Nat) (hd : 0 < d) (hlt : n1 < n2)
    (h2 : n2 < d * 2 ^ 1024) (habs : 3 * d < 2 * ((n2 - n1) * 2 ^ 1074))
    (hrel : n1 < (n2 - n1) * 2 ^ 50) : roundMag n1 d ≠ roundMag n2 d := by
  obtain ⟨s1, M1, hr1, hu1, hl1, hM1, hnorm1, hhi1⟩ :=
    roundMag_parts n1 d hd (lt_trans hlt h2)
  obtain ⟨s2, M2, hr2, hu2, hl2, hM2, hnorm2, hhi2⟩ := roundMag_parts n2 d hd h2
  rw [hr1, hr2]
  have hG : n1 * 2 ^ 1074 + (n2 - n1) * 2 ^ 1074 = n2 * 2 ^ 1074 := by
    rw [← Nat.add_mul]; congr 1; omega
  have hrel2 : n1 * 2 ^ 1074 < (n2 - n1) * 2 ^ 1074 * 2 ^ 50 := by
    have := Nat.mul_lt_mul_of_pos_right hrel (Nat.two_pow_pos 1074)
    calc n1 * 2 ^ 1074 < (n2 - n1) * 2 ^ 50 * 2 ^ 1074 := this
      _ = (n2 - n1) * 2 ^ 1074 * 2 ^ 50 := by ring
  generalize n1 * 2 ^ 1074 = N1 at *
  generalize n2 * 2 ^ 1074 = N2 at *
  generalize (n2 - n1) * 2 ^ 1074 = G at *
  clear hlt h2 hrel hr1 hr2
  -- the exponents are ordered as the quotients are
  have hs : s1 ≤ s2 := by
    by_contra hgt
    obtain ⟨k, rfl⟩ : ∃ k, s1 = s2 + (k + 1) := ⟨s1 - s2 - 1, by omega⟩
    obtain ⟨_, hlo⟩ := hnorm1 (by omega)
    have e : d * 2 ^ (s2 + (k + 1)) = 2 * (2 ^ k * (d * 2 ^ s2)) := by
      rw [pow_add, pow_succ]; ring
    rw [e] at hlo
    have hk : d * 2 ^ s2 ≤ 2 ^ k * (d * 2 ^ s2) := Nat.le_mul_of_pos_left _ (Nat.two_pow_pos k)
    generalize 2 ^ k * (d * 2 ^ s2) = X at *
    generalize d * 2 ^ s2 = Y at *
    clear hnorm1 hnorm2 hu1 hl1 hu2 hl2 e
    omega
  -- the gap exceeds one and a half units of the smaller exponent
  have hgap : 3 * (d * 2 ^ s1) < 2 * G := by
    rcases Nat.eq_zero_or_pos s1 with h0 | hpos
    · rw [h0, pow_zero, Nat.mul_one]; exact habs
    · obtain ⟨_, hlo⟩ := hnorm1 hpos
      generalize d * 2 ^ s1 = Y at *
      clear hnorm1 hnorm2 hu1 hl1 hu2 hl2
      omega
  intro heq
  rcases Nat.eq_or_lt_of_le hs with he | hlt'
  · subst he
    have hM : M1 = M2 := by omega
    subst hM
    generalize M1 * (d * 2 ^ s1) = P at *
    generalize d * 2 ^ s1 = Y at *
    clear hnorm1 hnorm2
    omega
  · obtain ⟨hM2lo, _⟩ := hnorm2 (by omega)
    have hs2 : s2 = s1 + 1 := by
      by_contra hne
      have h3 : s1 + 2 ≤ s2 := by omega
      have h4 : (s1 + 2) * 2 ^ 52 ≤ s2 * 2 ^ 52 := Nat.mul_le_mul_right _ h3
      clear hnorm1 hnorm2 hu1 hl1 hu2 hl2 hgap
      omega
    subst hs2
    have hM1' : M1 = 2 ^ 53 := by clear hnorm1 hnorm2 hu1 hl1 hu2 hl2 hgap; omega
    have hM2' : M2 = 2 ^ 52 := by clear hnorm1 hnorm2 hu1 hl1 hu2 hl2 hgap; omega
    subst hM1' hM2'
    have e : d * 2 ^ (s1 + 1) = 2 * (d * 2 ^ s1) := by rw [pow_succ]; ring
    rw [e] at hu2 hl2
    generalize d * 2 ^ s1 = Y at *
    clear hnorm1 hnorm2 e
    omega

/-- The fields of the pattern `S + (e * 2 ^ 52 + m)`, sign bit `S`: it is a
finite float of magnitude `m * 2 ^ e` units of `2 ^ (-1074)`. -/
theorem fields_of_bits (S e m : Nat) (hS : S = 0 ∨ S = 2 ^ 63) (hm53 : m < 2 ^ 53)
    (he : e ≤ 2045) (hnorm : 1 ≤ e → 2 ^ 52 ≤ m) :
    Float64.expField ⟨S + (e * 2 ^ 52 + m)⟩ ≠ 2047 ∧
    Float64.scaled ⟨S + (e * 2 ^ 52 + m)⟩ = m * 2 ^ e := by
  unfold Float64.scaled Float64.mant Float64.ulpExp Float64.fracField Float64.expField
  simp only
  generalize hb : S + (e * 2 ^ 52 + m) = b
  by_cases hm : m < 2 ^ 52
  · have he0 : e = 0 := by omega
    subst he0
    have hE : b / 2 ^ 52 % 2048 = 0 := by rcases hS with h | h <;> omega
    have hF : b % 2 ^ 52 = m := by rcases hS with h | h <;> omega
    rw [hE, hF]; simp
  · have hE : b / 2 ^ 52 % 2048 = e + 1 := by rcases hS with h | h <;> omega
    have hF : b % 2 ^ 52 = m - 2 ^ 52 := by rcases hS with h | h <;> omega
    rw [hE, hF]
    refine ⟨by omega, ?_⟩
    rw [if_neg (by omega)]
    have : 2 ^ 52 + (m - 2 ^ 52) = m := by omega
    rw [this, Nat.add_sub_cancel]

/-- Division by 100 of a finite float rounds its magnitude and keeps its sign. -/
theorem div100_finite (x : Float64) (hfin : x.expField ≠ 2047) :
    x.div100 = ⟨(if x.sign then 2 ^ 63 else 0) + roundMag x.scaled (100 * 2 ^ 1074)⟩ := by
  have hnan : x.isNaN = false := by simp [Float64.isNaN, hfin]
  have hinf : x.isInf = false := by simp [Float64.isInf, hfin]
  unfold Float64.div100
  simp only [hnan, hinf, Bool.false_eq_true, if_false]

/-- Magnitude and sign bit of the quotient of a finite float by 100. -/
theorem div100_mag (x : Float64) (hb : x.bits < 2 ^ 64) (hfin : x.expField ≠ 2047) :
    x.div100.bits % 2 ^ 63 = roundMag x.scaled (100 * 2 ^ 1074) ∧
    x.div100.bits / 2 ^ 63 = x.bits / 2 ^ 63 := by
  rw [div100_finite x hfin]
  have hle := roundMag_le x.scaled (100 * 2 ^ 1074)
    (Nat.mul_pos (by norm_num) (Nat.two_pow_pos _))
  unfold Float64.infBits at hle
  unfold Float64.sign
  generalize roundMag x.scaled (100 * 2 ^ 1074) = R at *
  generalize x.bits = b at *
  have hs : (decide (b / 2 ^ 63 % 2 = 1) = true) ↔ 2 ^ 63 ≤ b := by
    simp only [decide_eq_true_eq]; omega
  simp only
  by_cases h63 : 2 ^ 63 ≤ b
  · rw [if_pos (hs.mpr h63)]; omega
  · rw [if_neg (fun h => h63 (hs.mp h))]; omega

/-- The quotient by 100 of a magnitude that a finite float has is finite. -/
theorem round100_lt_inf (n : Nat) (hn : n < 2 ^ 2098) :
    roundMag n (100 * 2 ^ 1074) < Float64.infBits := by
  have hd : 0 < 100 * 2 ^ 1074 := Nat.mul_pos (by norm_num) (Nat.two_pow_pos _)
  have hn2 : n < 100 * 2 ^ 1074 * 2 ^ 1024 := lt_of_lt_of_le hn (by norm_num)
  obtain ⟨s, M, hr, _, _, hM, hnorm, _⟩ := roundMag_parts n (100 * 2 ^ 1074) hd hn2
  rw [hr]
  have hs : s ≤ 2039 := by
    by_contra hgt
    obtain ⟨_, hlo⟩ := hnorm (by omega)
    have h1 : 2 ^ 2040 ≤ 2 ^ s := Nat.pow_le_pow_right (by norm_num) (by omega)
    have h2 : 2 ^ 52 * (100 * 2 ^ 1074 * 2 ^ 2040) ≤ 2 ^ 52 * (100 * 2 ^ 1074 * 2 ^ s) :=
      Nat.mul_le_mul_left _ (Nat.mul_le_mul_left _ h1)
    have h3 : n * 2 ^ 1074 < 2 ^ 2098 * 2 ^ 1074 :=
      Nat.mul_lt_mul_of_pos_right hn (Nat.two_pow_pos _)
    have h4 : 2 ^ 2098 * 2 ^ 1074 ≤ 2 ^ 52 * (100 * 2 ^ 1074 * 2 ^ 2040) := by norm_num
    exact absurd (lt_of_le_of_lt (le_trans h4 (le_trans h2 hlo)) h3) (lt_irrefl _)
  unfold Float64.infBits
  have h5 : s * 2 ^ 52 ≤ 2039 * 2 ^ 52 := Nat.mul_le_mul_right _ hs
  omega

/-- Two magnitudes of finite floats more than 150 units apart, and more than
`2 ^ (-50)` of the smaller apart, have different quotients by 100. -/
theorem round100_separates (n1 n2 : Nat) (hlt : n1 < n2) (h2 : n2 < 2 ^ 2098)
    (habs : 150 < n2 - n1) (hrel : n1 < (n2 - n1) * 2 ^ 50) :
    roundMag n1 (100 * 2 ^ 1074) ≠ roundMag n2 (100 * 2 ^ 1074) := by
  apply roundMag_separates n1 n2 _ (Nat.mul_pos (by norm_num) (Nat.two_pow_pos _)) hlt _ _ hrel
  · exact lt_of_lt_of_le h2 (by norm_num)
  · have e1 : 3 * (100 * 2 ^ 1074) = 300 * 2 ^ 1074 := by ring
    have e2 : 2 * ((n2 - n1) * 2 ^ 1074) = (2 * (n2 - n1)) * 2 ^ 1074 := by ring
    rw [e1, e2]
    exact Nat.mul_lt_mul_of_pos_right (by omega) (Nat.two_pow_pos _)

/-- The magnitudes of two finite floats are at least as far apart as their
patterns, counted in units of the smaller one. -/
theorem scaled_gap (x y : Float64) (hx : x.bits < 2 ^ 64) (hy : y.bits < 2 ^ 64)
    (hfx : x.expField ≠ 2047) (hfy : y.expField ≠ 2047)
    (hlt : x.bits % 2 ^ 63 < y.bits % 2 ^ 63) :
    x.scaled + (y.bits % 2 ^ 63 - x.bits % 2 ^ 63) * 2 ^ x.ulpExp ≤ y.scaled ∧
    x.scaled < 2 ^ 53 * 2 ^ x.ulpExp := by
  obtain ⟨hbx, hmx, hex, hnx⟩ := finite_fields x hx hfx
  obtain ⟨hby, hmy, hey, hny⟩ := finite_fields y hy hfy
  have hX : x.bits % 2 ^ 63 = x.ulpExp * 2 ^ 52 + x.mant := by
    split_ifs at hbx <;> omega
  have hY : y.bits % 2 ^ 63 = y.ulpExp * 2 ^ 52 + y.mant := by
    split_ifs at hby <;> omega
  unfold Float64.scaled
  rw [hX, hY] at hlt ⊢
  generalize x.mant = m1 at *
  generalize x.ulpExp = t1 at *
  generalize y.mant = m2 at *
  generalize y.ulpExp = t2 at *
  clear hbx hby hX hY
  refine ⟨?_, Nat.mul_lt_mul_of_pos_right hmx (Nat.two_pow_pos _)⟩
  rw [← Nat.add_mul]
  rcases Nat.lt_trichotomy t1 t2 with h | h | h
  · obtain ⟨k, rfl⟩ : ∃ k, t2 = t1 + (k + 1) := ⟨t2 - t1 - 1, by omega⟩
    have hm2 : 2 ^ 52 ≤ m2 := hny (by omega)
    have e2 : m1 + ((t1 + (k + 1)) * 2 ^ 52 + m2 - (t1 * 2 ^ 52 + m1)) =
        (k + 1) * 2 ^ 52 + m2 := by omega
    rw [e2]
    have hpow : k + 2 ≤ 2 ^ (k + 1) := Nat.lt_two_pow (k + 1)
    have h1 : (k + 1) * 2 ^ 52 + m2 ≤ m2 * 2 ^ (k + 1) := by
      calc (k + 1) * 2 ^ 52 + m2 ≤ (k + 1) * m2 + m2 :=
            Nat.add_le_add_right (Nat.mul_le_mul_left _ hm2) _
        _ = m2 * (k + 2) := by ring
        _ ≤ m2 * 2 ^ (k + 1) := Nat.mul_le_mul_left _ hpow
    calc ((k + 1) * 2 ^ 52 + m2) * 2 ^ t1 ≤ m2 * 2 ^ (k + 1) * 2 ^ t1 :=
          Nat.mul_le_mul_right _ h1
      _ = m2 * 2 ^ (t1 + (k + 1)) := by rw [pow_add]; ring
  · subst h
    have e2 : m1 + (t1 * 2 ^ 52 + m2 - (t1 * 2 ^ 52 + m1)) = m2 := by omega
    rw [e2]
  · exfalso
    have hm1 : 2 ^ 52 ≤ m1 := hnx (by omega)
    have h3 : (t2 + 1) * 2 ^ 52 ≤ t1 * 2 ^ 52 := Nat.mul_le_mul_right _ h
    omega

/-- A non-negative integer below `2 ^ 53` converts to a float exactly. -/
theorem roundMag_small_int (a : Nat) (ha : a < 2 ^ 53) :
    ∃ m e, roundMag a 1 = e * 2 ^ 52 + m ∧ m < 2 ^ 53 ∧ e ≤ 2045 ∧
      (1 ≤ e → 2 ^ 52 ≤ m) ∧ m * 2 ^ e = a * 2 ^ 1074 := by
  rcases Nat.eq_zero_or_pos a with h0 | hpos
  · subst h0
    exact ⟨0, 0, by decide, by norm_num, by norm_num, fun h => absurd h (by norm_num),
      by norm_num⟩
  · obtain ⟨hL1, hLlo, hLhi⟩ := bitLen_bounds a hpos
      (lt_trans ha (Nat.pow_lt_pow_right (by norm_num) (by norm_num)))
    have hL : bitLen a ≤ 53 := by
      by_contra hgt
      have : 2 ^ 53 ≤ 2 ^ (bitLen a - 1) := Nat.pow_le_pow_right (by norm_num) (by omega)
      omega
    generalize bitLen a = L at *
    obtain ⟨j, hj⟩ : ∃ j, L + j = 53 := ⟨53 - L, by omega⟩
    have hP : 2 ^ L * 2 ^ j = 2 ^ 53 := by rw [← pow_add, hj]
    have hQ : 2 ^ (L - 1) * 2 ^ j = 2 ^ 52 := by
      rw [← pow_add]; congr 1; omega
    have hm53 : a * 2 ^ j < 2 ^ 53 := by
      rw [← hP]; exact Nat.mul_lt_mul_of_pos_right hLhi (Nat.two_pow_pos _)
    have hm52 : 2 ^ 52 ≤ a * 2 ^ j := by
      rw [← hQ]; exact Nat.mul_le_mul_right _ hLlo
    have hval : a * 2 ^ j * 2 ^ (1074 - j) = a * 2 ^ 1074 := by
      rw [Nat.mul_assoc, ← pow_add]; congr 2; omega
    obtain ⟨h1, h2⟩ := midpoints_around (a * 2 ^ j) (1074 - j) (by omega)
    have e : 2 * (a * 2 ^ j) * 2 ^ (1074 - j) = a * 2 ^ 1075 := by
      rw [Nat.mul_assoc, hval, pow_1075]
    rw [e] at h1 h2
    refine ⟨a * 2 ^ j, 1074 - j, ?_, hm53, by omega, fun _ => hm52, hval⟩
    apply roundMag_eq a 1 (a * 2 ^ j) (1074 - j) Nat.one_pos hm53 (by omega) (fun _ => hm52)
    · left; rw [Nat.mul_one]; exact h1
    · left; rw [Nat.mul_one]; exact h2

/-- What Go's `==` on two floats says when it holds. -/
theorem feq_true (x y : Float64) (h : Float64.feq x y = true) :
    x.isNaN = false ∧ y.isNaN = false ∧
    (x.bits = y.bits ∨ (x.bits % 2 ^ 63 = 0 ∧ y.bits % 2 ^ 63 = 0)) := by
  unfold Float64.feq at h
  simp only [Bool.and_eq_true, Bool.not_eq_true', Bool.or_eq_true, decide_eq_true_eq] at h
  exact ⟨h.1.1, h.1.2, h.2⟩

/-- The float read from the payload `p` has the pattern `p * 2 ^ 34`. -/
theorem pattern_of_payload (p : Nat) (hp : p < 2 ^ 30) :
    Float64.Float64frombits (toUint64 (toInt32 (p * 4) >>> (2 : Nat)) * 2 ^ 34 % 2 ^ 64) =
      ⟨p * 2 ^ 34⟩ := by
  rw [float_pattern]
  unfold Float64.Float64frombits
  have h1 : p * 4 / 4 % 2 ^ 30 * 2 ^ 34 % 2 ^ 64 = p * 2 ^ 34 := by omega
  rw [h1]

/-- The integer read from the payload `p` is its 30-bit two's-complement value. -/
theorem value_of_payload (p : Nat) (hp : p < 2 ^ 30) :
    toInt32 (p * 4) >>> (2 : Nat) = if p < 2 ^ 29 then (p : Int) else (p : Int) - 2 ^ 30 := by
  rw [toInt32_shift]
  have h1 : p * 4 / 4 % 2 ^ 30 = p := by omega
  rw [h1]

/-- The magnitude of a finite float is below `2 ^ 1024`. -/
theorem scaled_lt (x : Float64) (hb : x.bits < 2 ^ 64) (hfin : x.expField ≠ 2047) :
    x.scaled < 2 ^ 2098 := by
  obtain ⟨_, hm53, he, _⟩ := finite_fields x hb hfin
  unfold Float64.scaled
  calc x.mant * 2 ^ x.ulpExp < 2 ^ 53 * 2 ^ x.ulpExp :=
        Nat.mul_lt_mul_of_pos_right hm53 (Nat.two_pow_pos _)
    _ ≤ 2 ^ 53 * 2 ^ 2045 := Nat.mul_le_mul_left _ (Nat.pow_le_pow_right (by norm_num) he)
    _ = 2 ^ 2098 := by norm_num

/-- An infinity divided by 100 is itself. -/
theorem div100_inf (x : Float64) (hn : x.isNaN = false) (hE : x.expField = 2047) :
    x.div100 = x := by
  have hinf : x.isInf = true := by
    simp only [Float64.isNaN, hE, decide_True, Bool.true_and, ne_eq, decide_not,
      Bool.not_eq_false', decide_eq_true_eq] at hn
    simp [Float64.isInf, hE, hn]
  unfold Float64.div100
  simp only [hn, hinf, Bool.false_eq_true, if_false, if_true]

/-- Division by 100 keeps the sign bit of anything but a NaN. -/
theorem div100_sign (x : Float64) (hb : x.bits < 2 ^ 64) (hn : x.isNaN = false) :
    x.div100.bits / 2 ^ 63 = x.bits / 2 ^ 63 := by
  by_cases hE : x.expField = 2047
  · rw [div100_inf x hn hE]
  · exact (div100_mag x hb hE).2

/-- Two finite floats read from payloads of different magnitude bits have
different quotients by 100. -/
theorem round100_pattern_lt (p q : Nat) (hp : p < 2 ^ 30) (hq : q < 2 ^ 30)
    (hfp : Float64.expField ⟨p * 2 ^ 34⟩ ≠ 2047) (hfq : Float64.expField ⟨q * 2 ^ 34⟩ ≠ 2047)
    (hlt : p % 2 ^ 29 < q % 2 ^ 29) :
    roundMag (Float64.scaled ⟨p * 2 ^ 34⟩) (100 * 2 ^ 1074) ≠
      roundMag (Float64.scaled ⟨q * 2 ^ 34⟩) (100 * 2 ^ 1074) := by
  have hbp : (⟨p * 2 ^ 34⟩ : Float64).bits < 2 ^ 64 := by simp only; omega
  have hbq : (⟨q * 2 ^ 34⟩ : Float64).bits < 2 ^ 64 := by simp only; omega
  have hlt2 : (⟨p * 2 ^ 34⟩ : Float64).bits % 2 ^ 63 < (⟨q * 2 ^ 34⟩ : Float64).bits % 2 ^ 63 := by
    simp only; omega
  obtain ⟨hg, hu⟩ := scaled_gap ⟨p * 2 ^ 34⟩ ⟨q * 2 ^ 34⟩ hbp hbq hfp hfq hlt2
  have hb := scaled_lt ⟨q * 2 ^ 34⟩ hbq hfq
  simp only at hg
  have hgap : 2 ^ 34 ≤ q * 2 ^ 34 % 2 ^ 63 - p * 2 ^ 34 % 2 ^ 63 := by omega
  have hT : 0 < 2 ^ Float64.ulpExp ⟨p * 2 ^ 34⟩ := Nat.two_pow_pos _
  have hgT := Nat.mul_le_mul_right (2 ^ Float64.ulpExp ⟨p * 2 ^ 34⟩) hgap
  generalize Float64.scaled ⟨p * 2 ^ 34⟩ = a at *
  generalize Float64.scaled ⟨q * 2 ^ 34⟩ = b at *
  generalize 2 ^ Float64.ulpExp ⟨p * 2 ^ 34⟩ = T at *
  generalize (q * 2 ^ 34 % 2 ^ 63 - p * 2 ^ 34 % 2 ^ 63) * T = G at *
  clear hlt2 hgap hbp hbq hfp hfq
  exact round100_separates a b (by omega) hb (by omega) (by omega)

/-- Division by 100 is one-to-one on the magnitudes of the floats read from
payloads, NaN apart. -/
theorem div100_pattern_inj (p q : Nat) (hp : p < 2 ^ 30) (hq : q < 2 ^ 30)
    (hnp : Float64.isNaN ⟨p * 2 ^ 34⟩ = false) (hnq : Float64.isNaN ⟨q * 2 ^ 34⟩ = false)
    (h : (Float64.div100 ⟨p * 2 ^ 34⟩).bits % 2 ^ 63 =
      (Float64.div100 ⟨q * 2 ^ 34⟩).bits % 2 ^ 63) :
    p % 2 ^ 29 = q % 2 ^ 29 := by
  have hbp : (⟨p * 2 ^ 34⟩ : Float64).bits < 2 ^ 64 := by simp only; omega
  have hbq : (⟨q * 2 ^ 34⟩ : Float64).bits < 2 ^ 64 := by simp only; omega
  -- an infinity is the payload `2047 * 2 ^ 18`, of either sign
  have hinf : ∀ r : Nat, r < 2 ^ 30 → Float64.isNaN ⟨r * 2 ^ 34⟩ = false →
      Float64.expField ⟨r * 2 ^ 34⟩ = 2047 → r * 2 ^ 34 % 2 ^ 63 = Float64.infBits := by
    intro r hr hn hE
    simp only [Float64.isNaN, hE, decide_True, Bool.true_and, ne_eq, decide_not,
      Bool.not_eq_false', decide_eq_true_eq] at hn
    unfold Float64.expField at hE
    unfold Float64.fracField at hn
    unfold Float64.infBits
    simp only at hE hn
    omega
  by_cases hEp : Float64.expField ⟨p * 2 ^ 34⟩ = 2047
  · rw [div100_inf _ hnp hEp] at h
    have h1 := hinf p hp hnp hEp
    by_cases hEq : Float64.expField ⟨q * 2 ^ 34⟩ = 2047
    · have h2 := hinf q hq hnq hEq
      omega
    · rw [(div100_mag _ hbq hEq).1] at h
      have := round100_lt_inf _ (scaled_lt _ hbq hEq)
      simp only at h h1
      omega
  · rw [(div100_mag _ hbp hEp).1] at h
    by_cases hEq : Float64.expField ⟨q * 2 ^ 34⟩ = 2047
    · rw [div100_inf _ hnq hEq] at h
      have h2 := hinf q hq hnq hEq
      have := round100_lt_inf _ (scaled_lt _ hbp hEp)
      simp only at h h2
      omega
    · rw [(div100_mag _ hbq hEq).1] at h
      rcases Nat.lt_trichotomy (p % 2 ^ 29) (q % 2 ^ 29) with hlt | heq | hgt
      · exact absurd h (round100_pattern_lt p q hp hq hEp hEq hlt)
      · exact heq
      · exact absurd h.symm (round100_pattern_lt q p hq hp hEq hEp hgt)

/-- The conversion of an integer of magnitude below `2 ^ 53` is exact. -/
theorem ofInt_small (v : Int) (hv : v.natAbs < 2 ^ 53) :
    (Float64.ofInt v).bits < 2 ^ 64 ∧ (Float64.ofInt v).expField ≠ 2047 ∧
    (Float64.ofInt v).scaled = v.natAbs * 2 ^ 1074 ∧
    (Float64.ofInt v).bits / 2 ^ 63 = if v < 0 then 1 else 0 := by
  obtain ⟨m, e, hr, hm53, he, hnorm, hval⟩ := roundMag_small_int v.natAbs hv
  have hS : (if v < 0 then 2 ^ 63 else 0) = 0 ∨ (if v < 0 then 2 ^ 63 else 0) = 2 ^ 63 := by
    split_ifs
    · right; rfl
    · left; rfl
  obtain ⟨hfin, hsc⟩ := fields_of_bits (if v < 0 then 2 ^ 63 else 0) e m hS hm53 he hnorm
  have hofs : Float64.ofInt v = ⟨(if v < 0 then 2 ^ 63 else 0) + (e * 2 ^ 52 + m)⟩ := by
    unfold Float64.ofInt; rw [hr]
  rw [hofs]
  refine ⟨?_, hfin, hsc.trans hval, ?_⟩
  · have h5 : e * 2 ^ 52 ≤ 2045 * 2 ^ 52 := Nat.mul_le_mul_right _ he
    simp only
    split_ifs <;> omega
  · have h5 : e * 2 ^ 52 ≤ 2045 * 2 ^ 52 := Nat.mul_le_mul_right _ he
    simp only
    split_ifs <;> omega

/-- Division by 100 is one-to-one on the magnitudes of the floats converted
from integers below `2 ^ 50`. -/
theorem div100_ofInt_inj (v w : Int) (hv : v.natAbs < 2 ^ 50) (hw : w.natAbs < 2 ^ 50)
    (h : (Float64.ofInt v).div100.bits % 2 ^ 63 = (Float64.ofInt w).div100.bits % 2 ^ 63) :
    v.natAbs = w.natAbs := by
  obtain ⟨hbv, hfv, hsv, _⟩ := ofInt_small v (by omega)
  obtain ⟨hbw, hfw, hsw, _⟩ := ofInt_small w (by omega)
  rw [(div100_mag _ hbv hfv).1, (div100_mag _ hbw hfw).1, hsv, hsw] at h
  have key : ∀ a b : Nat, a < b → b < 2 ^ 50 →
      roundMag (a * 2 ^ 1074) (100 * 2 ^ 1074) ≠ roundMag (b * 2 ^ 1074) (100 * 2 ^ 1074) := by
    intro a b hab hb
    have hT : (150 : Nat) < 2 ^ 1074 := by norm_num
    have hsub : b * 2 ^ 1074 - a * 2 ^ 1074 = (b - a) * 2 ^ 1074 := (Nat.sub_mul _ _ _).symm
    have hge : 2 ^ 1074 ≤ (b - a) * 2 ^ 1074 := Nat.le_mul_of_pos_left _ (by omega)
    apply round100_separates
    · exact Nat.mul_lt_mul_of_pos_right hab (Nat.two_pow_pos _)
    · calc b * 2 ^ 1074 < 2 ^ 50 * 2 ^ 1074 :=
            Nat.mul_lt_mul_of_pos_right hb (Nat.two_pow_pos _)
        _ ≤ 2 ^ 2098 := by norm_num
    · rw [hsub]; exact lt_of_lt_of_le hT hge
    · rw [hsub]
      calc a * 2 ^ 1074 < 2 ^ 50 * 2 ^ 1074 :=
            Nat.mul_lt_mul_of_pos_right (by omega) (Nat.two_pow_pos _)
        _ = 2 ^ 1074 * 2 ^ 50 := Nat.mul_comm _ _
        _ ≤ (b - a) * 2 ^ 1074 * 2 ^ 50 := Nat.mul_le_mul_right _ hge
  rcases Nat.lt_trichotomy v.natAbs w.natAbs with hlt | heq | hgt
  · exact absurd h (key _ _ hlt hw)
  · exact heq
  · exact absurd h.symm (key _ _ hgt hv)

/-- Integer flag, not multiplied: distinct payloads give distinct integers. -/
theorem int_payload_inj (p q : Nat) (hp : p < 2 ^ 30) (hq : q < 2 ^ 30) (hne : p ≠ q) :
    toInt32 (p * 4) >>> (2 : Nat) ≠ toInt32 (q * 4) >>> (2 : Nat) ∧
    (toInt32 (p * 4) >>> (2 : Nat)).natAbs < 2 ^ 50 := by
  rw [value_of_payload p hp, value_of_payload q hq]
  constructor
  · split_ifs <;> omega
  · split_ifs <;> omega

/-- Integer flag, multiplied: two distinct integers below `2 ^ 50` in magnitude
give quotients by 100 that differ, as patterns and under Go's `==`. -/
theorem int_mult_ne (v w : Int) (hv : v.natAbs < 2 ^ 50) (hw : w.natAbs < 2 ^ 50)
    (hne : v ≠ w) :
    (Float64.ofInt v).div100 ≠ (Float64.ofInt w).div100 ∧
    Float64.feq (Float64.ofInt v).div100 (Float64.ofInt w).div100 = false := by
  obtain ⟨hbv, hfv, _, hsv⟩ := ofInt_small v (by omega)
  obtain ⟨hbw, hfw, _, hsw⟩ := ofInt_small w (by omega)
  have hzero : (Float64.ofInt 0).div100.bits % 2 ^ 63 = 0 := by decide
  have hbits : (Float64.ofInt v).div100.bits ≠ (Float64.ofInt w).div100.bits := by
    intro h
    have hmag := div100_ofInt_inj v w hv hw (by rw [h])
    have hsign : (Float64.ofInt v).div100.bits / 2 ^ 63 =
        (Float64.ofInt w).div100.bits / 2 ^ 63 := by rw [h]
    rw [(div100_mag _ hbv hfv).2, (div100_mag _ hbw hfw).2, hsv, hsw] at hsign
    apply hne
    split_ifs at hsign <;> omega
  refine ⟨fun h => hbits (by rw [h]), ?_⟩
  by_contra hf
  have ht : Float64.feq (Float64.ofInt v).div100 (Float64.ofInt w).div100 = true := by
    simpa using hf
  obtain ⟨_, _, h | ⟨h1, h2⟩⟩ := feq_true _ _ ht
  · exact hbits h
  · have hv0 := div100_ofInt_inj v 0 hv (by norm_num) (by rw [h1, hzero])
    have hw0 := div100_ofInt_inj w 0 hw (by norm_num) (by rw [h2, hzero])
    apply hne
    simp only [Int.natAbs_zero] at hv0 hw0
    omega

/-- Float flag, multiplied: two distinct payloads give quotients by 100 with
the same pattern only when both are NaN, and equal under Go's `==` only when
both are zeros. -/
theorem float_mult_ne (p q : Nat) (hp : p < 2 ^ 30) (hq : q < 2 ^ 30) (hne : p ≠ q) :
    (Float64.div100 ⟨p * 2 ^ 34⟩ = Float64.div100 ⟨q * 2 ^ 34⟩ →
      (Float64.div100 ⟨p * 2 ^ 34⟩).isNaN = true ∧
      (Float64.div100 ⟨q * 2 ^ 34⟩).isNaN = true) ∧
    (Float64.feq (Float64.div100 ⟨p * 2 ^ 34⟩) (Float64.div100 ⟨q * 2 ^ 34⟩) = true →
      p % 2 ^ 29 = 0 ∧ q % 2 ^ 29 = 0) := by
  have hbp : (⟨p * 2 ^ 34⟩ : Float64).bits < 2 ^ 64 := by simp only; omega
  have hbq : (⟨q * 2 ^ 34⟩ : Float64).bits < 2 ^ 64 := by simp only; omega
  have core : Float64.isNaN ⟨p * 2 ^ 34⟩ = false → Float64.isNaN ⟨q * 2 ^ 34⟩ = false →
      (Float64.div100 ⟨p * 2 ^ 34⟩).bits = (Float64.div100 ⟨q * 2 ^ 34⟩).bits → False := by
    intro hnp hnq h
    have hmag := div100_pattern_inj p q hp hq hnp hnq (by rw [h])
    have hsign : (Float64.div100 ⟨p * 2 ^ 34⟩).bits / 2 ^ 63 =
        (Float64.div100 ⟨q * 2 ^ 34⟩).bits / 2 ^ 63 := by rw [h]
    rw [div100_sign _ hbp hnp, div100_sign _ hbq hnq] at hsign
    simp only at hsign
    omega
  constructor
  · intro h
    rw [div100_isNaN, div100_isNaN]
    have hsame : Float64.isNaN ⟨p * 2 ^ 34⟩ = Float64.isNaN ⟨q * 2 ^ 34⟩ := by
      rw [← div100_isNaN ⟨p * 2 ^ 34⟩, ← div100_isNaN ⟨q * 2 ^ 34⟩, h]
    cases hnp : Float64.isNaN ⟨p * 2 ^ 34⟩ with
    | true => rw [hnp] at hsame; exact ⟨rfl, hsame.symm⟩
    | false =>
      rw [hnp] at hsame
      exact absurd (core hnp hsame.symm (by rw [h])) id
  · intro h
    obtain ⟨hnp, hnq, hcase⟩ := feq_true _ _ h
    rw [div100_isNaN] at hnp hnq
    rcases hcase with hb | ⟨h1, h2⟩
    · exact absurd (core hnp hnq hb) id
    · have hz : (Float64.div100 ⟨0 * 2 ^ 34⟩).bits % 2 ^ 63 = 0 := by decide
      have hn0 : Float64.isNaN ⟨0 * 2 ^ 34⟩ = false := by decide
      have hp0 := div100_pattern_inj p 0 hp (by norm_num) hnp hn0 (by rw [h1, hz])
      have hq0 := div100_pattern_inj q 0 hq (by norm_num) hnq hn0 (by rw [h2, hz])
      exact ⟨by omega, by omega⟩

/-- C17, as stated, fails. With the float flag, the payloads `0` and `2 ^ 29`
decode to `+0` and `-0`, which are equal numbers (Go's `==`), multiplied or
not; and with the flags (float, multiplied) the payloads `0x1FFC0001` and
`0x1FFE0001` decode to one and the same NaN pattern. All NaN payloads are
written `NaN`. -/
theorem C17_zero_and_nan_payloads_collide :
    ((0 : Nat) ≠ 2 ^ 29) ∧
    Float64.feq (RK.number (0 * 4)).2.1 (RK.number (2 ^ 29 * 4)).2.1 = true ∧
    Float64.feq (RK.number (0 * 4 + 1)).2.1 (RK.number (2 ^ 29 * 4 + 1)).2.1 = true ∧
    (RK.number (0x1FFC0001 * 4 + 1)).2.1 = (RK.number (0x1FFE0001 * 4 + 1)).2.1 ∧
    RK.String (0x1FFC0001 * 4 + 1) = "NaN" ∧ RK.String (0x1FFE0001 * 4 + 1) = "NaN" ∧
    RK.String (0x1FFC0001 * 4) = "NaN" ∧ RK.String (0x1FFE0001 * 4) = "NaN" := by
  refine ⟨by decide, by decide, by decide, by decide, by decide, by decide, by decide,
    by decide⟩

/-- C17, amended: for two distinct 30-bit payloads `p` and `q` under the same
flags, the decoded integers differ (integer, not multiplied); the decoded floats
differ as patterns and under Go's `==` (integer, multiplied); the decoded floats
differ as patterns, and are equal under `==` only when they are the two zeros,
`p` and `q` being `0` and `2 ^ 29` (float, not multiplied); the decoded floats
have the same pattern only when both are NaN, and are equal under `==` only
when they are the two zeros (float, multiplied). -/
theorem C17_injective_up_to_zero_and_nan (p q : Nat) (hp : p < 2 ^ 30) (hq : q < 2 ^ 30)
    (hne : p ≠ q) :
    (RK.number (p * 4 + 2)).1 ≠ (RK.number (q * 4 + 2)).1 ∧
    (RK.number (p * 4 + 3)).2.1 ≠ (RK.number (q * 4 + 3)).2.1 ∧
    Float64.feq (RK.number (p * 4 + 3)).2.1 (RK.number (q * 4 + 3)).2.1 = false ∧
    (RK.number (p * 4)).2.1 ≠ (RK.number (q * 4)).2.1 ∧
    (Float64.feq (RK.number (p * 4)).2.1 (RK.number (q * 4)).2.1 = true →
      p % 2 ^ 29 = 0 ∧ q % 2 ^ 29 = 0) ∧
    ((RK.number (p * 4 + 1)).2.1 = (RK.number (q * 4 + 1)).2.1 →
      (RK.number (p * 4 + 1)).2.1.isNaN = true ∧
      (RK.number (q * 4 + 1)).2.1.isNaN = true) ∧
    (Float64.feq (RK.number (p * 4 + 1)).2.1 (RK.number (q * 4 + 1)).2.1 = true →
      p % 2 ^ 29 = 0 ∧ q % 2 ^ 29 = 0) := by
  obtain ⟨hp0, hp1, hp2, hp3⟩ := number_of_payload p
  obtain ⟨hq0, hq1, hq2, hq3⟩ := number_of_payload q
  rw [hp0, hp1, hp2, hp3, hq0, hq1, hq2, hq3, pattern_of_payload p hp,
    pattern_of_payload q hq]
  simp only
  obtain ⟨hv, hvp⟩ := int_payload_inj p q hp hq hne
  obtain ⟨_, hvq⟩ := int_payload_inj q p hq hp (Ne.symm hne)
  obtain ⟨h11a, h11b⟩ := int_mult_ne _ _ hvp hvq hv
  obtain ⟨h01a, h01b⟩ := float_mult_ne p q hp hq hne
  refine ⟨hv, h11a, h11b, ?_, ?_, h01a, h01b⟩
  · intro h
    rw [Float64.mk.injEq] at h
    omega
  · intro h
    obtain ⟨_, _, hb | ⟨h1, h2⟩⟩ := feq_true _ _ h
    · simp only at hb; omega
    · simp only at h1 h2
      exact ⟨by omega, by omega⟩

/-- Witness for C17: the payloads `1` and `2`, and the two zero payloads. -/
theorem C17_injective_up_to_zero_and_nan_witness :
    (1 : Nat) < 2 ^ 30 ∧ (2 : Nat) < 2 ^ 30 ∧ (1 : Nat) ≠ 2 ∧
    (RK.number (1 * 4 + 2)).1 ≠ (RK.number (2 * 4 + 2)).1 ∧
    Float64.feq (RK.number (1 * 4 + 3)).2.1 (RK.number (2 * 4 + 3)).2.1 = false ∧
    (RK.number (1 * 4)).2.1 ≠ (RK.number (2 * 4)).2.1 :=
  ⟨by decide, by decide, by decide,
    (C17_injective_up_to_zero_and_nan 1 2 (by decide) (by decide) (by decide)).1,
    (C17_injective_up_to_zero_and_nan 1 2 (by decide) (by decide) (by decide)).2.2.1,
    (C17_injective_up_to_zero_and_nan 1 2 (by decide) (by decide) (by decide)).2.2.2.1⟩
